import Mathlib

/-!
# Verification of the skiplist implementation

A shallow embedding of the skiplist package (`skiplist.go`): nodes live in an
arena (`List Node`) and pointers are arena indices (`Option Nat`).  Keys are
modelled as rationals; `float64` comparisons in the source are order/abs
comparisons that coincide with the rational ones on the inputs considered here.
The random source is externalized: `generateLevel` takes the drawn 64-bit value
as an argument, and `Insert` takes the generated level as an argument.
Loops of the source become fuel-based recursions; `Res` records normal results,
nil-pointer dereferences and fuel exhaustion.
-/

namespace Skiplist

/-- `MAX_LEVEL = 25` from the source. -/
def MAX_LEVEL : Nat := 25

/-- `EPS = 0.00001` from the source, written as a raw fraction so that the
kernel can evaluate comparisons against it. -/
def EPS : ℚ := ⟨1, 100000, by norm_num, by norm_num⟩

/-- `EPS` as a division. -/
theorem EPS_eq : EPS = 1 / 100000 := by
  rw [EPS, Rat.mk'_eq_divInt, Rat.divInt_eq_div]; norm_num

/-- A stored value: `ExtractValue` returns `key`; `tag` stands for the rest of
the payload (distinguishing different values with equal keys). -/
structure ListElem where
  key : ℚ
  tag : Nat
deriving DecidableEq, Repr

/-- `ExtractValue` of the `ListElement` interface. -/
def ListElem.extractValue (e : ListElem) : ℚ := e.key

/-- `SkipListElement`: `next` is the 25-entry forward-pointer array, `prev` the
single backward pointer at level 0. -/
structure Node where
  next : List (Option Nat)
  level : Nat
  key : ℚ
  value : ListElem
  prev : Option Nat
deriving DecidableEq, Repr

/-- The `SkipList` struct.  `maxLevel` is an `Int` because `Delete` sets it to
`index - 1`, which can be `-1`.  `elementCount` is an `Int` like the Go `int`. -/
structure SkipList where
  nodes : List Node
  startLevels : List (Option Nat)
  endLevels : List (Option Nat)
  maxNewLevel : Nat
  maxLevel : Int
  elementCount : Int
  eps : ℚ
deriving DecidableEq, Repr

/-- Result of an operation: normal value, nil dereference (Go panic), or fuel
exhaustion (the Go loop not terminating within the given bound). -/
inductive Res (α : Type) where
  | ok : α → Res α
  | nilDeref : Res α
  | outOfFuel : Res α
deriving DecidableEq, Repr

/-- Placeholder node returned by out-of-range arena reads (never reached on
valid indices). -/
def dummyNode : Node :=
  { next := List.replicate MAX_LEVEL none, level := 0, key := 0,
    value := ⟨0, 0⟩, prev := none }

/-- Dereference an arena index. -/
def SkipList.nget (t : SkipList) (i : Nat) : Node := t.nodes.getD i dummyNode

/-- `node.key`. -/
def SkipList.keyAt (t : SkipList) (i : Nat) : ℚ := (t.nget i).key

/-- `node.next[lvl]`. -/
def SkipList.nextAt (t : SkipList) (i lvl : Nat) : Option Nat :=
  (t.nget i).next.getD lvl none

/-- `node.prev`. -/
def SkipList.prevAt (t : SkipList) (i : Nat) : Option Nat := (t.nget i).prev

/-- `t.startLevels[lvl]`. -/
def SkipList.startAt (t : SkipList) (lvl : Nat) : Option Nat :=
  t.startLevels.getD lvl none

/-- `t.endLevels[lvl]`. -/
def SkipList.endAt (t : SkipList) (lvl : Nat) : Option Nat :=
  t.endLevels.getD lvl none

/-- Replace the element at index `i` (no-op when out of range, which never
happens on the indices used). -/
def modifyAt {α : Type} (l : List α) (i : Nat) (f : α → α) : List α :=
  match l[i]? with
  | some a => l.set i (f a)
  | none => l

/-- Write `node.next[lvl] = v`. -/
def SkipList.setNext (t : SkipList) (i lvl : Nat) (v : Option Nat) : SkipList :=
  { t with nodes := modifyAt t.nodes i (fun n => { n with next := n.next.set lvl v }) }

/-- Write `node.prev = v`. -/
def SkipList.setPrev (t : SkipList) (i : Nat) (v : Option Nat) : SkipList :=
  { t with nodes := modifyAt t.nodes i (fun n => { n with prev := v }) }

/-- Write `node.value = v`. -/
def SkipList.setValue (t : SkipList) (i : Nat) (v : ListElem) : SkipList :=
  { t with nodes := modifyAt t.nodes i (fun n => { n with value := v }) }

/-- Write `t.startLevels[lvl] = v`. -/
def SkipList.setStart (t : SkipList) (lvl : Nat) (v : Option Nat) : SkipList :=
  { t with startLevels := t.startLevels.set lvl v }

/-- Write `t.endLevels[lvl] = v`. -/
def SkipList.setEnd (t : SkipList) (lvl : Nat) (v : Option Nat) : SkipList :=
  { t with endLevels := t.endLevels.set lvl v }

/-- `NewSeedEps` (minus the seeding of the externalized random source). -/
def NewSeedEps (eps : ℚ) : SkipList :=
  { nodes := []
    startLevels := List.replicate MAX_LEVEL none
    endLevels := List.replicate MAX_LEVEL none
    maxNewLevel := MAX_LEVEL
    maxLevel := 0
    elementCount := 0
    eps := eps }

/-- `isEmpty`. -/
def SkipList.isEmpty (t : SkipList) : Bool := (t.startAt 0).isNone

/-- Integer absolute value by case split (kernel-reducible). -/
def intAbs (x : ℤ) : ℤ := if x < 0 then -x else x

/-- `a ≤ b` on rationals by cross multiplication.  The source only ever
compares keys, so every floating-point comparison is embedded through these
kernel-reducible forms. -/
def qLe (a b : ℚ) : Bool := decide (a.num * (b.den : ℤ) ≤ b.num * (a.den : ℤ))

/-- `a < b` on rationals by cross multiplication. -/
def qLt (a b : ℚ) : Bool := decide (a.num * (b.den : ℤ) < b.num * (a.den : ℤ))

/-- `|a - b| ≤ e`: the source's `math.Abs(a - b) <= eps`. -/
def qAbsLe (a b e : ℚ) : Bool :=
  decide (intAbs (a.num * (b.den : ℤ) - b.num * (a.den : ℤ)) * (e.den : ℤ) ≤
    e.num * ((a.den : ℤ) * (b.den : ℤ)))

/-- `a - b ≤ e`: the signed comparison of `ChangeValue` (no absolute value). -/
def qSubLe (a b e : ℚ) : Bool :=
  decide ((a.num * (b.den : ℤ) - b.num * (a.den : ℤ)) * (e.den : ℤ) ≤
    e.num * ((a.den : ℤ) * (b.den : ℤ)))

/-- Number of trailing zero bits, with fuel; `tzGo 64 0 = 64` as for
`bits.TrailingZeros64(0)`. -/
def tzGo : Nat → Nat → Nat
  | 0, _ => 0
  | f + 1, x => if x % 2 = 1 then 0 else tzGo f (x / 2) + 1

/-- `bits.TrailingZeros64`. -/
def trailingZeros64 (x : Nat) : Nat := tzGo 64 x

/-- `2^64`, the modulus of Go's `uint64` arithmetic. -/
def U64 : Nat := 2 ^ 64

/-- `generateLevel`: the masking `(1 << uint(maxLevel-1)) - 1` is computed in
`uint64` arithmetic (a shift by 64 or more gives 0, and subtraction wraps), and
the drawn random value `x` is a 64-bit value. -/
def generateLevel (maxLevel : Nat) (x : Nat) : Nat :=
  let shifted := (1 <<< (maxLevel - 1)) % U64
  let mask := (shifted + U64 - 1) % U64
  let xm := x &&& mask
  let zeroes := trailingZeros64 xm
  if zeroes ≤ maxLevel then zeroes else maxLevel - 1

/-- Condition `t.startLevels[i] != nil && t.startLevels[i].key <= key`. -/
def SkipList.startKeyLe (t : SkipList) (i : Nat) (key : ℚ) : Bool :=
  match t.startAt i with
  | some j => qLe (t.keyAt j) key
  | none => false

/-- The body of `findEntryIndex`'s downward scan: the argument `n + 1` means
the scan is at `i = n`; running out (argument `0`) is the `return 0` after the
loop. -/
def findEntryIndexGo (t : SkipList) (key : ℚ) (level : Nat) : Nat → Nat
  | 0 => 0
  | n + 1 => if t.startKeyLe n key || decide (n ≤ level) then n else findEntryIndexGo t key level n

/-- `findEntryIndex`. -/
def SkipList.findEntryIndex (t : SkipList) (key : ℚ) (level : Nat) : Nat :=
  if t.maxLevel < 0 then 0 else findEntryIndexGo t key level (t.maxLevel.toNat + 1)

/-- Fuel bound used for the loops of `findExtended`, `Delete` and `Insert`;
generous enough for every terminating run on the arena. -/
def bigFuel (t : SkipList) : Nat := 26 * (t.nodes.length + 2) + 64

/-- The main loop of `findExtended` (`index`/`currentNode` state). -/
def findExtendedGo (t : SkipList) (key : ℚ) (fge : Bool) :
    Nat → Nat → Nat → Res (Option Nat × Bool)
  | 0, _, _ => .outOfFuel
  | fuel + 1, index, cur =>
    if qAbsLe (t.keyAt cur) key t.eps then .ok (some cur, true)
    else
      match t.nextAt cur index with
      | some nn =>
        if qLe (t.keyAt nn) key then findExtendedGo t key fge fuel index nn
        else if 0 < index then
          match t.nextAt cur 0 with
          | some w =>
            if qAbsLe (t.keyAt w) key t.eps then .ok (some w, true)
            else findExtendedGo t key fge fuel (index - 1) cur
          | none => findExtendedGo t key fge fuel (index - 1) cur
        else if fge then .ok (some nn, true)
        else .ok (none, false)
      | none =>
        if 0 < index then
          match t.nextAt cur 0 with
          | some w =>
            if qAbsLe (t.keyAt w) key t.eps then .ok (some w, true)
            else findExtendedGo t key fge fuel (index - 1) cur
          | none => findExtendedGo t key fge fuel (index - 1) cur
        else .ok (none, false)

/-- `findExtended`. -/
def SkipList.findExtended (t : SkipList) (key : ℚ) (fge : Bool) :
    Res (Option Nat × Bool) :=
  if t.isEmpty then .ok (none, false)
  else
    let index := t.findEntryIndex key 0
    match t.startAt index with
    | some c => findExtendedGo t key fge (bigFuel t) index c
    | none => .nilDeref

/-- `Find`. -/
def SkipList.Find (t : SkipList) (e : ListElem) : Res (Option Nat × Bool) :=
  t.findExtended e.extractValue false

/-- `FindGreaterOrEqual`. -/
def SkipList.FindGreaterOrEqual (t : SkipList) (e : ListElem) : Res (Option Nat × Bool) :=
  t.findExtended e.extractValue true

/-- The main loop of `Delete` (`index`/`currentNode` state, threading the
list); `index = 0` with a down-move is the `index < 0` loop exit. -/
def deleteGo (key : ℚ) : Nat → Nat → Option Nat → SkipList → Res SkipList
  | 0, _, _, _ => .outOfFuel
  | fuel + 1, index, cur, t =>
    let nxt : Option Nat :=
      match cur with
      | none => t.startAt index
      | some c => t.nextAt c index
    match nxt with
    | none =>
      if index = 0 then .ok t else deleteGo key fuel (index - 1) cur t
    | some nn =>
      let t1 :=
        if qAbsLe (t.keyAt nn) key t.eps then
          let nnNext := t.nextAt nn index
          let ta := match cur with
            | some c => t.setNext c index nnNext
            | none => t
          let tb :=
            if index = 0 then
              let tx := match nnNext with
                | some w => ta.setPrev w cur
                | none => ta
              { tx with elementCount := tx.elementCount - 1 }
            else ta
          let tc :=
            if tb.startAt index = some nn then
              let tx := tb.setStart index nnNext
              if nnNext = none then { tx with maxLevel := (index : Int) - 1 } else tx
            else tb
          let td := if nnNext = none then tc.setEnd index cur else tc
          td.setNext nn index none
        else t
      if qLt (t1.keyAt nn) key then deleteGo key fuel index (some nn) t1
      else if index = 0 then .ok t1
      else deleteGo key fuel (index - 1) cur t1

/-- `Delete`. -/
def SkipList.Delete (t : SkipList) (e : ListElem) : Res SkipList :=
  if t.isEmpty then .ok t
  else deleteGo e.extractValue (bigFuel t) (t.findEntryIndex e.extractValue 0) none t

/-- The main loop of `Insert`'s non-extremal pass.  The write
`nextNode.prev = elem` is unguarded in the source: firing the splice at level 0
with `nextNode == nil` is a nil dereference. -/
def insertWalkGo (eKey : ℚ) (elemIdx : Nat) (level : Nat) :
    Nat → Nat → Option Nat → SkipList → Res SkipList
  | 0, _, _, _ => .outOfFuel
  | fuel + 1, index, cur, t =>
    let nxt : Option Nat :=
      match cur with
      | none => t.startAt index
      | some c => t.nextAt c index
    let spliceable : Bool :=
      decide (index ≤ level) &&
        (match nxt with
         | none => true
         | some nn => qLe eKey (t.keyAt nn))
    if spliceable && index = 0 && nxt.isNone then .nilDeref
    else
      let t' :=
        if spliceable then
          let ta := t.setNext elemIdx index nxt
          let tb := match cur with
            | some c => ta.setNext c index (some elemIdx)
            | none => ta
          if index = 0 then
            let tc := tb.setPrev elemIdx cur
            match nxt with
            | some nn => tc.setPrev nn (some elemIdx)
            | none => tc
          else tb
        else t
      match nxt with
      | some nn =>
        if qLt (t'.keyAt nn) eKey then insertWalkGo eKey elemIdx level fuel index (some nn) t'
        else if index = 0 then .ok t'
        else insertWalkGo eKey elemIdx level fuel (index - 1) cur t'
      | none =>
        if index = 0 then .ok t' else insertWalkGo eKey elemIdx level fuel (index - 1) cur t'

/-- The anchor-fixup loop at the end of `Insert`: the argument `n + 1` means
the loop is at `i = n`. -/
def anchorLoop (elemIdx : Nat) (eKey : ℚ) (newFirst newLast normally : Bool) :
    Nat → SkipList → SkipList
  | 0, t => t
  | n + 1, t =>
    let i := n
    let p1 : SkipList × Bool :=
      if newFirst || normally then
        let ta :=
          if (match t.startAt i with
              | none => true
              | some j => qLt eKey (t.keyAt j)) then
            let tx :=
              if i = 0 then
                match t.startAt i with
                | some j => t.setPrev j (some elemIdx)
                | none => t
              else t
            let ty := tx.setNext elemIdx i (tx.startAt i)
            ty.setStart i (some elemIdx)
          else t
        let tb := if ta.nextAt elemIdx i = none then ta.setEnd i (some elemIdx) else ta
        (tb, true)
      else (t, false)
    let t1 := p1.1
    let p2 : SkipList × Bool :=
      if newLast then
        let ta :=
          if !newFirst then
            let tx := match t1.endAt i with
              | some j => t1.setNext j i (some elemIdx)
              | none => t1
            let ty := if i = 0 then tx.setPrev elemIdx (t1.endAt i) else tx
            ty.setEnd i (some elemIdx)
          else t1
        let tb :=
          if (match ta.startAt i with
              | none => true
              | some j => qLt eKey (ta.keyAt j)) then
            ta.setStart i (some elemIdx)
          else ta
        (tb, true)
      else (t1, false)
    if p1.2 || p2.2 then anchorLoop elemIdx eKey newFirst newLast normally n p2.1 else p2.1

/-- `Insert`, taking the level drawn by `generateLevel` as an argument. -/
def SkipList.Insert (t : SkipList) (e : ListElem) (genLevel : Nat) : Res SkipList :=
  let p : Nat × SkipList :=
    if (genLevel : Int) > t.maxLevel + 1 then
      ((t.maxLevel + 1).toNat, { t with maxLevel := t.maxLevel + 1 })
    else (genLevel, t)
  let level := p.1
  let t1 := p.2
  let elemIdx := t1.nodes.length
  let elem : Node :=
    { next := List.replicate MAX_LEVEL none, level := level,
      key := e.extractValue, value := e, prev := none }
  let t2 := { t1 with nodes := t1.nodes ++ [elem], elementCount := t1.elementCount + 1 }
  match t2.startAt 0 with
  | none => .ok (anchorLoop elemIdx e.extractValue true true false (level + 1) t2)
  | some s0 =>
    match t2.endAt 0 with
    | none => .nilDeref
    | some e0 =>
      let newFirst : Bool := qLt e.extractValue (t2.keyAt s0)
      let newLast : Bool := qLt (t2.keyAt e0) e.extractValue
      if !newFirst && !newLast then
        let index := t2.findEntryIndex e.extractValue level
        match insertWalkGo e.extractValue elemIdx level (bigFuel t2) index none t2 with
        | .ok t3 => .ok (anchorLoop elemIdx e.extractValue false false true (level + 1) t3)
        | .nilDeref => .nilDeref
        | .outOfFuel => .outOfFuel
      else .ok (anchorLoop elemIdx e.extractValue newFirst newLast false (level + 1) t2)

/-- `GetValue`. -/
def SkipList.GetValue (t : SkipList) (i : Nat) : ListElem := (t.nget i).value

/-- `GetSmallestNode`. -/
def SkipList.GetSmallestNode (t : SkipList) : Option Nat := t.startAt 0

/-- `GetLargestNode`. -/
def SkipList.GetLargestNode (t : SkipList) : Option Nat := t.endAt 0

/-- `Next`: wraps to `startLevels[0]` when there is no forward neighbour. -/
def SkipList.Next (t : SkipList) (i : Nat) : Option Nat :=
  match t.nextAt i 0 with
  | none => t.startAt 0
  | some j => some j

/-- `Prev`: wraps to `endLevels[0]` when there is no backward neighbour. -/
def SkipList.Prev (t : SkipList) (i : Nat) : Option Nat :=
  match t.prevAt i with
  | none => t.endAt 0
  | some j => some j

/-- `ChangeValue`: the source compares the signed difference
`newValue.ExtractValue() - e.key` against `eps` (no absolute value). -/
def SkipList.ChangeValue (t : SkipList) (i : Nat) (newValue : ListElem) :
    SkipList × Bool :=
  if qSubLe newValue.extractValue (t.keyAt i) t.eps then (t.setValue i newValue, true)
  else (t, false)

/-- An operation of a trace: insert (key, tag, generated level) or delete by
key. -/
inductive Op where
  | ins : ℚ → Nat → Nat → Op
  | del : ℚ → Op
deriving DecidableEq, Repr

/-- Run a trace from a given state. -/
def runOpsFrom : SkipList → List Op → Res SkipList
  | t, [] => .ok t
  | t, Op.ins k tag lvl :: rest =>
    match t.Insert ⟨k, tag⟩ lvl with
    | .ok t' => runOpsFrom t' rest
    | .nilDeref => .nilDeref
    | .outOfFuel => .outOfFuel
  | t, Op.del k :: rest =>
    match t.Delete ⟨k, 0⟩ with
    | .ok t' => runOpsFrom t' rest
    | .nilDeref => .nilDeref
    | .outOfFuel => .outOfFuel

/-- Run a trace from a fresh list with the default `EPS`. -/
def runOps (ops : List Op) : Res SkipList := runOpsFrom (NewSeedEps EPS) ops

/-- The level-0 forward walk from a given pointer, with fuel. -/
def walk0 (t : SkipList) : Nat → Option Nat → List Nat
  | 0, _ => []
  | _ + 1, none => []
  | fuel + 1, some i => i :: walk0 t fuel (t.nextAt i 0)

/-- The list of node indices visited by following `next[0]` from
`startLevels[0]`. -/
def chainList (t : SkipList) : List Nat :=
  walk0 t (t.nodes.length + 1) (t.startAt 0)

/-- The state a trace ends in (fresh empty list when the trace aborted). -/
def stateOf (ops : List Op) : SkipList :=
  match runOps ops with
  | .ok t => t
  | _ => NewSeedEps EPS

/-- One inserted node with key 10, generated level 1. A fresh list has
`maxLevel = 0`, so the clamp `level > maxLevel+1` does not fire and `maxLevel`
is never updated. -/
def lagState : SkipList := stateOf [.ins 10 0 1]

/-- Trace leaving a ghost anchor: `Insert(10)` at level 1 (with lagging
`maxLevel`), `Delete(10)` (which only walks level 0), then three inserts that
raise `maxLevel` past the stale `startLevels[1]` entry. -/
def ghostOps : List Op :=
  [.ins 10 0 1, .del 10, .ins 20 0 0, .ins 30 0 2, .ins 40 0 2]

/-- The state reached by `ghostOps`. -/
def ghostState : SkipList := stateOf ghostOps

/-- Trace for the missing-key delete: the ghost node with key 10 is still
anchored at `startLevels[1]` while no live node has key 10. -/
def ghostOps6 : List Op := [.ins 10 0 1, .ins 20 0 0, .del 10, .ins 30 0 2]

/-- The state reached by `ghostOps6`. -/
def ghostState6 : SkipList := stateOf ghostOps6

/-- Insert eight pairwise well-separated keys, then delete all eight. -/
def deleteAllOps : List Op :=
  [.ins 30 0 1, .ins 50 0 0, .ins 40 0 1, .ins 20 0 2, .ins 60 0 2,
   .ins 80 0 0, .ins 70 0 1, .ins 10 0 3,
   .del 70, .del 10, .del 50, .del 20, .del 40, .del 30, .del 60, .del 80]

/-- The state reached by `deleteAllOps`. -/
def deleteAllState : SkipList := stateOf deleteAllOps

/-- Two distinct values with the same key 10, both at level 0. -/
def dupState : SkipList := stateOf [.ins 10 0 0, .ins 10 1 0]

/-- A singleton list holding one node with key 10 at level 0. -/
def singletonState : SkipList := stateOf [.ins 10 0 0]

/-- The structural invariants of §3 of the specification, restricted to the
level-0 view that `Next`/`Prev` read: `L` lists the live nodes in chain order;
`startLevels[0]`/`endLevels[0]` anchor its ends; consecutive nodes are linked
forward by `next[0]` and backward by `prev`; the ends have no forward/backward
neighbour (the circular wrap is computed by the Traversal functions, not
stored); keys ascend strictly along the chain. -/
structure Wf (t : SkipList) (L : List Nat) : Prop where
  start0 : t.startAt 0 = L.head?
  end0 : t.endAt 0 = L.getLast?
  links : List.Chain' (fun i j => t.nextAt i 0 = some j ∧ t.prevAt j = some i) L
  lastNone : ∀ i, L.getLast? = some i → t.nextAt i 0 = none
  headNone : ∀ i, L.head? = some i → t.prevAt i = none
  sorted : List.Chain' (fun i j => t.keyAt i < t.keyAt j) L

/-- A live node of a well-formed list: a member of the level-0 chain. -/
def liveAt (L : List Nat) (n : Nat) : Prop := n ∈ L

/-- A concrete two-node list (keys 10 and 20) used as the round-trip witness. -/
def twoState : SkipList := stateOf [.ins 10 0 0, .ins 20 0 0]

section SetterLemmas

theorem getD_set_self {α : Type} (l : List α) (i : Nat) (v d : α) (h : i < l.length) :
    (l.set i v).getD i d = v := by
  rw [List.getD_eq_getElem?_getD, List.getElem?_set_self (by omega)]
  rfl

theorem getD_set_ne {α : Type} (l : List α) (i j : Nat) (v d : α) (h : i ≠ j) :
    (l.set i v).getD j d = l.getD j d := by
  rw [List.getD_eq_getElem?_getD, List.getElem?_set_ne h, ← List.getD_eq_getElem?_getD]

theorem modifyAt_length {α : Type} (l : List α) (i : Nat) (f : α → α) :
    (modifyAt l i f).length = l.length := by
  rw [modifyAt]
  cases h : l[i]? with
  | none => rfl
  | some a => exact List.length_set l i _

theorem modifyAt_oob {α : Type} (l : List α) (i : Nat) (f : α → α)
    (h : l.length ≤ i) : modifyAt l i f = l := by
  rw [modifyAt, List.getElem?_eq_none h]

theorem getD_modifyAt_self {α : Type} (l : List α) (i : Nat) (f : α → α) (d : α)
    (h : i < l.length) : (modifyAt l i f).getD i d = f (l.getD i d) := by
  rw [modifyAt, List.getElem?_eq_getElem h, getD_set_self _ _ _ _ h,
    List.getD_eq_getElem?_getD, List.getElem?_eq_getElem h]
  rfl

theorem getD_modifyAt_ne {α : Type} (l : List α) (i j : Nat) (f : α → α) (d : α)
    (h : i ≠ j) : (modifyAt l i f).getD j d = l.getD j d := by
  rw [modifyAt]
  cases hh : l[i]? with
  | none => rfl
  | some a => exact getD_set_ne _ _ _ _ _ h

theorem nget_mem (t : SkipList) (i : Nat) (h : i < t.nodes.length) :
    t.nget i ∈ t.nodes := by
  rw [SkipList.nget, List.getD_eq_getElem?_getD, List.getElem?_eq_getElem h]
  exact List.getElem_mem h

theorem nodes_length_setNext (t : SkipList) (i lvl : Nat) (v : Option Nat) :
    (t.setNext i lvl v).nodes.length = t.nodes.length := modifyAt_length _ _ _

theorem nodes_length_setPrev (t : SkipList) (i : Nat) (v : Option Nat) :
    (t.setPrev i v).nodes.length = t.nodes.length := modifyAt_length _ _ _

theorem nget_setNext_ne (t : SkipList) (i lvl : Nat) (v : Option Nat) (j : Nat)
    (h : j ≠ i) : (t.setNext i lvl v).nget j = t.nget j :=
  getD_modifyAt_ne _ _ _ _ _ (fun hh => h hh.symm)

theorem nget_setNext_self (t : SkipList) (i lvl : Nat) (v : Option Nat)
    (h : i < t.nodes.length) :
    (t.setNext i lvl v).nget i = { t.nget i with next := (t.nget i).next.set lvl v } :=
  getD_modifyAt_self _ _ _ _ h

theorem nget_setPrev_ne (t : SkipList) (i : Nat) (v : Option Nat) (j : Nat)
    (h : j ≠ i) : (t.setPrev i v).nget j = t.nget j :=
  getD_modifyAt_ne _ _ _ _ _ (fun hh => h hh.symm)

theorem nget_setPrev_self (t : SkipList) (i : Nat) (v : Option Nat)
    (h : i < t.nodes.length) :
    (t.setPrev i v).nget i = { t.nget i with prev := v } :=
  getD_modifyAt_self _ _ _ _ h

theorem keyAt_setNext (t : SkipList) (i lvl : Nat) (v : Option Nat) (j : Nat) :
    (t.setNext i lvl v).keyAt j = t.keyAt j := by
  by_cases hj : j = i
  · subst hj
    by_cases hi : j < t.nodes.length
    · rw [SkipList.keyAt, nget_setNext_self t j lvl v hi]
      rfl
    · rw [SkipList.keyAt, SkipList.setNext, modifyAt_oob _ _ _ (by omega)]
      rfl
  · rw [SkipList.keyAt, nget_setNext_ne t i lvl v j hj]
    rfl

theorem keyAt_setPrev (t : SkipList) (i : Nat) (v : Option Nat) (j : Nat) :
    (t.setPrev i v).keyAt j = t.keyAt j := by
  by_cases hj : j = i
  · subst hj
    by_cases hi : j < t.nodes.length
    · rw [SkipList.keyAt, nget_setPrev_self t j v hi]
      rfl
    · rw [SkipList.keyAt, SkipList.setPrev, modifyAt_oob _ _ _ (by omega)]
      rfl
  · rw [SkipList.keyAt, nget_setPrev_ne t i v j hj]
    rfl

theorem prevAt_setNext (t : SkipList) (i lvl : Nat) (v : Option Nat) (j : Nat) :
    (t.setNext i lvl v).prevAt j = t.prevAt j := by
  by_cases hj : j = i
  · subst hj
    by_cases hi : j < t.nodes.length
    · rw [SkipList.prevAt, nget_setNext_self t j lvl v hi]
      rfl
    · rw [SkipList.prevAt, SkipList.setNext, modifyAt_oob _ _ _ (by omega)]
      rfl
  · rw [SkipList.prevAt, nget_setNext_ne t i lvl v j hj]
    rfl

theorem nextAt_setPrev (t : SkipList) (i : Nat) (v : Option Nat) (j lvl : Nat) :
    (t.setPrev i v).nextAt j lvl = t.nextAt j lvl := by
  by_cases hj : j = i
  · subst hj
    by_cases hi : j < t.nodes.length
    · rw [SkipList.nextAt, nget_setPrev_self t j v hi]
      rfl
    · rw [SkipList.nextAt, SkipList.setPrev, modifyAt_oob _ _ _ (by omega)]
      rfl
  · rw [SkipList.nextAt, nget_setPrev_ne t i v j hj]
    rfl

theorem prevAt_setPrev_self (t : SkipList) (i : Nat) (v : Option Nat)
    (h : i < t.nodes.length) : (t.setPrev i v).prevAt i = v := by
  rw [SkipList.prevAt, nget_setPrev_self t i v h]

theorem prevAt_setPrev_ne (t : SkipList) (i : Nat) (v : Option Nat) (j : Nat)
    (h : j ≠ i) : (t.setPrev i v).prevAt j = t.prevAt j := by
  rw [SkipList.prevAt, nget_setPrev_ne t i v j h]
  rfl

theorem nextAt_setNext_self (t : SkipList) (i lvl : Nat) (v : Option Nat)
    (h : i < t.nodes.length) (hl : lvl < (t.nget i).next.length) :
    (t.setNext i lvl v).nextAt i lvl = v := by
  rw [SkipList.nextAt, nget_setNext_self t i lvl v h]
  exact getD_set_self _ _ _ _ hl

theorem nextAt_setNext_ne (t : SkipList) (i lvl : Nat) (v : Option Nat) (j : Nat)
    (h : j ≠ i) (lvl' : Nat) : (t.setNext i lvl v).nextAt j lvl' = t.nextAt j lvl' := by
  rw [SkipList.nextAt, nget_setNext_ne t i lvl v j h]
  rfl

theorem nextAt_setNext_ne_lvl (t : SkipList) (i lvl : Nat) (v : Option Nat)
    (lvl' : Nat) (h : lvl ≠ lvl') (j : Nat) :
    (t.setNext i lvl v).nextAt j lvl' = t.nextAt j lvl' := by
  by_cases hj : j = i
  · subst hj
    by_cases hi : j < t.nodes.length
    · rw [SkipList.nextAt, nget_setNext_self t j lvl v hi]
      exact getD_set_ne _ _ _ _ _ h
    · rw [SkipList.nextAt, SkipList.setNext, modifyAt_oob _ _ _ (by omega)]
      rfl
  · exact nextAt_setNext_ne t i lvl v j hj lvl'

theorem startAt_setNext (t : SkipList) (i lvl : Nat) (v : Option Nat) (lvl' : Nat) :
    (t.setNext i lvl v).startAt lvl' = t.startAt lvl' := rfl

theorem startAt_setPrev (t : SkipList) (i : Nat) (v : Option Nat) (lvl' : Nat) :
    (t.setPrev i v).startAt lvl' = t.startAt lvl' := rfl

theorem endAt_setNext (t : SkipList) (i lvl : Nat) (v : Option Nat) (lvl' : Nat) :
    (t.setNext i lvl v).endAt lvl' = t.endAt lvl' := rfl

theorem endAt_setPrev (t : SkipList) (i : Nat) (v : Option Nat) (lvl' : Nat) :
    (t.setPrev i v).endAt lvl' = t.endAt lvl' := rfl

theorem startAt_setStart_self (t : SkipList) (lvl : Nat) (v : Option Nat)
    (h : lvl < t.startLevels.length) : (t.setStart lvl v).startAt lvl = v := by
  rw [SkipList.startAt, SkipList.setStart]
  exact getD_set_self _ _ _ _ h

theorem startAt_setStart_ne (t : SkipList) (lvl : Nat) (v : Option Nat) (lvl' : Nat)
    (h : lvl ≠ lvl') : (t.setStart lvl v).startAt lvl' = t.startAt lvl' := by
  rw [SkipList.startAt, SkipList.setStart]
  exact getD_set_ne _ _ _ _ _ h

theorem endAt_setEnd_self (t : SkipList) (lvl : Nat) (v : Option Nat)
    (h : lvl < t.endLevels.length) : (t.setEnd lvl v).endAt lvl = v := by
  rw [SkipList.endAt, SkipList.setEnd]
  exact getD_set_self _ _ _ _ h

theorem endAt_setEnd_ne (t : SkipList) (lvl : Nat) (v : Option Nat) (lvl' : Nat)
    (h : lvl ≠ lvl') : (t.setEnd lvl v).endAt lvl' = t.endAt lvl' := by
  rw [SkipList.endAt, SkipList.setEnd]
  exact getD_set_ne _ _ _ _ _ h

theorem setStart_frame (t : SkipList) (lvl : Nat) (v : Option Nat) :
    (t.setStart lvl v).nodes = t.nodes ∧ (t.setStart lvl v).endLevels = t.endLevels ∧
    (t.setStart lvl v).elementCount = t.elementCount := ⟨rfl, rfl, rfl⟩

theorem setEnd_frame (t : SkipList) (lvl : Nat) (v : Option Nat) :
    (t.setEnd lvl v).nodes = t.nodes ∧ (t.setEnd lvl v).startLevels = t.startLevels ∧
    (t.setEnd lvl v).elementCount = t.elementCount := ⟨rfl, rfl, rfl⟩

end SetterLemmas

/-- The level-0 forward chain: `chainOK t o L` says that starting from pointer
`o`, following `next[0]` visits exactly the nodes of `L` and then stops at
nil. -/
def chainOK (t : SkipList) : Option Nat → List Nat → Prop
  | o, [] => o = none
  | o, j :: rest => o = some j ∧ chainOK t (t.nextAt j 0) rest

/-- The backward links along `L`: each node's `prev` points to its predecessor
(`p` is the pointer expected at the head). -/
def prevOK (t : SkipList) : Option Nat → List Nat → Prop
  | _, [] => True
  | p, j :: rest => t.prevAt j = p ∧ prevOK t (some j) rest

/-- Keys ascend strictly along `L`. -/
def keysAsc (t : SkipList) (L : List Nat) : Prop :=
  List.Chain' (fun i j => t.keyAt i < t.keyAt j) L

/-- The full invariant maintained by insert-only runs with pairwise-distinct
keys: the level-0 chain `L` is complete (every arena node is on it), doubly
linked, anchored and sorted, every forward pointer at every level strictly
increases the key, anchors are valid, and bookkeeping fields are in range. -/
structure Inv (t : SkipList) (L : List Nat) : Prop where
  chain : chainOK t (t.startAt 0) L
  prevs : prevOK t none L
  end0 : t.endAt 0 = L.getLast?
  asc : keysAsc t L
  mem : ∀ i, i ∈ L ↔ i < t.nodes.length
  count : t.elementCount = t.nodes.length
  edges : ∀ i lvl j, i < t.nodes.length → t.nextAt i lvl = some j →
    t.keyAt i < t.keyAt j ∧ j < t.nodes.length
  startsV : ∀ lvl j, t.startAt lvl = some j → j < t.nodes.length
  endsV : ∀ lvl j, t.endAt lvl = some j → j < t.nodes.length
  distinct : ∀ i j, i < t.nodes.length → j < t.nodes.length → i ≠ j →
    t.keyAt i ≠ t.keyAt j
  maxLe : t.maxLevel ≤ 24
  maxNN : 0 ≤ t.maxLevel
  lenS : t.startLevels.length = 25
  lenE : t.endLevels.length = 25
  lenN : ∀ n ∈ t.nodes, n.next.length = 25

section ChainLemmas

theorem chainOK_congr (t t' : SkipList) :
    ∀ (X : List Nat) (o : Option Nat), chainOK t o X →
      (∀ i ∈ X, t'.nextAt i 0 = t.nextAt i 0) → chainOK t' o X := by
  intro X
  induction X with
  | nil => intro o h _; exact h
  | cons j rest ih =>
    intro o h hfr
    obtain ⟨ho, hrest⟩ := h
    refine ⟨ho, ?_⟩
    rw [hfr j (List.mem_cons_self j rest)]
    exact ih _ hrest (fun i hi => hfr i (List.mem_cons_of_mem j hi))

theorem prevOK_congr (t t' : SkipList) :
    ∀ (X : List Nat) (o : Option Nat), prevOK t o X →
      (∀ i ∈ X, t'.prevAt i = t.prevAt i) → prevOK t' o X := by
  intro X
  induction X with
  | nil => intro o _ _; trivial
  | cons j rest ih =>
    intro o h hfr
    obtain ⟨ho, hrest⟩ := h
    refine ⟨?_, ?_⟩
    · rw [hfr j (List.mem_cons_self j rest), ho]
    · exact ih _ hrest (fun i hi => hfr i (List.mem_cons_of_mem j hi))

theorem chainOK_suffix (t : SkipList) :
    ∀ (P : List Nat) (o : Option Nat) (c : Nat) (S : List Nat),
      chainOK t o (P ++ c :: S) → chainOK t (some c) (c :: S) := by
  intro P
  induction P with
  | nil => intro o c S h; exact ⟨rfl, h.2⟩
  | cons p P' ih =>
    intro o c S h
    exact ih _ _ _ h.2

theorem chainOK_decomp (t : SkipList) (L : List Nat) (o : Option Nat) (c : Nat)
    (hc : c ∈ L) (h : chainOK t o L) :
    ∃ P S, L = P ++ c :: S ∧ chainOK t (some c) (c :: S) := by
  obtain ⟨P, S, rfl⟩ := List.append_of_mem hc
  exact ⟨P, S, rfl, chainOK_suffix t P o c S h⟩

theorem chainOK_last_none (t : SkipList) :
    ∀ (L : List Nat) (o : Option Nat) (c : Nat), chainOK t o L →
      L.getLast? = some c → t.nextAt c 0 = none := by
  intro L
  induction L with
  | nil => intro o c _ h; simp at h
  | cons j rest ih =>
    intro o c h hl
    obtain ⟨ho, hrest⟩ := h
    cases rest with
    | nil =>
      simp at hl
      subst hl
      exact hrest
    | cons j2 r2 =>
      rw [List.getLast?_cons_cons] at hl
      exact ih _ _ hrest hl

theorem chainOK_next_none_last (t : SkipList) :
    ∀ (L : List Nat) (o : Option Nat) (c : Nat), chainOK t o L → c ∈ L →
      t.nextAt c 0 = none → L.getLast? = some c := by
  intro L
  induction L with
  | nil => intro o c _ hc; simp at hc
  | cons j rest ih =>
    intro o c h hc hnone
    obtain ⟨ho, hrest⟩ := h
    rcases List.mem_cons.mp hc with hj | hr
    · subst hj
      cases rest with
      | nil => simp
      | cons j2 r2 =>
        rw [hnone] at hrest
        exact absurd hrest.1 (by simp)
    · cases rest with
      | nil => simp at hr
      | cons j2 r2 =>
        rw [List.getLast?_cons_cons]
        exact ih _ _ hrest hr hnone

theorem chainOK_mem_sub (t : SkipList) :
    ∀ (L : List Nat) (o : Option Nat), chainOK t o L →
      ∀ i ∈ L, (o = some i ∨ ∃ p, t.nextAt p 0 = some i) := by
  intro L
  induction L with
  | nil => intro o _ i hi; simp at hi
  | cons j rest ih =>
    intro o h i hi
    obtain ⟨ho, hrest⟩ := h
    rcases List.mem_cons.mp hi with hj | hr
    · subst hj; exact Or.inl ho
    · rcases ih _ hrest i hr with hcase | hcase
      · exact Or.inr ⟨j, hcase⟩
      · exact Or.inr hcase

theorem keysAsc_congr (t t' : SkipList) (L : List Nat)
    (hk : ∀ i, t'.keyAt i = t.keyAt i) (h : keysAsc t L) : keysAsc t' L := by
  refine List.Chain'.imp ?_ h
  intro a b hab
  rw [hk a, hk b]
  exact hab

theorem keysAsc_nodup (t : SkipList) (L : List Nat) (h : keysAsc t L) : L.Nodup := by
  haveI : IsTrans Nat (fun i j => t.keyAt i < t.keyAt j) := ⟨fun a b c => lt_trans⟩
  have hp : L.Pairwise (fun i j => t.keyAt i < t.keyAt j) :=
    (List.chain'_iff_pairwise).mp h
  exact hp.imp (fun hab => by
    intro hEq
    subst hEq
    exact lt_irrefl _ hab)

theorem chainOK_splice (t t2 : SkipList) (elemIdx c nn : Nat) (S : List Nat)
    (hfr : ∀ i, i ≠ elemIdx → i ≠ c → t2.nextAt i 0 = t.nextAt i 0)
    (hc2 : t2.nextAt c 0 = some elemIdx) (he2 : t2.nextAt elemIdx 0 = some nn)
    (hSne : ∀ x ∈ nn :: S, x ≠ c ∧ x ≠ elemIdx) :
    ∀ (P : List Nat) (o : Option Nat),
      chainOK t o (P ++ c :: nn :: S) →
      (∀ p ∈ P, p ≠ c ∧ p ≠ elemIdx) →
      chainOK t2 o (P ++ c :: elemIdx :: nn :: S) := by
  intro P
  induction P with
  | nil =>
    intro o h _
    obtain ⟨ho, hnn, hrest⟩ := h
    refine ⟨ho, hc2, he2, ?_⟩
    have hnnE := hSne nn (List.mem_cons_self nn S)
    rw [hfr nn hnnE.2 hnnE.1]
    refine chainOK_congr t t2 _ _ hrest ?_
    intro i hi
    have hiE := hSne i (List.mem_cons_of_mem nn hi)
    exact hfr i hiE.2 hiE.1
  | cons p P' ih =>
    intro o h hPne
    obtain ⟨ho, hrest⟩ := h
    have hpE := hPne p (List.mem_cons_self p P')
    refine ⟨ho, ?_⟩
    rw [hfr p hpE.2 hpE.1]
    exact ih _ hrest (fun q hq => hPne q (List.mem_cons_of_mem p hq))

theorem prevOK_splice (t t2 : SkipList) (elemIdx c nn : Nat) (S : List Nat)
    (hfr : ∀ i, i ≠ elemIdx → i ≠ nn → t2.prevAt i = t.prevAt i)
    (hpe : t2.prevAt elemIdx = some c) (hpn : t2.prevAt nn = some elemIdx)
    (hcE : c ≠ nn ∧ c ≠ elemIdx)
    (hSne : ∀ x ∈ S, x ≠ nn ∧ x ≠ elemIdx) :
    ∀ (P : List Nat) (o : Option Nat),
      prevOK t o (P ++ c :: nn :: S) →
      (∀ p ∈ P, p ≠ nn ∧ p ≠ elemIdx) →
      prevOK t2 o (P ++ c :: elemIdx :: nn :: S) := by
  intro P
  induction P with
  | nil =>
    intro o h _
    obtain ⟨hco, hnnc, hrest⟩ := h
    refine ⟨by rw [hfr c hcE.2 hcE.1, hco], hpe, hpn, ?_⟩
    refine prevOK_congr t t2 _ _ hrest ?_
    intro i hi
    have hiE := hSne i hi
    exact hfr i hiE.2 hiE.1
  | cons p P' ih =>
    intro o h hPne
    obtain ⟨hpo, hrest⟩ := h
    have hpE := hPne p (List.mem_cons_self p P')
    refine ⟨by rw [hfr p hpE.2 hpE.1, hpo], ?_⟩
    exact ih _ hrest (fun q hq => hPne q (List.mem_cons_of_mem p hq))

end ChainLemmas

/-- Number of arena nodes with key strictly above the current node's key
(`none` counts as "before the start"): the termination measure of the
rightward moves of the insert walk. -/
def aboveCnt (t : SkipList) : Option Nat → Nat
  | none => t.nodes.length + 1
  | some c => ((Finset.range t.nodes.length).filter (fun i => t.keyAt c < t.keyAt i)).card

/-- Hypotheses available while the non-extremal insert walk runs: the level-0
chain `L` covers exactly the old nodes (`elemIdx` is the freshly appended
node), every forward pointer increases keys, anchors are valid and do not
mention the new node, keys are pairwise distinct, and the new key lies
strictly between the smallest and largest stored keys. -/
structure WalkHyp (t : SkipList) (L : List Nat) (elemIdx : Nat) (eKey : ℚ) : Prop where
  chain : chainOK t (t.startAt 0) L
  end0 : t.endAt 0 = L.getLast?
  mem : ∀ i, i ∈ L ↔ (i < t.nodes.length ∧ i ≠ elemIdx)
  elemLt : elemIdx < t.nodes.length
  elemKey : t.keyAt elemIdx = eKey
  edges : ∀ i lvl j, i < t.nodes.length → t.nextAt i lvl = some j →
    t.keyAt i < t.keyAt j ∧ j < t.nodes.length
  startsV : ∀ lvl j, t.startAt lvl = some j → j < t.nodes.length ∧ j ≠ elemIdx
  distinct : ∀ i j, i < t.nodes.length → j < t.nodes.length → i ≠ j →
    t.keyAt i ≠ t.keyAt j
  lenS : t.startLevels.length = 25
  lenN : ∀ n ∈ t.nodes, n.next.length = 25
  low : ∃ s0, t.startAt 0 = some s0 ∧ t.keyAt s0 < eKey
  high : ∃ l0, t.endAt 0 = some l0 ∧ eKey < t.keyAt l0

/-- How a walk step at an upper level changes the heap: level-0 pointers,
backward pointers, anchors, keys and all bookkeeping are untouched. -/
structure UpperFrame (t t' : SkipList) : Prop where
  next0 : ∀ i, t'.nextAt i 0 = t.nextAt i 0
  prevs : ∀ i, t'.prevAt i = t.prevAt i
  startLs : t'.startLevels = t.startLevels
  endLs : t'.endLevels = t.endLevels
  count : t'.elementCount = t.elementCount
  len : t'.nodes.length = t.nodes.length
  keys : ∀ i, t'.keyAt i = t.keyAt i
  maxL : t'.maxLevel = t.maxLevel
  epsEq : t'.eps = t.eps

/-- The net effect of the non-extremal insert walk: the new node `elemIdx` is
spliced between `c` and `nn` at level 0 (forward and backward), everything
else at level 0 and all anchors are unchanged, and every forward pointer of
the result still increases keys. -/
def SpliceOut (t : SkipList) (elemIdx c nn : Nat) (t1 : SkipList) : Prop :=
  t1.nextAt elemIdx 0 = some nn ∧
  t1.nextAt c 0 = some elemIdx ∧
  (∀ i, i ≠ elemIdx → i ≠ c → t1.nextAt i 0 = t.nextAt i 0) ∧
  t1.prevAt elemIdx = some c ∧
  t1.prevAt nn = some elemIdx ∧
  (∀ i, i ≠ elemIdx → i ≠ nn → t1.prevAt i = t.prevAt i) ∧
  t1.startLevels = t.startLevels ∧
  t1.endLevels = t.endLevels ∧
  t1.elementCount = t.elementCount ∧
  t1.nodes.length = t.nodes.length ∧
  (∀ i, t1.keyAt i = t.keyAt i) ∧
  (∀ i lvl j, i < t1.nodes.length → t1.nextAt i lvl = some j →
    t1.keyAt i < t1.keyAt j ∧ j < t1.nodes.length) ∧
  (∀ n ∈ t1.nodes, n.next.length = 25) ∧
  t1.maxLevel = t.maxLevel ∧
  t1.eps = t.eps

section WalkLemmas

theorem startAt_congr_lists (t t' : SkipList) (h : t'.startLevels = t.startLevels)
    (lvl : Nat) : t'.startAt lvl = t.startAt lvl := by
  rw [SkipList.startAt, SkipList.startAt, h]

theorem endAt_congr_lists (t t' : SkipList) (h : t'.endLevels = t.endLevels)
    (lvl : Nat) : t'.endAt lvl = t.endAt lvl := by
  rw [SkipList.endAt, SkipList.endAt, h]

theorem aboveCnt_lt_none (t : SkipList) (c : Nat) :
    aboveCnt t (some c) < aboveCnt t none := by
  rw [aboveCnt, aboveCnt]
  have := Finset.card_filter_le (Finset.range t.nodes.length)
    (fun i => t.keyAt c < t.keyAt i)
  simp only [Finset.card_range] at this
  omega

theorem aboveCnt_lt_step (t : SkipList) (c nn : Nat) (hnn : nn < t.nodes.length)
    (hk : t.keyAt c < t.keyAt nn) : aboveCnt t (some nn) < aboveCnt t (some c) := by
  rw [aboveCnt, aboveCnt]
  apply Finset.card_lt_card
  rw [Finset.ssubset_def]
  constructor
  · intro i hi
    simp only [Finset.mem_filter, Finset.mem_range] at hi ⊢
    exact ⟨hi.1, lt_trans hk hi.2⟩
  · intro hsub
    have hmem : nn ∈ (Finset.range t.nodes.length).filter
        (fun i => t.keyAt c < t.keyAt i) := by
      simp only [Finset.mem_filter, Finset.mem_range]
      exact ⟨hnn, hk⟩
    have := hsub hmem
    simp only [Finset.mem_filter, Finset.mem_range] at this
    exact lt_irrefl _ this.2

theorem aboveCnt_congr (t t' : SkipList) (hk : ∀ i, t'.keyAt i = t.keyAt i)
    (hl : t'.nodes.length = t.nodes.length) (cur : Option Nat) :
    aboveCnt t' cur = aboveCnt t cur := by
  cases cur with
  | none => rw [aboveCnt, aboveCnt, hl]
  | some c =>
    rw [aboveCnt, aboveCnt, hl]
    congr 1
    apply Finset.filter_congr
    intro i _
    rw [hk, hk]

theorem lenN_setNext (t : SkipList) (i lvl : Nat) (v : Option Nat)
    (h : ∀ n ∈ t.nodes, n.next.length = 25) :
    ∀ n ∈ (t.setNext i lvl v).nodes, n.next.length = 25 := by
  intro n hn
  rw [SkipList.setNext, modifyAt] at hn
  cases hh : t.nodes[i]? with
  | none => rw [hh] at hn; exact h n hn
  | some a =>
    rw [hh] at hn
    rcases List.mem_or_eq_of_mem_set hn with hmem | hEq
    · exact h n hmem
    · subst hEq
      simp only [List.length_set]
      exact h a (by
        have := List.getElem?_eq_some_iff.mp hh
        obtain ⟨hlt, hget⟩ := this
        exact hget ▸ List.getElem_mem hlt)

theorem lenN_setPrev (t : SkipList) (i : Nat) (v : Option Nat)
    (h : ∀ n ∈ t.nodes, n.next.length = 25) :
    ∀ n ∈ (t.setPrev i v).nodes, n.next.length = 25 := by
  intro n hn
  rw [SkipList.setPrev, modifyAt] at hn
  cases hh : t.nodes[i]? with
  | none => rw [hh] at hn; exact h n hn
  | some a =>
    rw [hh] at hn
    rcases List.mem_or_eq_of_mem_set hn with hmem | hEq
    · exact h n hmem
    · subst hEq
      exact h a (by
        have := List.getElem?_eq_some_iff.mp hh
        obtain ⟨hlt, hget⟩ := this
        exact hget ▸ List.getElem_mem hlt)

theorem UpperFrame_setNext (t : SkipList) (i lvl : Nat) (v : Option Nat)
    (hlvl : 1 ≤ lvl) : UpperFrame t (t.setNext i lvl v) where
  next0 j := nextAt_setNext_ne_lvl t i lvl v 0 (by omega) j
  prevs j := prevAt_setNext t i lvl v j
  startLs := rfl
  endLs := rfl
  count := rfl
  len := nodes_length_setNext t i lvl v
  keys j := keyAt_setNext t i lvl v j
  maxL := rfl
  epsEq := rfl

theorem UpperFrame_trans (t t' t'' : SkipList) (h1 : UpperFrame t t')
    (h2 : UpperFrame t' t'') : UpperFrame t t'' where
  next0 j := (h2.next0 j).trans (h1.next0 j)
  prevs j := (h2.prevs j).trans (h1.prevs j)
  startLs := h2.startLs.trans h1.startLs
  endLs := h2.endLs.trans h1.endLs
  count := h2.count.trans h1.count
  len := h2.len.trans h1.len
  keys j := (h2.keys j).trans (h1.keys j)
  maxL := h2.maxL.trans h1.maxL
  epsEq := h2.epsEq.trans h1.epsEq

theorem UpperFrame_refl (t : SkipList) : UpperFrame t t where
  next0 _ := rfl
  prevs _ := rfl
  startLs := rfl
  endLs := rfl
  count := rfl
  len := rfl
  keys _ := rfl
  maxL := rfl
  epsEq := rfl

theorem SpliceOut_comp (t t' t1 : SkipList) (elemIdx c nn : Nat)
    (hf : UpperFrame t t') (hs : SpliceOut t' elemIdx c nn t1) :
    SpliceOut t elemIdx c nn t1 := by
  obtain ⟨h1, h2, h3, h4, h5, h6, h7, h8, h9, h10, h11, h12, h13, h14, h15⟩ := hs
  refine ⟨h1, h2, ?_, h4, h5, ?_, ?_, ?_, ?_, ?_, ?_, h12, h13, ?_, ?_⟩
  · intro i hi1 hi2
    rw [h3 i hi1 hi2, hf.next0 i]
  · intro i hi1 hi2
    rw [h6 i hi1 hi2, hf.prevs i]
  · rw [h7, hf.startLs]
  · rw [h8, hf.endLs]
  · rw [h9, hf.count]
  · rw [h10, hf.len]
  · intro i
    rw [h11 i, hf.keys i]
  · rw [h14, hf.maxL]
  · rw [h15, hf.epsEq]

theorem WalkHyp_frame (t t' : SkipList) (L : List Nat) (elemIdx : Nat) (eKey : ℚ)
    (h : WalkHyp t L elemIdx eKey) (hf : UpperFrame t t')
    (hedges : ∀ i lvl j, i < t'.nodes.length → t'.nextAt i lvl = some j →
      t'.keyAt i < t'.keyAt j ∧ j < t'.nodes.length)
    (hlenN : ∀ n ∈ t'.nodes, n.next.length = 25) :
    WalkHyp t' L elemIdx eKey where
  chain := by
    rw [startAt_congr_lists t t' hf.startLs]
    exact chainOK_congr t t' L _ h.chain (fun i _ => hf.next0 i)
  end0 := by rw [endAt_congr_lists t t' hf.endLs]; exact h.end0
  mem i := by rw [hf.len]; exact h.mem i
  elemLt := by rw [hf.len]; exact h.elemLt
  elemKey := by rw [hf.keys]; exact h.elemKey
  edges := hedges
  startsV lvl j hs := by
    rw [hf.len]
    exact h.startsV lvl j (by rw [← startAt_congr_lists t t' hf.startLs]; exact hs)
  distinct i j hi hj hij := by
    rw [hf.keys, hf.keys]
    exact h.distinct i j (hf.len ▸ hi) (hf.len ▸ hj) hij
  lenS := by
    have := congrArg List.length hf.startLs
    rw [this]
    exact h.lenS
  lenN := hlenN
  low := by
    obtain ⟨s0, hs0, hk⟩ := h.low
    exact ⟨s0, by rw [startAt_congr_lists t t' hf.startLs]; exact hs0,
      by rw [hf.keys]; exact hk⟩
  high := by
    obtain ⟨l0, hl0, hk⟩ := h.high
    exact ⟨l0, by rw [endAt_congr_lists t t' hf.endLs]; exact hl0,
      by rw [hf.keys]; exact hk⟩

end WalkLemmas

section ClaimC1

/-- C1: refuted by the code.  `ChangeValue` compares the signed difference
`newValue.ExtractValue() - e.key` (no absolute value) against `eps`, so a
replacement whose key is far BELOW the stored key succeeds: on a node with key
10, replacing with a value of key 0 (difference −10, well beyond `eps`) returns
`ok = true` and overwrites the stored value, while the claim requires failure
whenever the keys differ by more than `eps`. -/
theorem changeValue_far_smaller_key_succeeds :
    runOps [.ins 10 0 0] = .ok singletonState ∧
    singletonState.keyAt 0 = 10 ∧
    singletonState.GetValue 0 = ⟨10, 0⟩ ∧
    singletonState.eps = EPS ∧
    EPS < |(0 : ℚ) - 10| ∧
    (singletonState.ChangeValue 0 ⟨0, 7⟩).2 = true ∧
    ((singletonState.ChangeValue 0 ⟨0, 7⟩).1).GetValue 0 = ⟨0, 7⟩ := by
  refine ⟨by decide, by decide, by decide, by decide, by rw [EPS_eq]; norm_num, by decide, by decide⟩

end ClaimC1

section ClaimC2

/-- C2: refuted by the code.  On the singleton list `{10}` a
`FindGreaterOrEqual` query with key 5 (more than `eps` below the smallest
stored key) returns `(nil, false)` instead of the smallest node with
`ok = true`: at the bottom level the code returns `currentNode.next[0]`, which
is nil for the smallest node of a singleton list. -/
theorem findGreaterOrEqual_below_min_fails_on_singleton :
    runOps [.ins 10 0 0] = .ok singletonState ∧
    singletonState.isEmpty = false ∧
    singletonState.GetSmallestNode = some 0 ∧
    singletonState.keyAt 0 = 10 ∧
    singletonState.eps = EPS ∧
    EPS < 10 - (5 : ℚ) ∧
    singletonState.FindGreaterOrEqual ⟨5, 0⟩ = .ok (none, false) := by
  refine ⟨by decide, by decide, by decide, by decide, by decide, by rw [EPS_eq]; norm_num, by decide⟩

end ClaimC2

section ClaimC3

/-- C3: refuted by the code.  Inserting a single value with generated level 1
into a fresh list leaves `maxLevel = 0` while `startLevels[1]` is occupied:
the clamp `if level > t.maxLevel+1` does not fire when the generated level
equals `maxLevel + 1`, and no other code path raises `maxLevel`. -/
theorem insert_level_one_leaves_maxLevel_zero :
    runOps [.ins 10 0 1] = .ok lagState ∧
    lagState.maxLevel = 0 ∧
    lagState.startAt 1 = some 0 ∧
    lagState.startAt 0 = some 0 := by
  refine ⟨by decide, by decide, by decide, by decide⟩

end ClaimC3

section ClaimC4

/-- C4: refuted by the code.  After
`Insert(10)@level 1, Delete(10), Insert(20)@0, Insert(30)@2, Insert(40)@2`
the key 20 was inserted and never deleted (it sits in the level-0 chain,
whose keys are `[20, 30, 40]`), yet `Find(20)` returns `(nil, false)`:
the stale `startLevels[1]` anchor still holds the deleted key-10 node, the
search enters there, and that ghost's forward pointers bypass the live chain. -/
theorem find_misses_live_key_after_ghost_anchor :
    runOps ghostOps = .ok ghostState ∧
    (chainList ghostState).map ghostState.keyAt = [20, 30, 40] ∧
    ghostState.elementCount = 3 ∧
    ghostState.Find ⟨20, 0⟩ = .ok (none, false) := by
  refine ⟨by decide, by decide, by decide, by decide⟩

end ClaimC4

section ClaimC6

/-- C6: refuted by the code.  In the state reached by
`Insert(10)@1, Insert(20)@0, Delete(10), Insert(30)@2` no live node has key
within `eps` of 10 (the live keys are 20 and 30), yet `Delete(10)` is not a
no-op: it rewrites `startLevels[1]` from the stale ghost node (index 0, the
deleted key-10 node) to node 2. -/
theorem delete_missing_key_mutates_anchor :
    runOps ghostOps6 = .ok ghostState6 ∧
    (chainList ghostState6).map ghostState6.keyAt = [20, 30] ∧
    ghostState6.eps = EPS ∧
    EPS < |(20 : ℚ) - 10| ∧
    EPS < |(30 : ℚ) - 10| ∧
    ghostState6.startAt 1 = some 0 ∧
    ghostState6.Delete ⟨10, 0⟩ = .ok (stateOf (ghostOps6 ++ [.del 10])) ∧
    (stateOf (ghostOps6 ++ [.del 10])).startAt 1 = some 2 := by
  refine ⟨by decide, by decide, by decide, by rw [EPS_eq]; norm_num, by rw [EPS_eq]; norm_num,
    by decide, by decide, by decide⟩

end ClaimC6

section ClaimC7

/-- C7: refuted by the code.  Eight pairwise well-separated keys
(10,20,30,40,50,60,70,80) are inserted into a fresh list (generated levels
1,0,1,2,2,0,1,3) and then all eight are deleted; afterwards the list still
holds the node with key 80 (`isEmpty = false`, element count 1): the lagging
`maxLevel` makes `Delete` walks miss upper levels, stale anchors accumulate,
and one of the deletes never reaches its node at level 0. -/
theorem delete_all_leaves_survivor :
    runOps deleteAllOps = .ok deleteAllState ∧
    deleteAllState.elementCount = 1 ∧
    deleteAllState.isEmpty = false ∧
    (chainList deleteAllState).map deleteAllState.keyAt = [80] := by
  refine ⟨by decide, by decide, by decide, by decide⟩

end ClaimC7

section ClaimC10

/-- C10: refuted by the code.  Starting from the ghost-anchor state (built by
`Insert(10)@1, Delete(10), Insert(20)@0, Insert(30)@2, Insert(40)@2`), the
non-extremal insert of key 25 descends through the stale `startLevels[1]`
anchor onto the deleted node, reaches level 0 with a nil successor, and the
splice fires with `nextNode == nil`: the unguarded write `nextNode.prev = elem`
dereferences nil. -/
theorem insert_nonextremal_nil_dereference :
    runOps (ghostOps ++ [.ins 25 0 0]) = .nilDeref := by
  decide

end ClaimC10

section ClaimC5cex

/-- C5: counterexample to the claim as stated.  Inserting the same key 10 twice
(two distinct values, both at level 0) yields a list with two live nodes
(element count 2) whose level-0 walk from `startLevels[0]` visits only one
node: the second node is never linked into the forward chain, so the walk does
not visit every live node. -/
theorem insert_duplicate_key_breaks_chain :
    runOps [.ins 10 0 0, .ins 10 1 0] = .ok dupState ∧
    dupState.elementCount = 2 ∧
    chainList dupState = [0] := by
  refine ⟨by decide, by decide, by decide⟩

end ClaimC5cex

section RatCompat

theorem intAbs_eq (x : ℤ) : intAbs x = |x| := by
  rw [intAbs]
  split
  · rw [abs_of_neg (by assumption)]
  · rw [abs_of_nonneg (le_of_not_lt (by assumption))]

theorem qLe_iff (a b : ℚ) : qLe a b = true ↔ a ≤ b := by
  rw [qLe, decide_eq_true_iff]
  exact Rat.le_def.symm

theorem qLt_iff (a b : ℚ) : qLt a b = true ↔ a < b := by
  rw [qLt, decide_eq_true_iff]
  exact Rat.lt_def.symm

theorem sub_eq_divInt (a b : ℚ) :
    a - b = Rat.divInt (a.num * (b.den : ℤ) - b.num * (a.den : ℤ))
      ((a.den : ℤ) * (b.den : ℤ)) := by
  have ha : ((a.den : ℤ)) ≠ 0 := Int.natCast_ne_zero.mpr a.den_pos.ne'
  have hb : ((b.den : ℤ)) ≠ 0 := Int.natCast_ne_zero.mpr b.den_pos.ne'
  conv_lhs => rw [← Rat.num_divInt_den a, ← Rat.num_divInt_den b]
  exact Rat.divInt_sub_divInt _ _ ha hb

theorem qSubLe_iff (a b e : ℚ) : qSubLe a b e = true ↔ a - b ≤ e := by
  have hab : (0 : ℤ) < (a.den : ℤ) * (b.den : ℤ) :=
    mul_pos (Int.natCast_pos.mpr a.den_pos) (Int.natCast_pos.mpr b.den_pos)
  have he : (0 : ℤ) < (e.den : ℤ) := Int.natCast_pos.mpr e.den_pos
  rw [qSubLe, decide_eq_true_iff, sub_eq_divInt a b]
  conv_rhs => rw [← Rat.num_divInt_den e]
  exact (Rat.divInt_le_divInt hab he).symm

theorem qAbsLe_iff (a b e : ℚ) : qAbsLe a b e = true ↔ |a - b| ≤ e := by
  have hab : (0 : ℤ) < (a.den : ℤ) * (b.den : ℤ) :=
    mul_pos (Int.natCast_pos.mpr a.den_pos) (Int.natCast_pos.mpr b.den_pos)
  have he : (0 : ℤ) < (e.den : ℤ) := Int.natCast_pos.mpr e.den_pos
  have h1 : a - b ≤ e ↔
      (a.num * (b.den : ℤ) - b.num * (a.den : ℤ)) * (e.den : ℤ) ≤
        e.num * ((a.den : ℤ) * (b.den : ℤ)) := by
    rw [sub_eq_divInt a b]
    conv_lhs => rw [← Rat.num_divInt_den e]
    exact Rat.divInt_le_divInt hab he
  have h2 : -e ≤ a - b ↔
      -e.num * ((a.den : ℤ) * (b.den : ℤ)) ≤
        (a.num * (b.den : ℤ) - b.num * (a.den : ℤ)) * (e.den : ℤ) := by
    rw [sub_eq_divInt a b, Rat.neg_def]
    exact Rat.divInt_le_divInt he hab
  rw [qAbsLe, decide_eq_true_iff, intAbs_eq, abs_le, h2, h1, neg_mul]
  nth_rewrite 1 [← abs_of_nonneg he.le]
  rw [← abs_mul, abs_le]

end RatCompat

section GenerateLevel

theorem tzGo_zero (f : Nat) : tzGo f 0 = f := by
  induction f with
  | zero => rfl
  | succ f ih => rw [tzGo]; simp [ih]

theorem tzGo_lt (f : Nat) : ∀ x m : Nat, x ≠ 0 → x < 2 ^ m → m ≤ f → tzGo f x < m := by
  induction f with
  | zero =>
    intro x m hx hxm hm
    interval_cases m
    omega
  | succ f ih =>
    intro x m hx hxm hm
    have hm1 : 1 ≤ m := by
      by_contra h
      have : m = 0 := by omega
      subst this
      simp at hxm
      omega
    rw [tzGo]
    split
    · omega
    · have heven : x % 2 = 0 := by omega
      have hx2 : x / 2 ≠ 0 := by omega
      have hpow : 2 ^ m = 2 * 2 ^ (m - 1) := by
        conv_lhs => rw [show m = 1 + (m - 1) by omega, pow_add, pow_one]
      have hxm2 : x / 2 < 2 ^ (m - 1) := by omega
      have := ih (x / 2) (m - 1) hx2 hxm2 (by omega)
      omega

/-- C9 (amended): for every ceiling ≥ 1 other than 64 and every 64-bit drawn
value, `generateLevel` returns a level in `0 .. ceiling - 1`, so no node ever
spans more than `ceiling` levels. -/
theorem generateLevel_range (c x : Nat) (hc : 1 ≤ c) (hc64 : c ≠ 64)
    (hx : x < 2 ^ 64) : generateLevel c x ≤ c - 1 := by
  rw [generateLevel, trailingZeros64]
  simp only [Nat.shiftLeft_eq, one_mul, U64]
  rcases lt_or_le c 64 with hlt | hge
  · have hp1 : 0 < 2 ^ (c - 1) := Nat.two_pow_pos _
    have hplt : 2 ^ (c - 1) < 2 ^ 64 := Nat.pow_lt_pow_right one_lt_two (by omega)
    have hshift : 2 ^ (c - 1) % 2 ^ 64 = 2 ^ (c - 1) := Nat.mod_eq_of_lt hplt
    rw [hshift]
    have hmask : (2 ^ (c - 1) + 2 ^ 64 - 1) % 2 ^ 64 = 2 ^ (c - 1) - 1 := by
      rw [show 2 ^ (c - 1) + 2 ^ 64 - 1 = (2 ^ (c - 1) - 1) + 2 ^ 64 by omega,
        Nat.add_mod_right, Nat.mod_eq_of_lt (by omega)]
    rw [hmask]
    have hxm : x &&& (2 ^ (c - 1) - 1) < 2 ^ (c - 1) :=
      lt_of_le_of_lt Nat.and_le_right (by omega)
    rcases Nat.eq_zero_or_pos (x &&& (2 ^ (c - 1) - 1)) with h0 | hpos
    · rw [h0, tzGo_zero, if_neg (show ¬(64 ≤ c) by omega)]
    · have htz := tzGo_lt 64 _ (c - 1) (by omega) hxm (by omega)
      rw [if_pos (show tzGo 64 (x &&& (2 ^ (c - 1) - 1)) ≤ c by omega)]
      omega
  · have hge65 : 65 ≤ c := by omega
    have hshift : 2 ^ (c - 1) % 2 ^ 64 = 0 := by
      rw [show c - 1 = 64 + (c - 65) by omega, pow_add]
      exact Nat.mul_mod_right _ _
    rw [hshift]
    have hmask : (0 + 2 ^ 64 - 1) % 2 ^ 64 = 2 ^ 64 - 1 := by
      rw [Nat.zero_add, Nat.mod_eq_of_lt (by omega)]
    rw [hmask]
    have hxm : x &&& (2 ^ 64 - 1) < 2 ^ 64 :=
      lt_of_le_of_lt Nat.and_le_right (by omega)
    rcases Nat.eq_zero_or_pos (x &&& (2 ^ 64 - 1)) with h0 | hpos
    · rw [h0, tzGo_zero, if_pos (show (64 : Nat) ≤ c by omega)]
      omega
    · have htz := tzGo_lt 64 _ 64 (by omega) hxm le_rfl
      rw [if_pos (show tzGo 64 (x &&& (2 ^ 64 - 1)) ≤ c by omega)]
      omega

/-- Witness for the amended C9 theorem at ceiling 25 (the configured
`maxNewLevel`) and drawn value 6. -/
theorem generateLevel_range_witness :
    1 ≤ 25 ∧ (25 : Nat) ≠ 64 ∧ 6 < 2 ^ 64 ∧ generateLevel 25 6 ≤ 25 - 1 :=
  ⟨by norm_num, by norm_num, by norm_num,
    generateLevel_range 25 6 (by norm_num) (by norm_num) (by norm_num)⟩

end GenerateLevel

section ClaimC9cex

/-- C9: counterexample to the claim as stated.  For ceiling 64 and the drawn
64-bit value 0, the mask is `2^63 - 1`, the masked value is 0, so
`TrailingZeros64` yields 64, and the guard `zeroes <= maxLevel` (64 ≤ 64)
passes: `generateLevel` returns 64, which is outside the range
`0 .. ceiling-1 = 63`. -/
theorem generateLevel_ceiling64_escapes_range :
    generateLevel 64 0 = 64 ∧ ¬(generateLevel 64 0 ≤ 64 - 1) := by
  refine ⟨by decide, by decide⟩

end ClaimC9cex

section C5Walk

theorem qLe_eq_false_iff (a b : ℚ) : qLe a b = false ↔ ¬ a ≤ b := by
  rw [qLe, decide_eq_false_iff_not]
  rw [Rat.le_def]

theorem qLt_eq_false_iff (a b : ℚ) : qLt a b = false ↔ ¬ a < b := by
  rw [qLt, decide_eq_false_iff_not]
  rw [Rat.lt_def]

theorem insertWalkGo_succ (eKey : ℚ) (elemIdx level fuel index : Nat)
    (cur : Option Nat) (t : SkipList) :
    insertWalkGo eKey elemIdx level (fuel + 1) index cur t =
      (let nxt : Option Nat :=
        match cur with
        | none => t.startAt index
        | some c => t.nextAt c index
      let spliceable : Bool :=
        decide (index ≤ level) &&
          (match nxt with
           | none => true
           | some nn => qLe eKey (t.keyAt nn))
      if spliceable && index = 0 && nxt.isNone then .nilDeref
      else
        let t' :=
          if spliceable then
            let ta := t.setNext elemIdx index nxt
            let tb := match cur with
              | some c => ta.setNext c index (some elemIdx)
              | none => ta
            if index = 0 then
              let tc := tb.setPrev elemIdx cur
              match nxt with
              | some nn => tc.setPrev nn (some elemIdx)
              | none => tc
            else tb
          else t
        match nxt with
        | some nn =>
          if qLt (t'.keyAt nn) eKey then insertWalkGo eKey elemIdx level fuel index (some nn) t'
          else if index = 0 then .ok t'
          else insertWalkGo eKey elemIdx level fuel (index - 1) cur t'
        | none =>
          if index = 0 then .ok t' else insertWalkGo eKey elemIdx level fuel (index - 1) cur t') :=
  rfl

/-- The walk's postcondition: the splice happened at level 0 between `c`
(last node below the new key) and `nn` (first node above it). -/
def WalkPost (t : SkipList) (elemIdx : Nat) (eKey : ℚ) (c nn : Nat)
    (t1 : SkipList) : Prop :=
  c < t.nodes.length ∧ c ≠ elemIdx ∧ nn < t.nodes.length ∧ nn ≠ elemIdx ∧
  t.nextAt c 0 = some nn ∧ t.keyAt c < eKey ∧ eKey < t.keyAt nn ∧
  SpliceOut t elemIdx c nn t1

/-- The induction statement for the insert walk at a given fuel. -/
def WalkIH (eKey : ℚ) (elemIdx level fuel : Nat) (L : List Nat) : Prop :=
  ∀ (index : Nat) (cur : Option Nat) (t : SkipList),
    WalkHyp t L elemIdx eKey → index ≤ 24 →
    (∀ i lvl, lvl ≤ index → t.nextAt i lvl ≠ some elemIdx) →
    (cur = none ∨ ∃ c0, cur = some c0 ∧ c0 < t.nodes.length ∧ c0 ≠ elemIdx ∧
      t.keyAt c0 < eKey) →
    index + 1 + 26 * aboveCnt t cur ≤ fuel →
    ∃ c nn t1, insertWalkGo eKey elemIdx level fuel index cur t = .ok t1 ∧
      WalkPost t elemIdx eKey c nn t1

theorem walk_post_transport (t t' t1 : SkipList) (elemIdx c nn : Nat) (eKey : ℚ)
    (hf : UpperFrame t t') (h : WalkPost t' elemIdx eKey c nn t1) :
    WalkPost t elemIdx eKey c nn t1 := by
  obtain ⟨h1, h2, h3, h4, h5, h6, h7, h8⟩ := h
  exact ⟨hf.len ▸ h1, h2, hf.len ▸ h3, h4, by rw [← hf.next0 c]; exact h5,
    by rw [← hf.keys c]; exact h6, by rw [← hf.keys nn]; exact h7,
    SpliceOut_comp t t' t1 elemIdx c nn hf h8⟩

theorem noE_lt_setNext (t : SkipList) (w index : Nat) (v : Option Nat) (e : Nat)
    (h : ∀ i lvl, lvl < index → t.nextAt i lvl ≠ some e) :
    ∀ i lvl, lvl < index → (t.setNext w index v).nextAt i lvl ≠ some e := by
  intro i lvl hl
  rw [nextAt_setNext_ne_lvl t w index v lvl (by omega) i]
  exact h i lvl hl

theorem edges_setNext (t : SkipList) (w index : Nat) (v : Option Nat)
    (hE : ∀ i lvl j, i < t.nodes.length → t.nextAt i lvl = some j →
      t.keyAt i < t.keyAt j ∧ j < t.nodes.length)
    (hw : w < t.nodes.length) (h25 : ∀ n ∈ t.nodes, n.next.length = 25)
    (hidx : index ≤ 24)
    (hv : ∀ j, v = some j → t.keyAt w < t.keyAt j ∧ j < t.nodes.length) :
    ∀ i lvl j, i < (t.setNext w index v).nodes.length →
      (t.setNext w index v).nextAt i lvl = some j →
      (t.setNext w index v).keyAt i < (t.setNext w index v).keyAt j ∧
      j < (t.setNext w index v).nodes.length := by
  intro i lvl j hi hn
  rw [nodes_length_setNext] at hi ⊢
  rw [keyAt_setNext, keyAt_setNext]
  by_cases hiw : i = w
  · subst hiw
    by_cases hl : index = lvl
    · subst hl
      rw [nextAt_setNext_self t i index v hw
        (by rw [h25 _ (nget_mem t i hw)]; omega)] at hn
      exact hv j hn
    · rw [nextAt_setNext_ne_lvl t i index v lvl hl i] at hn
      exact hE i lvl j hi hn
  · rw [nextAt_setNext_ne t w index v i hiw lvl] at hn
    exact hE i lvl j hi hn

theorem edges_setPrev (t : SkipList) (w : Nat) (v : Option Nat)
    (hE : ∀ i lvl j, i < t.nodes.length → t.nextAt i lvl = some j →
      t.keyAt i < t.keyAt j ∧ j < t.nodes.length) :
    ∀ i lvl j, i < (t.setPrev w v).nodes.length →
      (t.setPrev w v).nextAt i lvl = some j →
      (t.setPrev w v).keyAt i < (t.setPrev w v).keyAt j ∧
      j < (t.setPrev w v).nodes.length := by
  intro i lvl j hi hn
  rw [nodes_length_setPrev] at hi ⊢
  rw [nextAt_setPrev] at hn
  rw [keyAt_setPrev, keyAt_setPrev]
  exact hE i lvl j hi hn

theorem SpliceOut_build (t : SkipList) (elemIdx c0 nn : Nat) (eKey : ℚ)
    (helem : elemIdx < t.nodes.length) (hc0 : c0 < t.nodes.length)
    (hnn : nn < t.nodes.length) (hc0e : c0 ≠ elemIdx) (hnne : nn ≠ elemIdx)
    (hc0nn : c0 ≠ nn) (hkey : t.keyAt elemIdx = eKey) (hck : t.keyAt c0 < eKey)
    (hnk : eKey < t.keyAt nn)
    (hE : ∀ i lvl j, i < t.nodes.length → t.nextAt i lvl = some j →
      t.keyAt i < t.keyAt j ∧ j < t.nodes.length)
    (h25 : ∀ n ∈ t.nodes, n.next.length = 25) :
    SpliceOut t elemIdx c0 nn
      ((((t.setNext elemIdx 0 (some nn)).setNext c0 0
        (some elemIdx)).setPrev elemIdx (some c0)).setPrev nn (some elemIdx)) := by
  have h0e : 0 < (t.nget elemIdx).next.length := by
    rw [h25 _ (nget_mem t elemIdx helem)]; omega
  have h25a := lenN_setNext t elemIdx 0 (some nn) h25
  have hc0a : c0 < (t.setNext elemIdx 0 (some nn)).nodes.length := by
    rw [nodes_length_setNext]; exact hc0
  have h0c : 0 < ((t.setNext elemIdx 0 (some nn)).nget c0).next.length := by
    rw [h25a _ (nget_mem _ c0 hc0a)]; omega
  have h25b := lenN_setNext (t.setNext elemIdx 0 (some nn)) c0 0 (some elemIdx) h25a
  have hEa := edges_setNext t elemIdx 0 (some nn) hE helem h25 (by omega)
    (fun j hj => by
      cases hj
      exact ⟨by rw [hkey]; exact hnk, hnn⟩)
  have hEb := edges_setNext (t.setNext elemIdx 0 (some nn)) c0 0 (some elemIdx)
    hEa hc0a h25a (by omega)
    (fun j hj => by
      cases hj
      refine ⟨?_, by rw [nodes_length_setNext]; exact helem⟩
      rw [keyAt_setNext, keyAt_setNext, hkey]
      exact hck)
  refine ⟨?_, ?_, ?_, ?_, ?_, ?_, rfl, rfl, rfl, ?_, ?_, ?_, ?_, rfl, rfl⟩
  · rw [nextAt_setPrev, nextAt_setPrev,
      nextAt_setNext_ne _ c0 0 (some elemIdx) elemIdx (Ne.symm hc0e) 0,
      nextAt_setNext_self t elemIdx 0 (some nn) helem h0e]
  · rw [nextAt_setPrev, nextAt_setPrev,
      nextAt_setNext_self _ c0 0 (some elemIdx) hc0a h0c]
  · intro i hie hic
    rw [nextAt_setPrev, nextAt_setPrev,
      nextAt_setNext_ne _ c0 0 (some elemIdx) i hic 0,
      nextAt_setNext_ne t elemIdx 0 (some nn) i hie 0]
  · rw [prevAt_setPrev_ne _ nn (some elemIdx) elemIdx (Ne.symm hnne)]
    exact prevAt_setPrev_self _ elemIdx (some c0)
      (by rw [nodes_length_setNext, nodes_length_setNext]; exact helem)
  · exact prevAt_setPrev_self _ nn (some elemIdx)
      (by rw [nodes_length_setPrev, nodes_length_setNext, nodes_length_setNext]
          exact hnn)
  · intro i hie hin
    rw [prevAt_setPrev_ne _ nn (some elemIdx) i hin,
      prevAt_setPrev_ne _ elemIdx (some c0) i hie,
      prevAt_setNext, prevAt_setNext]
  · rw [nodes_length_setPrev, nodes_length_setPrev, nodes_length_setNext,
      nodes_length_setNext]
  · intro i
    rw [keyAt_setPrev, keyAt_setPrev, keyAt_setNext, keyAt_setNext]
  · exact edges_setPrev _ nn (some elemIdx)
      (edges_setPrev _ elemIdx (some c0) hEb)
  · exact lenN_setPrev _ nn (some elemIdx)
      (lenN_setPrev _ elemIdx (some c0) h25b)

theorem walk_down (eKey : ℚ) (elemIdx level fuel : Nat) (L : List Nat)
    (hIH : WalkIH eKey elemIdx level fuel L)
    (index : Nat) (cur : Option Nat) (t t' : SkipList)
    (hW' : WalkHyp t' L elemIdx eKey) (hf : UpperFrame t t')
    (hidx : index ≤ 24) (h0 : index ≠ 0)
    (hNoE' : ∀ i lvl, lvl ≤ index - 1 → t'.nextAt i lvl ≠ some elemIdx)
    (hcur : cur = none ∨ ∃ c0, cur = some c0 ∧ c0 < t.nodes.length ∧
      c0 ≠ elemIdx ∧ t.keyAt c0 < eKey)
    (hfuel : index + 1 + 26 * aboveCnt t cur ≤ fuel + 1) :
    ∃ c nn t1, insertWalkGo eKey elemIdx level fuel (index - 1) cur t' = .ok t1 ∧
      WalkPost t elemIdx eKey c nn t1 := by
  have hcur' : cur = none ∨ ∃ c0, cur = some c0 ∧ c0 < t'.nodes.length ∧
      c0 ≠ elemIdx ∧ t'.keyAt c0 < eKey := by
    rcases hcur with rfl | ⟨c0, rfl, h1, h2, h3⟩
    · exact Or.inl rfl
    · exact Or.inr ⟨c0, rfl, by rw [hf.len]; exact h1, h2,
        by rw [hf.keys]; exact h3⟩
  have habove : aboveCnt t' cur = aboveCnt t cur :=
    aboveCnt_congr t t' hf.keys hf.len cur
  obtain ⟨c, nn, t1, heq, hpost⟩ :=
    hIH (index - 1) cur t' hW' (by omega) hNoE' hcur' (by rw [habove]; omega)
  exact ⟨c, nn, t1, heq, walk_post_transport t t' t1 elemIdx c nn eKey hf hpost⟩

theorem walk_right (eKey : ℚ) (elemIdx level fuel : Nat) (L : List Nat)
    (hIH : WalkIH eKey elemIdx level fuel L)
    (index : Nat) (t : SkipList) (cur : Option Nat) (j : Nat)
    (hW : WalkHyp t L elemIdx eKey) (hidx : index ≤ 24)
    (hNoE : ∀ i lvl, lvl ≤ index → t.nextAt i lvl ≠ some elemIdx)
    (hj : j < t.nodes.length) (hjne : j ≠ elemIdx) (hjk : t.keyAt j < eKey)
    (hdrop : aboveCnt t (some j) < aboveCnt t cur)
    (hfuel : index + 1 + 26 * aboveCnt t cur ≤ fuel + 1) :
    ∃ c nn t1, insertWalkGo eKey elemIdx level fuel index (some j) t = .ok t1 ∧
      WalkPost t elemIdx eKey c nn t1 :=
  hIH index (some j) t hW hidx hNoE (Or.inr ⟨j, rfl, hj, hjne, hjk⟩) (by omega)

theorem if_bool_true {α : Sort u_1} (a b : α) :
    (if (true : Bool) then a else b) = a := rfl

theorem if_bool_false {α : Sort u_1} (a b : α) :
    (if (false : Bool) then a else b) = b := rfl

theorem insertWalkGo_spec (eKey : ℚ) (elemIdx level : Nat) (L : List Nat) :
    ∀ fuel, WalkIH eKey elemIdx level fuel L := by
  intro fuel
  induction fuel with
  | zero =>
    intro index cur t _ _ _ _ hfuel
    omega
  | succ fuel ih =>
    intro index cur t hW hidx hNoE hcur hfuel
    rcases hcur with rfl | ⟨c0, rfl, hc0len, hc0ne, hc0key⟩
    · cases hS : t.startAt index with
      | none =>
        have h0 : index ≠ 0 := by
          intro h
          subst h
          obtain ⟨s0, hs0, _⟩ := hW.low
          rw [hS] at hs0
          exact Option.noConfusion hs0
        by_cases hsp : index ≤ level
        · have hWf := UpperFrame_setNext t elemIdx index none (by omega)
          have hW' : WalkHyp (t.setNext elemIdx index none) L elemIdx eKey :=
            WalkHyp_frame t _ L elemIdx eKey hW hWf
              (edges_setNext t elemIdx index none hW.edges hW.elemLt hW.lenN hidx
                (fun j hj => Option.noConfusion hj))
              (lenN_setNext t elemIdx index none hW.lenN)
          have hNoE' : ∀ i lvl, lvl ≤ index - 1 →
              (t.setNext elemIdx index none).nextAt i lvl ≠ some elemIdx :=
            fun i lvl hl => noE_lt_setNext t elemIdx index none elemIdx
              (fun i' lvl' hl' => hNoE i' lvl' (by omega)) i lvl (by omega)
          have hmain := walk_down eKey elemIdx level fuel L ih index none t
            (t.setNext elemIdx index none) hW' hWf hidx h0 hNoE' (Or.inl rfl) hfuel
          rw [insertWalkGo_succ]
          simp only [hS, decide_eq_true hsp, decide_eq_false h0, Bool.true_and,
            Bool.and_true, Bool.and_false, Bool.false_and, Option.isNone_none,
            if_bool_true, if_bool_false, if_true, if_false, if_neg h0]
          exact hmain
        · have hmain := walk_down eKey elemIdx level fuel L ih index none t t hW
            (UpperFrame_refl t) hidx h0
            (fun i lvl hl => hNoE i lvl (by omega)) (Or.inl rfl) hfuel
          rw [insertWalkGo_succ]
          simp only [hS, decide_eq_false hsp, Bool.false_and, if_bool_false, if_true, if_false,
            if_neg h0]
          exact hmain
      | some j =>
        have hjV := hW.startsV index j hS
        by_cases hjk : t.keyAt j < eKey
        · have hqle : qLe eKey (t.keyAt j) = false :=
            (qLe_eq_false_iff _ _).mpr (not_le.mpr hjk)
          have hqlt : qLt (t.keyAt j) eKey = true := (qLt_iff _ _).mpr hjk
          have hmain := walk_right eKey elemIdx level fuel L ih index t none j hW
            hidx hNoE hjV.1 hjV.2 hjk (aboveCnt_lt_none t j) hfuel
          rw [insertWalkGo_succ]
          simp only [hS, hqle, hqlt, Bool.and_false, Bool.false_and,
            if_bool_false, if_bool_true, if_true, if_false]
          exact hmain
        · have hle : eKey ≤ t.keyAt j := not_lt.mp hjk
          have hne : t.keyAt j ≠ eKey := by
            rw [← hW.elemKey]
            exact hW.distinct j elemIdx hjV.1 hW.elemLt hjV.2
          have hstrict : eKey < t.keyAt j := lt_of_le_of_ne hle (Ne.symm hne)
          have h0 : index ≠ 0 := by
            intro h
            subst h
            obtain ⟨s0, hs0, hsk⟩ := hW.low
            rw [hS] at hs0
            injection hs0 with h2
            subst h2
            exact absurd hsk (not_lt.mpr hle)
          have hqle : qLe eKey (t.keyAt j) = true := (qLe_iff _ _).mpr hle
          have hqltf : qLt (t.keyAt j) eKey = false :=
            (qLt_eq_false_iff _ _).mpr (not_lt.mpr hle)
          by_cases hsp : index ≤ level
          · have hWf := UpperFrame_setNext t elemIdx index (some j) (by omega)
            have hW' : WalkHyp (t.setNext elemIdx index (some j)) L elemIdx eKey :=
              WalkHyp_frame t _ L elemIdx eKey hW hWf
                (edges_setNext t elemIdx index (some j) hW.edges hW.elemLt hW.lenN
                  hidx
                  (fun j' hj' => by
                    cases hj'
                    exact ⟨by rw [hW.elemKey]; exact hstrict, hjV.1⟩))
                (lenN_setNext t elemIdx index (some j) hW.lenN)
            have hNoE' : ∀ i lvl, lvl ≤ index - 1 →
                (t.setNext elemIdx index (some j)).nextAt i lvl ≠ some elemIdx :=
              fun i lvl hl => noE_lt_setNext t elemIdx index (some j) elemIdx
                (fun i' lvl' hl' => hNoE i' lvl' (by omega)) i lvl (by omega)
            have hmain := walk_down eKey elemIdx level fuel L ih index none t
              (t.setNext elemIdx index (some j)) hW' hWf hidx h0 hNoE'
              (Or.inl rfl) hfuel
            rw [insertWalkGo_succ]
            simp only [hS, hqle, decide_eq_true hsp, decide_eq_false h0,
              Bool.true_and, Bool.and_true, Bool.and_false, Bool.false_and,
              Option.isNone_some, if_bool_true, if_bool_false, if_true, if_false, if_neg h0,
              keyAt_setNext, hqltf]
            exact hmain
          · have hmain := walk_down eKey elemIdx level fuel L ih index none t t hW
              (UpperFrame_refl t) hidx h0
              (fun i lvl hl => hNoE i lvl (by omega)) (Or.inl rfl) hfuel
            rw [insertWalkGo_succ]
            simp only [hS, hqle, decide_eq_false hsp, Bool.false_and, hqltf,
              if_bool_false, if_neg h0]
            exact hmain
    · cases hnxt : t.nextAt c0 index with
      | none =>
        have h0 : index ≠ 0 := by
          intro h
          subst h
          have hc0L : c0 ∈ L := (hW.mem c0).mpr ⟨hc0len, hc0ne⟩
          have hlast := chainOK_next_none_last t L _ c0 hW.chain hc0L hnxt
          obtain ⟨l0, hl0, hlk⟩ := hW.high
          rw [hW.end0, hlast] at hl0
          injection hl0 with h2
          subst h2
          exact absurd hlk (not_lt.mpr (le_of_lt hc0key))
        by_cases hsp : index ≤ level
        · have hWf1 := UpperFrame_setNext t elemIdx index none (by omega)
          have hWf2 := UpperFrame_setNext (t.setNext elemIdx index none) c0 index
            (some elemIdx) (by omega)
          have hWf := UpperFrame_trans _ _ _ hWf1 hWf2
          have hEa := edges_setNext t elemIdx index none hW.edges hW.elemLt hW.lenN
            hidx (fun j hj => Option.noConfusion hj)
          have hEb := edges_setNext (t.setNext elemIdx index none) c0 index
            (some elemIdx) hEa
            (by rw [nodes_length_setNext]; exact hc0len)
            (lenN_setNext t elemIdx index none hW.lenN) hidx
            (fun j hj => by
              cases hj
              refine ⟨?_, by rw [nodes_length_setNext]; exact hW.elemLt⟩
              rw [keyAt_setNext, keyAt_setNext, hW.elemKey]
              exact hc0key)
          have hW' := WalkHyp_frame t _ L elemIdx eKey hW hWf hEb
            (lenN_setNext _ c0 index (some elemIdx)
              (lenN_setNext t elemIdx index none hW.lenN))
          have hNoE' : ∀ i lvl, lvl ≤ index - 1 →
              ((t.setNext elemIdx index none).setNext c0 index
                (some elemIdx)).nextAt i lvl ≠ some elemIdx :=
            fun i lvl hl =>
              noE_lt_setNext _ c0 index (some elemIdx) elemIdx
                (noE_lt_setNext t elemIdx index none elemIdx
                  (fun i' lvl' hl' => hNoE i' lvl' (by omega))) i lvl (by omega)
          have hmain := walk_down eKey elemIdx level fuel L ih index (some c0) t _
            hW' hWf hidx h0 hNoE' (Or.inr ⟨c0, rfl, hc0len, hc0ne, hc0key⟩) hfuel
          rw [insertWalkGo_succ]
          simp only [hnxt, decide_eq_true hsp, decide_eq_false h0, Bool.true_and,
            Bool.and_true, Bool.and_false, Bool.false_and, Option.isNone_none,
            if_bool_true, if_bool_false, if_true, if_false, if_neg h0]
          exact hmain
        · have hmain := walk_down eKey elemIdx level fuel L ih index (some c0) t t
            hW (UpperFrame_refl t) hidx h0
            (fun i lvl hl => hNoE i lvl (by omega))
            (Or.inr ⟨c0, rfl, hc0len, hc0ne, hc0key⟩) hfuel
          rw [insertWalkGo_succ]
          simp only [hnxt, decide_eq_false hsp, Bool.false_and, if_bool_false, if_true, if_false,
            if_neg h0]
          exact hmain
      | some nn =>
        have hnn_ne : nn ≠ elemIdx := by
          intro h
          subst h
          exact hNoE c0 index (le_refl index) hnxt
        have hedge := hW.edges c0 index nn hc0len hnxt
        by_cases hnk : t.keyAt nn < eKey
        · have hqle : qLe eKey (t.keyAt nn) = false :=
            (qLe_eq_false_iff _ _).mpr (not_le.mpr hnk)
          have hqlt : qLt (t.keyAt nn) eKey = true := (qLt_iff _ _).mpr hnk
          have hmain := walk_right eKey elemIdx level fuel L ih index t (some c0)
            nn hW hidx hNoE hedge.2 hnn_ne hnk
            (aboveCnt_lt_step t c0 nn hedge.2 hedge.1) hfuel
          rw [insertWalkGo_succ]
          simp only [hnxt, hqle, hqlt, Bool.and_false, Bool.false_and,
            if_bool_false, if_bool_true, if_true, if_false]
          exact hmain
        · have hle : eKey ≤ t.keyAt nn := not_lt.mp hnk
          have hne : t.keyAt nn ≠ eKey := by
            rw [← hW.elemKey]
            exact hW.distinct nn elemIdx hedge.2 hW.elemLt hnn_ne
          have hstrict : eKey < t.keyAt nn := lt_of_le_of_ne hle (Ne.symm hne)
          have hqle : qLe eKey (t.keyAt nn) = true := (qLe_iff _ _).mpr hle
          have hqltf : qLt (t.keyAt nn) eKey = false :=
            (qLt_eq_false_iff _ _).mpr (not_lt.mpr hle)
          by_cases h0 : index = 0
          · subst h0
            have hc0nn : c0 ≠ nn := by
              intro h
              exact absurd (h ▸ hedge.1) (lt_irrefl _)
            have hsplice := SpliceOut_build t elemIdx c0 nn eKey hW.elemLt hc0len
              hedge.2 hc0ne hnn_ne hc0nn hW.elemKey hc0key hstrict hW.edges hW.lenN
            have h00 : (0 : Nat) = 0 := rfl
            have hd00 : decide ((0 : Nat) = 0) = true := rfl
            have hd0l : decide (0 ≤ level) = true := decide_eq_true (Nat.zero_le level)
            rw [insertWalkGo_succ]
            simp only [hnxt, hqle, hd00, hd0l, Bool.true_and, Bool.and_true,
              Bool.and_false, Bool.and_self, Option.isNone_some, if_bool_true,
              if_bool_false, if_true, if_false, if_pos h00, keyAt_setPrev, keyAt_setNext, hqltf]
            exact ⟨c0, nn, _, rfl, hc0len, hc0ne, hedge.2, hnn_ne, hnxt, hc0key,
              hstrict, hsplice⟩
          · by_cases hsp : index ≤ level
            · have hWf1 := UpperFrame_setNext t elemIdx index (some nn) (by omega)
              have hWf2 := UpperFrame_setNext (t.setNext elemIdx index (some nn))
                c0 index (some elemIdx) (by omega)
              have hWf := UpperFrame_trans _ _ _ hWf1 hWf2
              have hEa := edges_setNext t elemIdx index (some nn) hW.edges
                hW.elemLt hW.lenN hidx
                (fun j' hj' => by
                  cases hj'
                  exact ⟨by rw [hW.elemKey]; exact hstrict, hedge.2⟩)
              have hEb := edges_setNext (t.setNext elemIdx index (some nn)) c0
                index (some elemIdx) hEa
                (by rw [nodes_length_setNext]; exact hc0len)
                (lenN_setNext t elemIdx index (some nn) hW.lenN) hidx
                (fun j' hj' => by
                  cases hj'
                  refine ⟨?_, by rw [nodes_length_setNext]; exact hW.elemLt⟩
                  rw [keyAt_setNext, keyAt_setNext, hW.elemKey]
                  exact hc0key)
              have hW' := WalkHyp_frame t _ L elemIdx eKey hW hWf hEb
                (lenN_setNext _ c0 index (some elemIdx)
                  (lenN_setNext t elemIdx index (some nn) hW.lenN))
              have hNoE' : ∀ i lvl, lvl ≤ index - 1 →
                  ((t.setNext elemIdx index (some nn)).setNext c0 index
                    (some elemIdx)).nextAt i lvl ≠ some elemIdx :=
                fun i lvl hl =>
                  noE_lt_setNext _ c0 index (some elemIdx) elemIdx
                    (noE_lt_setNext t elemIdx index (some nn) elemIdx
                      (fun i' lvl' hl' => hNoE i' lvl' (by omega))) i lvl (by omega)
              have hmain := walk_down eKey elemIdx level fuel L ih index (some c0)
                t _ hW' hWf hidx h0 hNoE'
                (Or.inr ⟨c0, rfl, hc0len, hc0ne, hc0key⟩) hfuel
              rw [insertWalkGo_succ]
              simp only [hnxt, hqle, decide_eq_true hsp, decide_eq_false h0,
                Bool.true_and, Bool.and_true, Bool.and_false, Bool.false_and,
                Option.isNone_some, if_bool_true, if_bool_false, if_true, if_false, if_neg h0,
                keyAt_setNext, hqltf]
              exact hmain
            · have hmain := walk_down eKey elemIdx level fuel L ih index (some c0)
                t t hW (UpperFrame_refl t) hidx h0
                (fun i lvl hl => hNoE i lvl (by omega))
                (Or.inr ⟨c0, rfl, hc0len, hc0ne, hc0key⟩) hfuel
              rw [insertWalkGo_succ]
              simp only [hnxt, hqle, decide_eq_false hsp, Bool.false_and, hqltf,
                if_bool_false, if_neg h0]
              exact hmain

end C5Walk




section C5Anchor

theorem getD_concat_lt {α : Type} (l : List α) (x d : α) (i : Nat)
    (h : i < l.length) : (l ++ [x]).getD i d = l.getD i d := by
  rw [List.getD_eq_getElem?_getD, List.getD_eq_getElem?_getD,
    List.getElem?_append_left h]

theorem getD_concat_len {α : Type} (l : List α) (x d : α) :
    (l ++ [x]).getD l.length d = x := by
  rw [List.getD_eq_getElem?_getD, List.getElem?_append_right (le_refl _)]
  simp

theorem nextAt_setStart (t : SkipList) (lvl : Nat) (v : Option Nat) (i l : Nat) :
    (t.setStart lvl v).nextAt i l = t.nextAt i l := rfl

theorem prevAt_setStart (t : SkipList) (lvl : Nat) (v : Option Nat) (i : Nat) :
    (t.setStart lvl v).prevAt i = t.prevAt i := rfl

theorem keyAt_setStart (t : SkipList) (lvl : Nat) (v : Option Nat) (i : Nat) :
    (t.setStart lvl v).keyAt i = t.keyAt i := rfl

theorem endAt_setStart (t : SkipList) (lvl : Nat) (v : Option Nat) (l : Nat) :
    (t.setStart lvl v).endAt l = t.endAt l := rfl

theorem nextAt_setEnd (t : SkipList) (lvl : Nat) (v : Option Nat) (i l : Nat) :
    (t.setEnd lvl v).nextAt i l = t.nextAt i l := rfl

theorem prevAt_setEnd (t : SkipList) (lvl : Nat) (v : Option Nat) (i : Nat) :
    (t.setEnd lvl v).prevAt i = t.prevAt i := rfl

theorem keyAt_setEnd (t : SkipList) (lvl : Nat) (v : Option Nat) (i : Nat) :
    (t.setEnd lvl v).keyAt i = t.keyAt i := rfl

theorem startAt_setEnd (t : SkipList) (lvl : Nat) (v : Option Nat) (l : Nat) :
    (t.setEnd lvl v).startAt l = t.startAt l := rfl

theorem startLevels_length_setStart (t : SkipList) (lvl : Nat) (v : Option Nat) :
    (t.setStart lvl v).startLevels.length = t.startLevels.length :=
  List.length_set t.startLevels lvl v

theorem endLevels_length_setEnd (t : SkipList) (lvl : Nat) (v : Option Nat) :
    (t.setEnd lvl v).endLevels.length = t.endLevels.length :=
  List.length_set t.endLevels lvl v

/-- What the anchor loop's iterations above level 0 leave untouched. -/
structure AnchorFrame (t2 t' : SkipList) : Prop where
  next0 : ∀ i, t'.nextAt i 0 = t2.nextAt i 0
  prevs : ∀ i, t'.prevAt i = t2.prevAt i
  start0 : t'.startAt 0 = t2.startAt 0
  end0 : t'.endAt 0 = t2.endAt 0
  count : t'.elementCount = t2.elementCount
  len : t'.nodes.length = t2.nodes.length
  keys : ∀ i, t'.keyAt i = t2.keyAt i
  maxL : t'.maxLevel = t2.maxLevel
  epsEq : t'.eps = t2.eps

theorem AnchorFrame_refl (t : SkipList) : AnchorFrame t t where
  next0 _ := rfl
  prevs _ := rfl
  start0 := rfl
  end0 := rfl
  count := rfl
  len := rfl
  keys _ := rfl
  maxL := rfl
  epsEq := rfl

/-- The invariant carried through the anchor loop while `n` levels are still
to be processed. -/
structure PreAnchor (t2 : SkipList) (elemIdx : Nat) (eKey : ℚ) (n : Nat)
    (t' : SkipList) : Prop where
  frame : AnchorFrame t2 t'
  range : ∀ lvl, lvl < n →
    t'.startAt lvl = t2.startAt lvl ∧ t'.endAt lvl = t2.endAt lvl
  edges : ∀ i lvl j, i < t'.nodes.length → t'.nextAt i lvl = some j →
    t'.keyAt i < t'.keyAt j ∧ j < t'.nodes.length
  startsV : ∀ lvl j, t'.startAt lvl = some j → j < t'.nodes.length
  endsV : ∀ lvl j, t'.endAt lvl = some j → j < t'.nodes.length
  lenS : t'.startLevels.length = 25
  lenE : t'.endLevels.length = 25
  lenN : ∀ m ∈ t'.nodes, m.next.length = 25

/-- One iteration of the anchor loop at `i`. -/
def anchorStep (elemIdx : Nat) (eKey : ℚ) (newFirst newLast normally : Bool)
    (i : Nat) (t : SkipList) : SkipList :=
  let p1 : SkipList × Bool :=
    if newFirst || normally then
      let ta :=
        if (match t.startAt i with
            | none => true
            | some j => qLt eKey (t.keyAt j)) then
          let tx :=
            if i = 0 then
              match t.startAt i with
              | some j => t.setPrev j (some elemIdx)
              | none => t
            else t
          let ty := tx.setNext elemIdx i (tx.startAt i)
          ty.setStart i (some elemIdx)
        else t
      let tb := if ta.nextAt elemIdx i = none then ta.setEnd i (some elemIdx) else ta
      (tb, true)
    else (t, false)
  let t1 := p1.1
  let p2 : SkipList × Bool :=
    if newLast then
      let ta :=
        if !newFirst then
          let tx := match t1.endAt i with
            | some j => t1.setNext j i (some elemIdx)
            | none => t1
          let ty := if i = 0 then tx.setPrev elemIdx (t1.endAt i) else tx
          ty.setEnd i (some elemIdx)
        else t1
      let tb :=
        if (match ta.startAt i with
            | none => true
            | some j => qLt eKey (ta.keyAt j)) then
          ta.setStart i (some elemIdx)
        else ta
      (tb, true)
    else (t1, false)
  p2.1

theorem anchorLoop_succ_eq (elemIdx : Nat) (eKey : ℚ) (nf nl nm : Bool)
    (n : Nat) (t : SkipList) (hc : (nf || nm || nl) = true) :
    anchorLoop elemIdx eKey nf nl nm (n + 1) t =
      anchorLoop elemIdx eKey nf nl nm n (anchorStep elemIdx eKey nf nl nm n t) := by
  cases nf <;> cases nl <;> cases nm <;> first | rfl | exact absurd hc (by decide)

theorem anchorLoop_run (elemIdx : Nat) (eKey : ℚ) (nf nl nm : Bool)
    (hc : (nf || nm || nl) = true) (P : Nat → SkipList → Prop) (N : Nat)
    (hstep : ∀ n t, n < N → P (n + 1) t → P n (anchorStep elemIdx eKey nf nl nm n t)) :
    ∀ n, n ≤ N → ∀ t, P n t → P 0 (anchorLoop elemIdx eKey nf nl nm n t) := by
  intro n
  induction n with
  | zero => intro _ t h; exact h
  | succ n ihn =>
    intro hle t h
    rw [anchorLoop_succ_eq elemIdx eKey nf nl nm n t hc]
    exact ihn (by omega) _ (hstep n t (by omega) h)

theorem chainOK_snoc (t t2 : SkipList) (x : Nat) :
    ∀ (L : List Nat) (o : Option Nat) (e0 : Nat), chainOK t o L →
      L.getLast? = some e0 → L.Nodup →
      (∀ i ∈ L, i ≠ e0 → t2.nextAt i 0 = t.nextAt i 0) →
      t2.nextAt e0 0 = some x → t2.nextAt x 0 = none →
      chainOK t2 o (L ++ [x]) := by
  intro L
  induction L with
  | nil => intro o e0 _ hl; simp at hl
  | cons j rest ihL =>
    intro o e0 h hl hnd hfr he0 hx
    obtain ⟨ho, hrest⟩ := h
    cases rest with
    | nil =>
      simp at hl
      subst hl
      exact ⟨ho, he0, hx⟩
    | cons r rest2 =>
      rw [List.getLast?_cons_cons] at hl
      have he0mem : e0 ∈ r :: rest2 := by
        have := List.getLast?_eq_getLast (r :: rest2) (by simp)
        rw [this] at hl
        injection hl with h2
        rw [← h2]
        exact List.getLast_mem _
      have hjne : j ≠ e0 := by
        intro hEq
        subst hEq
        exact (List.nodup_cons.mp hnd).1 he0mem
      refine ⟨ho, ?_⟩
      rw [hfr j (List.mem_cons_self j _) hjne]
      exact ihL _ _ hrest hl (List.nodup_cons.mp hnd).2
        (fun i hi hie => hfr i (List.mem_cons_of_mem j hi) hie) he0 hx

theorem prevOK_snoc (t t2 : SkipList) (x : Nat) :
    ∀ (L : List Nat) (o : Option Nat) (e0 : Nat), prevOK t o L →
      L.getLast? = some e0 →
      (∀ i ∈ L, t2.prevAt i = t.prevAt i) →
      t2.prevAt x = some e0 →
      prevOK t2 o (L ++ [x]) := by
  intro L
  induction L with
  | nil => intro o e0 _ hl; simp at hl
  | cons j rest ihL =>
    intro o e0 h hl hfr hx
    obtain ⟨ho, hrest⟩ := h
    cases rest with
    | nil =>
      simp at hl
      subst hl
      exact ⟨by rw [hfr j (List.mem_cons_self j _), ho], hx, trivial⟩
    | cons r rest2 =>
      rw [List.getLast?_cons_cons] at hl
      refine ⟨by rw [hfr j (List.mem_cons_self j _), ho], ?_⟩
      exact ihL _ _ hrest hl
        (fun i hi => hfr i (List.mem_cons_of_mem j hi)) hx

theorem PreAnchor_setNext (t2 : SkipList) (elemIdx : Nat) (eKey : ℚ) (n : Nat)
    (t' : SkipList) (w i : Nat) (v : Option Nat)
    (h : PreAnchor t2 elemIdx eKey n t') (hi1 : 1 ≤ i) (hi24 : i ≤ 24)
    (hw : w < t'.nodes.length)
    (hv : ∀ j, v = some j → t'.keyAt w < t'.keyAt j ∧ j < t'.nodes.length) :
    PreAnchor t2 elemIdx eKey n (t'.setNext w i v) where
  frame :=
    { next0 := fun m => by
        rw [nextAt_setNext_ne_lvl t' w i v 0 (by omega) m]
        exact h.frame.next0 m
      prevs := fun m => by rw [prevAt_setNext]; exact h.frame.prevs m
      start0 := h.frame.start0
      end0 := h.frame.end0
      count := h.frame.count
      len := by rw [nodes_length_setNext]; exact h.frame.len
      keys := fun m => by rw [keyAt_setNext]; exact h.frame.keys m
      maxL := h.frame.maxL
      epsEq := h.frame.epsEq }
  range lvl hl := h.range lvl hl
  edges := edges_setNext t' w i v h.edges hw h.lenN hi24 hv
  startsV lvl j hs := by
    rw [nodes_length_setNext]
    exact h.startsV lvl j hs
  endsV lvl j hs := by
    rw [nodes_length_setNext]
    exact h.endsV lvl j hs
  lenS := h.lenS
  lenE := h.lenE
  lenN := lenN_setNext t' w i v h.lenN

theorem PreAnchor_setStart (t2 : SkipList) (elemIdx : Nat) (eKey : ℚ) (n : Nat)
    (t' : SkipList) (i : Nat)
    (h : PreAnchor t2 elemIdx eKey n t') (hi1 : 1 ≤ i) (hi24 : i ≤ 24)
    (hni : n ≤ i) (hel : elemIdx < t'.nodes.length) :
    PreAnchor t2 elemIdx eKey n (t'.setStart i (some elemIdx)) where
  frame :=
    { next0 := fun m => h.frame.next0 m
      prevs := fun m => h.frame.prevs m
      start0 := by
        rw [startAt_setStart_ne t' i (some elemIdx) 0 (by omega)]
        exact h.frame.start0
      end0 := h.frame.end0
      count := h.frame.count
      len := h.frame.len
      keys := fun m => h.frame.keys m
      maxL := h.frame.maxL
      epsEq := h.frame.epsEq }
  range lvl hl := by
    rw [startAt_setStart_ne t' i (some elemIdx) lvl (by omega), endAt_setStart]
    exact h.range lvl hl
  edges := h.edges
  startsV lvl j hs := by
    by_cases hli : lvl = i
    · subst hli
      rw [startAt_setStart_self t' lvl (some elemIdx) (by rw [h.lenS]; omega)] at hs
      injection hs with h2
      rw [← h2]
      exact hel
    · rw [startAt_setStart_ne t' i (some elemIdx) lvl (fun hEq => hli hEq.symm)] at hs
      exact h.startsV lvl j hs
  endsV lvl j hs := h.endsV lvl j hs
  lenS := by rw [startLevels_length_setStart]; exact h.lenS
  lenE := h.lenE
  lenN := h.lenN

theorem PreAnchor_setEnd (t2 : SkipList) (elemIdx : Nat) (eKey : ℚ) (n : Nat)
    (t' : SkipList) (i : Nat)
    (h : PreAnchor t2 elemIdx eKey n t') (hi1 : 1 ≤ i) (hi24 : i ≤ 24)
    (hni : n ≤ i) (hel : elemIdx < t'.nodes.length) :
    PreAnchor t2 elemIdx eKey n (t'.setEnd i (some elemIdx)) where
  frame :=
    { next0 := fun m => h.frame.next0 m
      prevs := fun m => h.frame.prevs m
      start0 := h.frame.start0
      end0 := by
        rw [endAt_setEnd_ne t' i (some elemIdx) 0 (by omega)]
        exact h.frame.end0
      count := h.frame.count
      len := h.frame.len
      keys := fun m => h.frame.keys m
      maxL := h.frame.maxL
      epsEq := h.frame.epsEq }
  range lvl hl := by
    rw [endAt_setEnd_ne t' i (some elemIdx) lvl (by omega), startAt_setEnd]
    exact h.range lvl hl
  edges := h.edges
  startsV lvl j hs := h.startsV lvl j hs
  endsV lvl j hs := by
    by_cases hli : lvl = i
    · subst hli
      rw [endAt_setEnd_self t' lvl (some elemIdx) (by rw [h.lenE]; omega)] at hs
      injection hs with h2
      rw [← h2]
      exact hel
    · rw [endAt_setEnd_ne t' i (some elemIdx) lvl (fun hEq => hli hEq.symm)] at hs
      exact h.endsV lvl j hs
  lenS := h.lenS
  lenE := by rw [endLevels_length_setEnd]; exact h.lenE
  lenN := h.lenN

theorem PreAnchor_weaken (t2 : SkipList) (elemIdx : Nat) (eKey : ℚ) (m n : Nat)
    (t' : SkipList) (hmn : m ≤ n) (h : PreAnchor t2 elemIdx eKey n t') :
    PreAnchor t2 elemIdx eKey m t' where
  frame := h.frame
  range lvl hl := h.range lvl (by omega)
  edges := h.edges
  startsV := h.startsV
  endsV := h.endsV
  lenS := h.lenS
  lenE := h.lenE
  lenN := h.lenN

/-- The `newFirst || normally` half of an anchor-loop iteration. -/
def anchorP1 (elemIdx : Nat) (eKey : ℚ) (i : Nat) (t : SkipList) : SkipList :=
  let ta :=
    if (match t.startAt i with
        | none => true
        | some j => qLt eKey (t.keyAt j)) then
      let tx :=
        if i = 0 then
          match t.startAt i with
          | some j => t.setPrev j (some elemIdx)
          | none => t
        else t
      let ty := tx.setNext elemIdx i (tx.startAt i)
      ty.setStart i (some elemIdx)
    else t
  if ta.nextAt elemIdx i = none then ta.setEnd i (some elemIdx) else ta

/-- The `newLast` half of an anchor-loop iteration. -/
def anchorP2 (elemIdx : Nat) (eKey : ℚ) (newFirst : Bool) (i : Nat)
    (t : SkipList) : SkipList :=
  let ta :=
    if !newFirst then
      let tx := match t.endAt i with
        | some j => t.setNext j i (some elemIdx)
        | none => t
      let ty := if i = 0 then tx.setPrev elemIdx (t.endAt i) else tx
      ty.setEnd i (some elemIdx)
    else t
  if (match ta.startAt i with
      | none => true
      | some j => qLt eKey (ta.keyAt j)) then
    ta.setStart i (some elemIdx)
  else ta

theorem anchorStep_eq (elemIdx : Nat) (eKey : ℚ) (nf nl nm : Bool) (i : Nat)
    (t : SkipList) :
    anchorStep elemIdx eKey nf nl nm i t =
      (let t1 := if (nf || nm) = true then anchorP1 elemIdx eKey i t else t
       if nl = true then anchorP2 elemIdx eKey nf i t1 else t1) := by
  cases nf <;> cases nl <;> cases nm <;> rfl

theorem anchorP1_pre (t2 : SkipList) (elemIdx : Nat) (eKey : ℚ) (n : Nat)
    (t' : SkipList) (helemKey : t2.keyAt elemIdx = eKey)
    (hel2 : elemIdx < t2.nodes.length) (hn : 1 ≤ n) (hn24 : n ≤ 24)
    (h : PreAnchor t2 elemIdx eKey (n + 1) t') :
    PreAnchor t2 elemIdx eKey n (anchorP1 elemIdx eKey n t') := by
  have h' := PreAnchor_weaken t2 elemIdx eKey n (n + 1) t' (by omega) h
  have hel : elemIdx < t'.nodes.length := by rw [h.frame.len]; exact hel2
  have helK : t'.keyAt elemIdx = eKey := by rw [h.frame.keys]; exact helemKey
  rw [anchorP1]
  rw [if_neg (show ¬ n = 0 by omega)]
  cases hS : t'.startAt n with
  | none =>
    simp only [hS, if_bool_true, if_true, if_false]
    have hstep1 := PreAnchor_setNext t2 elemIdx eKey n t' elemIdx n none h' hn
      hn24 hel (fun j hj => Option.noConfusion hj)
    have hstep2 := PreAnchor_setStart t2 elemIdx eKey n _ n hstep1 hn hn24
      (le_refl n) (by rw [nodes_length_setNext]; exact hel)
    by_cases hEnd : ((t'.setNext elemIdx n none).setStart n
        (some elemIdx)).nextAt elemIdx n = none
    · rw [if_pos hEnd]
      exact PreAnchor_setEnd t2 elemIdx eKey n _ n hstep2 hn hn24 (le_refl n)
        (by rw [SkipList.setStart, nodes_length_setNext]; exact hel)
    · rw [if_neg hEnd]
      exact hstep2
  | some j =>
    by_cases hq : qLt eKey (t'.keyAt j) = true
    · simp only [hS, hq, if_bool_true, if_true, if_false]
      have hstep1 := PreAnchor_setNext t2 elemIdx eKey n t' elemIdx n (some j) h'
        hn hn24 hel
        (fun j' hj' => by
          cases hj'
          exact ⟨by rw [helK]; exact (qLt_iff _ _).mp hq, h.startsV n j hS⟩)
      have hstep2 := PreAnchor_setStart t2 elemIdx eKey n _ n hstep1 hn hn24
        (le_refl n) (by rw [nodes_length_setNext]; exact hel)
      by_cases hEnd : ((t'.setNext elemIdx n (some j)).setStart n
          (some elemIdx)).nextAt elemIdx n = none
      · rw [if_pos hEnd]
        exact PreAnchor_setEnd t2 elemIdx eKey n _ n hstep2 hn hn24 (le_refl n)
          (by rw [SkipList.setStart, nodes_length_setNext]; exact hel)
      · rw [if_neg hEnd]
        exact hstep2
    · rw [Bool.not_eq_true] at hq
      simp only [hS, hq, if_bool_false, if_true, if_false]
      by_cases hEnd : t'.nextAt elemIdx n = none
      · rw [if_pos hEnd]
        exact PreAnchor_setEnd t2 elemIdx eKey n t' n h' hn hn24 (le_refl n) hel
      · rw [if_neg hEnd]
        exact h'

theorem anchorP2_pre_nfTrue (t2 : SkipList) (elemIdx : Nat) (eKey : ℚ) (n : Nat)
    (t' : SkipList) (hel2 : elemIdx < t2.nodes.length) (hn : 1 ≤ n) (hn24 : n ≤ 24)
    (h : PreAnchor t2 elemIdx eKey n t') :
    PreAnchor t2 elemIdx eKey n (anchorP2 elemIdx eKey true n t') := by
  have hel : elemIdx < t'.nodes.length := by rw [h.frame.len]; exact hel2
  rw [anchorP2]
  simp only [Bool.not_true, if_bool_false, if_true, if_false]
  by_cases hc : (match t'.startAt n with
      | none => true
      | some j => qLt eKey (t'.keyAt j)) = true
  · rw [if_pos hc]
    exact PreAnchor_setStart t2 elemIdx eKey n t' n h hn hn24 (le_refl n) hel
  · rw [if_neg hc]
    exact h

theorem anchorP2_pre_nfFalse (t2 : SkipList) (elemIdx : Nat) (eKey : ℚ) (n : Nat)
    (t' : SkipList) (helemKey : t2.keyAt elemIdx = eKey)
    (hel2 : elemIdx < t2.nodes.length)
    (hE2 : ∀ lvl j, t2.endAt lvl = some j → j ≠ elemIdx)
    (hBelow : ∀ j, j < t2.nodes.length → j ≠ elemIdx → t2.keyAt j < eKey)
    (hn : 1 ≤ n) (hn24 : n ≤ 24)
    (h : PreAnchor t2 elemIdx eKey (n + 1) t') :
    PreAnchor t2 elemIdx eKey n (anchorP2 elemIdx eKey false n t') := by
  have h' := PreAnchor_weaken t2 elemIdx eKey n (n + 1) t' (by omega) h
  have hel : elemIdx < t'.nodes.length := by rw [h.frame.len]; exact hel2
  have helK : t'.keyAt elemIdx = eKey := by rw [h.frame.keys]; exact helemKey
  rw [anchorP2]
  simp only [Bool.not_false, if_bool_true, if_true, if_false]
  rw [if_neg (show ¬ n = 0 by omega)]
  have hrange := (h.range n (by omega)).2
  cases hE : t'.endAt n with
  | none =>
    simp only [hE, if_true, if_false]
    have hstep1 := PreAnchor_setEnd t2 elemIdx eKey n t' n h' hn hn24 (le_refl n)
      hel
    by_cases hc : (match (t'.setEnd n (some elemIdx)).startAt n with
        | none => true
        | some j => qLt eKey ((t'.setEnd n (some elemIdx)).keyAt j)) = true
    · rw [if_pos hc]
      exact PreAnchor_setStart t2 elemIdx eKey n _ n hstep1 hn hn24 (le_refl n)
        (by rw [SkipList.setEnd]; exact hel)
    · rw [if_neg hc]
      exact hstep1
  | some j =>
    rw [hE] at hrange
    have hj2 : t2.endAt n = some j := hrange.symm
    have hjne : j ≠ elemIdx := hE2 n j hj2
    have hjlen : j < t'.nodes.length := h.endsV n j hE
    have hjkey : t'.keyAt j < t'.keyAt elemIdx := by
      rw [h.frame.keys, h.frame.keys, helemKey]
      exact hBelow j (by rw [← h.frame.len]; exact hjlen) hjne
    simp only [hE, if_true, if_false]
    have hstep1 := PreAnchor_setNext t2 elemIdx eKey n t' j n (some elemIdx) h'
      hn hn24 hjlen
      (fun j' hj' => by
        cases hj'
        exact ⟨hjkey, hel⟩)
    have hstep2 := PreAnchor_setEnd t2 elemIdx eKey n _ n hstep1 hn hn24
      (le_refl n) (by rw [nodes_length_setNext]; exact hel)
    by_cases hc : (match ((t'.setNext j n (some elemIdx)).setEnd n
        (some elemIdx)).startAt n with
        | none => true
        | some j' => qLt eKey (((t'.setNext j n (some elemIdx)).setEnd n
          (some elemIdx)).keyAt j')) = true
    · rw [if_pos hc]
      exact PreAnchor_setStart t2 elemIdx eKey n _ n hstep2 hn hn24 (le_refl n)
        (by rw [SkipList.setEnd, nodes_length_setNext]; exact hel)
    · rw [if_neg hc]
      exact hstep2

theorem anchorStep_upper (t2 : SkipList) (elemIdx : Nat) (eKey : ℚ)
    (nf nl nm : Bool)
    (hcases : (nf = true ∧ nm = false) ∨ (nf = false ∧ nm = false ∧ nl = true) ∨
      (nf = false ∧ nl = false ∧ nm = true))
    (helemKey : t2.keyAt elemIdx = eKey) (hel2 : elemIdx < t2.nodes.length)
    (hE2 : ∀ lvl j, t2.endAt lvl = some j → j ≠ elemIdx)
    (hBelow : nl = true → ∀ j, j < t2.nodes.length → j ≠ elemIdx →
      t2.keyAt j < eKey)
    (n : Nat) (hn : 1 ≤ n) (hn24 : n ≤ 24) (t' : SkipList)
    (h : PreAnchor t2 elemIdx eKey (n + 1) t') :
    PreAnchor t2 elemIdx eKey n (anchorStep elemIdx eKey nf nl nm n t') := by
  rw [anchorStep_eq]
  rcases hcases with ⟨hnf, hnm⟩ | ⟨hnf, hnm, hnl⟩ | ⟨hnf, hnl, hnm⟩
  · subst hnf hnm
    cases nl with
    | false =>
      simp only [Bool.or_false, if_pos rfl, if_neg (show ¬ false = true by decide)]
      exact anchorP1_pre t2 elemIdx eKey n t' helemKey hel2 hn hn24 h
    | true =>
      simp only [Bool.or_false, if_pos rfl]
      exact anchorP2_pre_nfTrue t2 elemIdx eKey n _ hel2 hn hn24
        (anchorP1_pre t2 elemIdx eKey n t' helemKey hel2 hn hn24 h)
  · subst hnf hnm hnl
    simp only [Bool.or_false, if_neg (show ¬ false = true by decide), if_pos rfl]
    exact anchorP2_pre_nfFalse t2 elemIdx eKey n t' helemKey hel2 hE2
      (hBelow rfl) hn hn24 h
  · subst hnf hnl hnm
    simp only [Bool.or_true, if_pos rfl, if_neg (show ¬ false = true by decide)]
    exact anchorP1_pre t2 elemIdx eKey n t' helemKey hel2 hn hn24 h

theorem elementCount_setNext (t : SkipList) (i lvl : Nat) (v : Option Nat) :
    (t.setNext i lvl v).elementCount = t.elementCount := rfl

theorem elementCount_setPrev (t : SkipList) (i : Nat) (v : Option Nat) :
    (t.setPrev i v).elementCount = t.elementCount := rfl

theorem elementCount_setStart (t : SkipList) (lvl : Nat) (v : Option Nat) :
    (t.setStart lvl v).elementCount = t.elementCount := rfl

theorem elementCount_setEnd (t : SkipList) (lvl : Nat) (v : Option Nat) :
    (t.setEnd lvl v).elementCount = t.elementCount := rfl

theorem maxLevel_setNext (t : SkipList) (i lvl : Nat) (v : Option Nat) :
    (t.setNext i lvl v).maxLevel = t.maxLevel := rfl

theorem maxLevel_setPrev (t : SkipList) (i : Nat) (v : Option Nat) :
    (t.setPrev i v).maxLevel = t.maxLevel := rfl

theorem maxLevel_setStart (t : SkipList) (lvl : Nat) (v : Option Nat) :
    (t.setStart lvl v).maxLevel = t.maxLevel := rfl

theorem maxLevel_setEnd (t : SkipList) (lvl : Nat) (v : Option Nat) :
    (t.setEnd lvl v).maxLevel = t.maxLevel := rfl

theorem startLevels_setNext (t : SkipList) (i lvl : Nat) (v : Option Nat) :
    (t.setNext i lvl v).startLevels = t.startLevels := rfl

theorem startLevels_setPrev (t : SkipList) (i : Nat) (v : Option Nat) :
    (t.setPrev i v).startLevels = t.startLevels := rfl

theorem startLevels_setEnd (t : SkipList) (lvl : Nat) (v : Option Nat) :
    (t.setEnd lvl v).startLevels = t.startLevels := rfl

theorem endLevels_setNext (t : SkipList) (i lvl : Nat) (v : Option Nat) :
    (t.setNext i lvl v).endLevels = t.endLevels := rfl

theorem endLevels_setPrev (t : SkipList) (i : Nat) (v : Option Nat) :
    (t.setPrev i v).endLevels = t.endLevels := rfl

theorem endLevels_setStart (t : SkipList) (lvl : Nat) (v : Option Nat) :
    (t.setStart lvl v).endLevels = t.endLevels := rfl

theorem nodes_setStart (t : SkipList) (lvl : Nat) (v : Option Nat) :
    (t.setStart lvl v).nodes = t.nodes := rfl

theorem nodes_setEnd (t : SkipList) (lvl : Nat) (v : Option Nat) :
    (t.setEnd lvl v).nodes = t.nodes := rfl

theorem getD_replicate {α : Type} (n i : Nat) (d : α) :
    (List.replicate n d).getD i d = d := by
  induction n generalizing i with
  | zero => rfl
  | succ n ihn =>
    cases i with
    | zero => rfl
    | succ i => exact ihn i

theorem getD_concat_ne {α : Type} (l : List α) (x d : α) (i : Nat)
    (h : i ≠ l.length) : (l ++ [x]).getD i d = l.getD i d := by
  rcases Nat.lt_or_ge i l.length with hlt | hge
  · exact getD_concat_lt l x d i hlt
  · have h1 : l.length < i := by omega
    rw [List.getD_eq_getElem?_getD, List.getD_eq_getElem?_getD,
      List.getElem?_append_right (by omega)]
    rw [List.getElem?_eq_none (by simp; omega), List.getElem?_eq_none (by omega)]

/-- Appending the fresh node and bumping the count, as `Insert` does. -/
def pushElem (t : SkipList) (elem : Node) : SkipList :=
  { t with nodes := t.nodes ++ [elem], elementCount := t.elementCount + 1 }

theorem nodes_length_push (t : SkipList) (elem : Node) :
    (pushElem t elem).nodes.length = t.nodes.length + 1 := by
  rw [pushElem]
  simp

theorem nget_push_lt (t : SkipList) (elem : Node) (i : Nat)
    (h : i < t.nodes.length) : (pushElem t elem).nget i = t.nget i :=
  getD_concat_lt t.nodes elem dummyNode i h

theorem nget_push_ne (t : SkipList) (elem : Node) (i : Nat)
    (h : i ≠ t.nodes.length) : (pushElem t elem).nget i = t.nget i :=
  getD_concat_ne t.nodes elem dummyNode i h

theorem nget_push_self (t : SkipList) (elem : Node) :
    (pushElem t elem).nget t.nodes.length = elem :=
  getD_concat_len t.nodes elem dummyNode

theorem keyAt_push_ne (t : SkipList) (elem : Node) (i : Nat)
    (h : i ≠ t.nodes.length) : (pushElem t elem).keyAt i = t.keyAt i := by
  rw [SkipList.keyAt, SkipList.keyAt, nget_push_ne t elem i h]

theorem keyAt_push_self (t : SkipList) (elem : Node) :
    (pushElem t elem).keyAt t.nodes.length = elem.key := by
  rw [SkipList.keyAt, nget_push_self]

theorem nextAt_push_ne (t : SkipList) (elem : Node) (i : Nat)
    (h : i ≠ t.nodes.length) (lvl : Nat) :
    (pushElem t elem).nextAt i lvl = t.nextAt i lvl := by
  rw [SkipList.nextAt, SkipList.nextAt, nget_push_ne t elem i h]

theorem nextAt_push_self (t : SkipList) (elem : Node) (lvl : Nat) :
    (pushElem t elem).nextAt t.nodes.length lvl = elem.next.getD lvl none := by
  rw [SkipList.nextAt, nget_push_self]

theorem prevAt_push_ne (t : SkipList) (elem : Node) (i : Nat)
    (h : i ≠ t.nodes.length) : (pushElem t elem).prevAt i = t.prevAt i := by
  rw [SkipList.prevAt, SkipList.prevAt, nget_push_ne t elem i h]

theorem prevAt_push_self (t : SkipList) (elem : Node) :
    (pushElem t elem).prevAt t.nodes.length = elem.prev := by
  rw [SkipList.prevAt, nget_push_self]

theorem startAt_push (t : SkipList) (elem : Node) (lvl : Nat) :
    (pushElem t elem).startAt lvl = t.startAt lvl := rfl

theorem endAt_push (t : SkipList) (elem : Node) (lvl : Nat) :
    (pushElem t elem).endAt lvl = t.endAt lvl := rfl

theorem PreAnchor_init (t2 : SkipList) (elemIdx : Nat) (eKey : ℚ) (n : Nat)
    (hedges : ∀ i lvl j, i < t2.nodes.length → t2.nextAt i lvl = some j →
      t2.keyAt i < t2.keyAt j ∧ j < t2.nodes.length)
    (hstartsV : ∀ lvl j, t2.startAt lvl = some j → j < t2.nodes.length)
    (hendsV : ∀ lvl j, t2.endAt lvl = some j → j < t2.nodes.length)
    (hlenS : t2.startLevels.length = 25) (hlenE : t2.endLevels.length = 25)
    (hlenN : ∀ m ∈ t2.nodes, m.next.length = 25) :
    PreAnchor t2 elemIdx eKey n t2 where
  frame := AnchorFrame_refl t2
  range _ _ := ⟨rfl, rfl⟩
  edges := hedges
  startsV := hstartsV
  endsV := hendsV
  lenS := hlenS
  lenE := hlenE
  lenN := hlenN

theorem insert_empty_inv (t2 : SkipList) (elemIdx : Nat) (eKey : ℚ) (level : Nat)
    (hlev : level ≤ 24) (hel0 : elemIdx = 0) (hlen : t2.nodes.length = 1)
    (hkey : t2.keyAt elemIdx = eKey)
    (hS : ∀ lvl, t2.startAt lvl = none)
    (hEnd : ∀ lvl, t2.endAt lvl = none)
    (hnext : ∀ lvl, t2.nextAt elemIdx lvl = none)
    (hprev : t2.prevAt elemIdx = none)
    (hcount : t2.elementCount = 1)
    (hmaxLe : t2.maxLevel ≤ 24) (hmaxNN : 0 ≤ t2.maxLevel)
    (hlenS : t2.startLevels.length = 25) (hlenE : t2.endLevels.length = 25)
    (hlenN : ∀ m ∈ t2.nodes, m.next.length = 25) :
    Inv (anchorLoop elemIdx eKey true true false (level + 1) t2) [elemIdx] := by
  subst hel0
  have hedges : ∀ i lvl j, i < t2.nodes.length → t2.nextAt i lvl = some j →
      t2.keyAt i < t2.keyAt j ∧ j < t2.nodes.length := by
    intro i lvl j hi hn
    have hi0 : i = 0 := by omega
    subst hi0
    rw [hnext lvl] at hn
    exact Option.noConfusion hn
  have hstartsV : ∀ lvl j, t2.startAt lvl = some j → j < t2.nodes.length := by
    intro lvl j hs
    rw [hS lvl] at hs
    exact Option.noConfusion hs
  have hendsV : ∀ lvl j, t2.endAt lvl = some j → j < t2.nodes.length := by
    intro lvl j hs
    rw [hEnd lvl] at hs
    exact Option.noConfusion hs
  have hinit := PreAnchor_init t2 0 eKey (level + 1) hedges hstartsV hendsV hlenS
    hlenE hlenN
  refine anchorLoop_run 0 eKey true true false (by decide)
    (fun n t' => match n with
      | 0 => Inv t' [0]
      | Nat.succ m => PreAnchor t2 0 eKey (m + 1) t') 25 ?_ (level + 1)
    (by omega) t2 hinit
  intro n t' hn hP
  cases n with
  | succ m =>
    exact anchorStep_upper t2 0 eKey true true false (Or.inl ⟨rfl, rfl⟩) hkey
      (by omega)
      (fun lvl j hj => by rw [hEnd lvl] at hj; exact Option.noConfusion hj)
      (fun _ j hjl hjne => by omega)
      (m + 1) (by omega) (by omega) t' hP
  | zero =>
    have hP : PreAnchor t2 0 eKey 1 t' := hP
    have hel' : (0 : Nat) < t'.nodes.length := by rw [hP.frame.len, hlen]; omega
    have h25' : (0 : Nat) < (t'.nget 0).next.length := by
      rw [hP.lenN _ (nget_mem t' 0 hel')]
      omega
    have hS0' : t'.startAt 0 = none := by rw [hP.frame.start0]; exact hS 0
    have hkey' : t'.keyAt 0 = eKey := by rw [hP.frame.keys]; exact hkey
    have hXlen : (((t'.setNext 0 0 none).setStart 0 (some 0)).setEnd 0
        (some 0)).nodes.length = 1 := by
      rw [nodes_setEnd, nodes_setStart, nodes_length_setNext, hP.frame.len, hlen]
    have hSXs : (((t'.setNext 0 0 none).setStart 0 (some 0)).setEnd 0
        (some 0)).startAt 0 = some 0 := by
      rw [startAt_setEnd]
      exact startAt_setStart_self _ 0 (some 0)
        (by rw [startLevels_setNext, hP.lenS]; omega)
    have hkX : (((t'.setNext 0 0 none).setStart 0 (some 0)).setEnd 0
        (some 0)).keyAt 0 = eKey := by
      rw [keyAt_setEnd, keyAt_setStart, keyAt_setNext, hkey']
    have hnX : (((t'.setNext 0 0 none).setStart 0 (some 0)).setEnd 0
        (some 0)).nextAt 0 0 = none := by
      rw [nextAt_setEnd, nextAt_setStart, nextAt_setNext_self t' 0 0 none hel' h25']
    have hstepEq : anchorStep 0 eKey true true false 0 t' =
        ((t'.setNext 0 0 none).setStart 0 (some 0)).setEnd 0 (some 0) := by
      rw [anchorStep_eq]
      simp only [Bool.or_false, eq_self_iff_true, if_true]
      have h1 : anchorP1 0 eKey 0 t' =
          ((t'.setNext 0 0 none).setStart 0 (some 0)).setEnd 0 (some 0) := by
        rw [anchorP1]
        have hnx : ((t'.setNext 0 0 none).setStart 0 (some 0)).nextAt 0 0 = none := by
          rw [nextAt_setStart, nextAt_setNext_self t' 0 0 none hel' h25']
        simp only [hS0', eq_self_iff_true, if_true, if_bool_true]
        rw [if_pos hnx]
      rw [h1]
      rw [anchorP2]
      have hq : qLt eKey eKey = false := (qLt_eq_false_iff _ _).mpr (lt_irrefl _)
      simp only [Bool.not_true, if_bool_false, if_false, hSXs, hkX, hq]
    have hlen' : t'.nodes.length = 1 := by rw [hP.frame.len, hlen]
    show Inv (anchorStep 0 eKey true true false 0 t') [0]
    rw [hstepEq]
    refine ⟨⟨hSXs, hnX⟩, ?_, ?_, ?_, ?_, ?_, ?_, ?_, ?_, ?_, ?_, ?_, ?_,
      ?_, ?_⟩
    · exact ⟨by rw [prevAt_setEnd, prevAt_setStart, prevAt_setNext,
        hP.frame.prevs, hprev], trivial⟩
    · rw [endAt_setEnd_self _ 0 (some 0)
        (by rw [endLevels_setStart, endLevels_setNext, hP.lenE]; omega)]
      rfl
    · exact List.chain'_singleton _
    · intro i
      simp only [List.mem_singleton, hXlen]
      omega
    · rw [elementCount_setEnd, elementCount_setStart, elementCount_setNext,
        hP.frame.count, hcount, hXlen]
      simp
    · have hE' := edges_setNext t' 0 0 none hP.edges hel' hP.lenN (by omega)
        (fun j' hj' => Option.noConfusion hj')
      intro i lvl j hi hn
      rw [nodes_setEnd, nodes_setStart] at hi
      rw [nextAt_setEnd, nextAt_setStart] at hn
      have hres := hE' i lvl j hi hn
      constructor
      · simp only [keyAt_setEnd, keyAt_setStart]
        simp only [keyAt_setNext] at hres ⊢
        exact hres.1
      · simp only [nodes_setEnd, nodes_setStart]
        exact hres.2
    · intro lvl j hs
      rw [hXlen]
      rw [startAt_setEnd] at hs
      by_cases h0 : lvl = 0
      · subst h0
        rw [startAt_setStart_self _ 0 (some 0)
          (by rw [startLevels_setNext, hP.lenS]; omega)] at hs
        injection hs with h2
        omega
      · rw [startAt_setStart_ne _ 0 (some 0) lvl (fun hEq => h0 hEq.symm),
          startAt_setNext] at hs
        have := hP.startsV lvl j hs
        omega
    · intro lvl j hs
      rw [hXlen]
      by_cases h0 : lvl = 0
      · subst h0
        rw [endAt_setEnd_self _ 0 (some 0)
          (by rw [endLevels_setStart, endLevels_setNext, hP.lenE]; omega)] at hs
        injection hs with h2
        omega
      · rw [endAt_setEnd_ne _ 0 (some 0) lvl (fun hEq => h0 hEq.symm),
          endAt_setStart, endAt_setNext] at hs
        have := hP.endsV lvl j hs
        omega
    · intro i j hi hj hij
      rw [hXlen] at hi hj
      omega
    · rw [maxLevel_setEnd, maxLevel_setStart, maxLevel_setNext, hP.frame.maxL]
      exact hmaxLe
    · rw [maxLevel_setEnd, maxLevel_setStart, maxLevel_setNext, hP.frame.maxL]
      exact hmaxNN
    · rw [startLevels_setEnd, startLevels_length_setStart, startLevels_setNext]
      exact hP.lenS
    · rw [endLevels_length_setEnd, endLevels_setStart, endLevels_setNext]
      exact hP.lenE
    · intro m hm
      rw [nodes_setEnd, nodes_setStart] at hm
      exact lenN_setNext t' 0 0 none hP.lenN m hm

theorem insert_newFirst_inv (t2 : SkipList) (elemIdx : Nat) (eKey : ℚ)
    (level : Nat) (L : List Nat) (s0 : Nat)
    (hlev : level ≤ 24) (hel : elemIdx < t2.nodes.length)
    (hkey : t2.keyAt elemIdx = eKey)
    (hs0 : t2.startAt 0 = some s0) (hlt : eKey < t2.keyAt s0)
    (hchain : chainOK t2 (t2.startAt 0) L)
    (hprevs : prevOK t2 none L)
    (hend0 : t2.endAt 0 = L.getLast?)
    (hasc : keysAsc t2 L)
    (hmem : ∀ i, i ∈ L ↔ (i < t2.nodes.length ∧ i ≠ elemIdx))
    (hprevE : t2.prevAt elemIdx = none)
    (hcount : t2.elementCount = t2.nodes.length)
    (hdistinct : ∀ i j, i < t2.nodes.length → j < t2.nodes.length → i ≠ j →
      t2.keyAt i ≠ t2.keyAt j)
    (hmaxLe : t2.maxLevel ≤ 24) (hmaxNN : 0 ≤ t2.maxLevel)
    (hedges : ∀ i lvl j, i < t2.nodes.length → t2.nextAt i lvl = some j →
      t2.keyAt i < t2.keyAt j ∧ j < t2.nodes.length)
    (hstartsV : ∀ lvl j, t2.startAt lvl = some j → j < t2.nodes.length)
    (hendsV : ∀ lvl j, t2.endAt lvl = some j → j < t2.nodes.length)
    (hE2 : ∀ lvl j, t2.endAt lvl = some j → j ≠ elemIdx)
    (hlenS : t2.startLevels.length = 25) (hlenE : t2.endLevels.length = 25)
    (hlenN : ∀ m ∈ t2.nodes, m.next.length = 25) :
    Inv (anchorLoop elemIdx eKey true false false (level + 1) t2) (elemIdx :: L) := by
  rcases L with _ | ⟨s0', rest⟩
  · rw [hs0] at hchain
    exact absurd hchain (by simp [chainOK])
  · obtain ⟨hh, hchainrest⟩ := hchain
    have hchain : chainOK t2 (t2.startAt 0) (s0' :: rest) := ⟨hh, hchainrest⟩
    rw [hs0] at hh
    injection hh with h2
    subst h2
    have hinit := PreAnchor_init t2 elemIdx eKey (level + 1) hedges hstartsV hendsV
      hlenS hlenE hlenN
    refine anchorLoop_run elemIdx eKey true false false (by decide)
      (fun n t' => match n with
        | 0 => Inv t' (elemIdx :: s0 :: rest)
        | Nat.succ m => PreAnchor t2 elemIdx eKey (m + 1) t') 25 ?_ (level + 1)
      (by omega) t2 hinit
    intro n t' hn hP
    cases n with
    | succ m =>
      exact anchorStep_upper t2 elemIdx eKey true false false (Or.inl ⟨rfl, rfl⟩)
        hkey hel hE2 (fun hcon => Bool.noConfusion hcon)
        (m + 1) (by omega) (by omega) t' hP
    | zero =>
      have hP : PreAnchor t2 elemIdx eKey 1 t' := hP
      have hel' : elemIdx < t'.nodes.length := by rw [hP.frame.len]; exact hel
      have hs0' : t'.startAt 0 = some s0 := by rw [hP.frame.start0]; exact hs0
      have hkey' : t'.keyAt elemIdx = eKey := by rw [hP.frame.keys]; exact hkey
      have hs0len : s0 < t'.nodes.length := hP.startsV 0 s0 hs0'
      have hs0ne : s0 ≠ elemIdx :=
        ((hmem s0).mp (List.mem_cons_self s0 rest)).2
      have hks0' : qLt eKey (t'.keyAt s0) = true := by
        rw [hP.frame.keys]
        exact (qLt_iff _ _).mpr hlt
      have h25' : (0 : Nat) < ((t'.setPrev s0 (some elemIdx)).nget elemIdx).next.length := by
        rw [lenN_setPrev t' s0 (some elemIdx) hP.lenN _
          (nget_mem _ elemIdx (by rw [nodes_length_setPrev]; exact hel'))]
        omega
      have hnx : (((t'.setPrev s0 (some elemIdx)).setNext elemIdx 0
          (some s0)).setStart 0 (some elemIdx)).nextAt elemIdx 0 = some s0 := by
        rw [nextAt_setStart, nextAt_setNext_self _ elemIdx 0 (some s0)
          (by rw [nodes_length_setPrev]; exact hel') h25']
      have hstepEq : anchorStep elemIdx eKey true false false 0 t' =
          ((t'.setPrev s0 (some elemIdx)).setNext elemIdx 0 (some s0)).setStart 0
            (some elemIdx) := by
        rw [anchorStep_eq]
        simp only [Bool.or_false, eq_self_iff_true, if_true,
          if_neg (show ¬ false = true by decide)]
        rw [anchorP1]
        simp only [hs0', hks0', eq_self_iff_true, if_true, if_bool_true,
          startAt_setPrev]
        rw [if_neg (by rw [hnx]; exact fun hcon => Option.noConfusion hcon)]
      show Inv (anchorStep elemIdx eKey true false false 0 t') (elemIdx :: s0 :: rest)
      rw [hstepEq]
      have keyX : ∀ i, (((t'.setPrev s0 (some elemIdx)).setNext elemIdx 0
          (some s0)).setStart 0 (some elemIdx)).keyAt i = t2.keyAt i := by
        intro i
        rw [keyAt_setStart, keyAt_setNext, keyAt_setPrev, hP.frame.keys]
      have lenX : (((t'.setPrev s0 (some elemIdx)).setNext elemIdx 0
          (some s0)).setStart 0 (some elemIdx)).nodes.length = t2.nodes.length := by
        rw [nodes_setStart, nodes_length_setNext, nodes_length_setPrev,
          hP.frame.len]
      have nextX_ne : ∀ i, i ≠ elemIdx → (((t'.setPrev s0 (some elemIdx)).setNext
          elemIdx 0 (some s0)).setStart 0 (some elemIdx)).nextAt i 0 =
          t2.nextAt i 0 := by
        intro i hi
        rw [nextAt_setStart, nextAt_setNext_ne _ elemIdx 0 (some s0) i hi,
          nextAt_setPrev, hP.frame.next0]
      have prevX_ne : ∀ i, i ≠ s0 → (((t'.setPrev s0 (some elemIdx)).setNext
          elemIdx 0 (some s0)).setStart 0 (some elemIdx)).prevAt i =
          t2.prevAt i := by
        intro i hi
        rw [prevAt_setStart, prevAt_setNext, prevAt_setPrev_ne _ s0 _ i hi,
          hP.frame.prevs]
      have prevX_s0 : (((t'.setPrev s0 (some elemIdx)).setNext elemIdx 0
          (some s0)).setStart 0 (some elemIdx)).prevAt s0 = some elemIdx := by
        rw [prevAt_setStart, prevAt_setNext, prevAt_setPrev_self t' s0 _ hs0len]
      have startX0 : (((t'.setPrev s0 (some elemIdx)).setNext elemIdx 0
          (some s0)).setStart 0 (some elemIdx)).startAt 0 = some elemIdx := by
        exact startAt_setStart_self _ 0 (some elemIdx)
          (by rw [startLevels_setNext, startLevels_setPrev, hP.lenS]; omega)
      have endX : ∀ lvl, (((t'.setPrev s0 (some elemIdx)).setNext elemIdx 0
          (some s0)).setStart 0 (some elemIdx)).endAt lvl = t'.endAt lvl := by
        intro lvl
        rw [endAt_setStart, endAt_setNext, endAt_setPrev]
      have hnodup : (s0 :: rest).Nodup := keysAsc_nodup t2 _ hasc
      refine ⟨⟨startX0, ?_⟩, ⟨?_, prevX_s0, ?_⟩, ?_, ?_, ?_, ?_, ?_, ?_, ?_, ?_,
        ?_, ?_, ?_, ?_, ?_⟩
      · rw [hnx]
        refine chainOK_congr t2 _ (s0 :: rest) (some s0) ?_ ?_
        · rw [hs0] at hchain
          exact hchain
        · intro i hi
          exact nextX_ne i ((hmem i).mp hi).2
      · rw [prevX_ne elemIdx (fun hEq => hs0ne hEq.symm), hprevE]
      · obtain ⟨_, hprevrest⟩ := hprevs
        refine prevOK_congr t2 _ rest (some s0) hprevrest ?_
        intro i hi
        refine prevX_ne i ?_
        intro hEq
        subst hEq
        exact (List.nodup_cons.mp hnodup).1 hi
      · rw [List.getLast?_cons_cons, endX 0, hP.frame.end0, hend0]
      · refine keysAsc_congr t2 _ (elemIdx :: s0 :: rest)
          (fun i => keyX i) ?_
        exact (List.chain'_cons).mpr ⟨by rw [hkey]; exact hlt, hasc⟩
      · intro i
        rw [lenX]
        constructor
        · intro hi
          rcases List.mem_cons.mp hi with rfl | hi2
          · exact hel
          · exact ((hmem i).mp hi2).1
        · intro hi
          by_cases hie : i = elemIdx
          · rw [hie]
            exact List.mem_cons_self _ _
          · exact List.mem_cons_of_mem _ ((hmem i).mpr ⟨hi, hie⟩)
      · rw [elementCount_setStart, elementCount_setNext, elementCount_setPrev,
          hP.frame.count, hcount, lenX]
      · have hE' := edges_setNext (t'.setPrev s0 (some elemIdx)) elemIdx 0
          (some s0) (edges_setPrev t' s0 (some elemIdx) hP.edges)
          (by rw [nodes_length_setPrev]; exact hel')
          (lenN_setPrev t' s0 (some elemIdx) hP.lenN) (by omega)
          (fun j' hj' => by
            cases hj'
            refine ⟨?_, by rw [nodes_length_setPrev]; exact hs0len⟩
            rw [keyAt_setPrev, keyAt_setPrev, hkey', hP.frame.keys]
            exact hlt)
        intro i lvl j hi hn
        rw [nodes_setStart] at hi
        rw [nextAt_setStart] at hn
        have hres := hE' i lvl j hi hn
        constructor
        · simp only [keyAt_setStart]
          exact hres.1
        · rw [nodes_setStart]
          exact hres.2
      · intro lvl j hs
        by_cases h0 : lvl = 0
        · subst h0
          rw [startX0] at hs
          injection hs with h2
          rw [← h2, lenX]
          exact hel
        · rw [startAt_setStart_ne _ 0 (some elemIdx) lvl
            (fun hEq => h0 hEq.symm), startAt_setNext, startAt_setPrev] at hs
          rw [lenX, ← hP.frame.len]
          exact hP.startsV lvl j hs
      · intro lvl j hs
        rw [endX lvl] at hs
        rw [lenX, ← hP.frame.len]
        exact hP.endsV lvl j hs
      · intro i j hi hj hij
        rw [keyX, keyX]
        rw [lenX] at hi hj
        exact hdistinct i j hi hj hij
      · rw [maxLevel_setStart, maxLevel_setNext, maxLevel_setPrev, hP.frame.maxL]
        exact hmaxLe
      · rw [maxLevel_setStart, maxLevel_setNext, maxLevel_setPrev, hP.frame.maxL]
        exact hmaxNN
      · rw [startLevels_length_setStart, startLevels_setNext, startLevels_setPrev]
        exact hP.lenS
      · rw [endLevels_setStart, endLevels_setNext, endLevels_setPrev]
        exact hP.lenE
      · intro m hm
        rw [nodes_setStart] at hm
        exact lenN_setNext _ elemIdx 0 (some s0)
          (lenN_setPrev t' s0 (some elemIdx) hP.lenN) m hm

theorem insert_newLast_inv (t2 : SkipList) (elemIdx : Nat) (eKey : ℚ)
    (level : Nat) (L : List Nat) (e0 : Nat)
    (hlev : level ≤ 24) (hel : elemIdx < t2.nodes.length)
    (hkey : t2.keyAt elemIdx = eKey)
    (he0 : t2.endAt 0 = some e0)
    (hBelow : ∀ j, j < t2.nodes.length → j ≠ elemIdx → t2.keyAt j < eKey)
    (hchain : chainOK t2 (t2.startAt 0) L)
    (hprevs : prevOK t2 none L)
    (hend0 : t2.endAt 0 = L.getLast?)
    (hasc : keysAsc t2 L)
    (hmem : ∀ i, i ∈ L ↔ (i < t2.nodes.length ∧ i ≠ elemIdx))
    (hnextE : ∀ lvl, t2.nextAt elemIdx lvl = none)
    (hcount : t2.elementCount = t2.nodes.length)
    (hdistinct : ∀ i j, i < t2.nodes.length → j < t2.nodes.length → i ≠ j →
      t2.keyAt i ≠ t2.keyAt j)
    (hmaxLe : t2.maxLevel ≤ 24) (hmaxNN : 0 ≤ t2.maxLevel)
    (hedges : ∀ i lvl j, i < t2.nodes.length → t2.nextAt i lvl = some j →
      t2.keyAt i < t2.keyAt j ∧ j < t2.nodes.length)
    (hstartsV : ∀ lvl j, t2.startAt lvl = some j → j < t2.nodes.length)
    (hendsV : ∀ lvl j, t2.endAt lvl = some j → j < t2.nodes.length)
    (hE2 : ∀ lvl j, t2.endAt lvl = some j → j ≠ elemIdx)
    (hlenS : t2.startLevels.length = 25) (hlenE : t2.endLevels.length = 25)
    (hlenN : ∀ m ∈ t2.nodes, m.next.length = 25) :
    Inv (anchorLoop elemIdx eKey false true false (level + 1) t2)
      (L ++ [elemIdx]) := by
  have hlast : L.getLast? = some e0 := by rw [← hend0]; exact he0
  rcases L with _ | ⟨s0, rest⟩
  · simp at hlast
  · obtain ⟨hh, hchainrest⟩ := hchain
    have hs0 : t2.startAt 0 = some s0 := hh
    have hchain : chainOK t2 (t2.startAt 0) (s0 :: rest) := ⟨hh, hchainrest⟩
    have hs0mem : s0 ∈ s0 :: rest := List.mem_cons_self s0 rest
    have hs0len : s0 < t2.nodes.length := ((hmem s0).mp hs0mem).1
    have hs0ne : s0 ≠ elemIdx := ((hmem s0).mp hs0mem).2
    have he0mem : e0 ∈ s0 :: rest := by
      have := List.getLast?_eq_getLast (s0 :: rest) (by simp)
      rw [this] at hlast
      injection hlast with h2
      rw [← h2]
      exact List.getLast_mem _
    have he0len : e0 < t2.nodes.length := ((hmem e0).mp he0mem).1
    have he0ne : e0 ≠ elemIdx := ((hmem e0).mp he0mem).2
    have hinit := PreAnchor_init t2 elemIdx eKey (level + 1) hedges hstartsV
      hendsV hlenS hlenE hlenN
    refine anchorLoop_run elemIdx eKey false true false (by decide)
      (fun n t' => match n with
        | 0 => Inv t' (s0 :: rest ++ [elemIdx])
        | Nat.succ m => PreAnchor t2 elemIdx eKey (m + 1) t') 25 ?_ (level + 1)
      (by omega) t2 hinit
    intro n t' hn hP
    cases n with
    | succ m =>
      exact anchorStep_upper t2 elemIdx eKey false true false
        (Or.inr (Or.inl ⟨rfl, rfl, rfl⟩)) hkey hel hE2 (fun _ => hBelow)
        (m + 1) (by omega) (by omega) t' hP
    | zero =>
      have hP : PreAnchor t2 elemIdx eKey 1 t' := hP
      have hel' : elemIdx < t'.nodes.length := by rw [hP.frame.len]; exact hel
      have he0' : t'.endAt 0 = some e0 := by rw [hP.frame.end0]; exact he0
      have hs0' : t'.startAt 0 = some s0 := by rw [hP.frame.start0]; exact hs0
      have hkey' : t'.keyAt elemIdx = eKey := by rw [hP.frame.keys]; exact hkey
      have he0len' : e0 < t'.nodes.length := by rw [hP.frame.len]; exact he0len
      have h25' : (0 : Nat) < (t'.nget e0).next.length := by
        rw [hP.lenN _ (nget_mem t' e0 he0len')]
        omega
      have hks0 : qLt eKey (t'.keyAt s0) = false := by
        rw [hP.frame.keys]
        exact (qLt_eq_false_iff _ _).mpr (not_lt.mpr (le_of_lt (hBelow s0 hs0len hs0ne)))
      have hstepEq : anchorStep elemIdx eKey false true false 0 t' =
          ((t'.setNext e0 0 (some elemIdx)).setPrev elemIdx (some e0)).setEnd 0
            (some elemIdx) := by
        rw [anchorStep_eq]
        simp only [Bool.or_false, eq_self_iff_true, if_true,
          if_neg (show ¬ false = true by decide)]
        rw [anchorP2]
        simp only [he0', Bool.not_false, if_bool_true, if_true,
          eq_self_iff_true]
        rw [if_neg ?hc]
        case hc =>
          rw [startAt_setEnd, startAt_setPrev, startAt_setNext, hs0']
          simp only [keyAt_setEnd, keyAt_setPrev, keyAt_setNext, hks0]
          exact fun hcon => Bool.noConfusion hcon
      show Inv (anchorStep elemIdx eKey false true false 0 t')
        (s0 :: rest ++ [elemIdx])
      rw [hstepEq]
      have keyX : ∀ i, (((t'.setNext e0 0 (some elemIdx)).setPrev elemIdx
          (some e0)).setEnd 0 (some elemIdx)).keyAt i = t2.keyAt i := by
        intro i
        rw [keyAt_setEnd, keyAt_setPrev, keyAt_setNext, hP.frame.keys]
      have lenX : (((t'.setNext e0 0 (some elemIdx)).setPrev elemIdx
          (some e0)).setEnd 0 (some elemIdx)).nodes.length = t2.nodes.length := by
        rw [nodes_setEnd, nodes_length_setPrev, nodes_length_setNext, hP.frame.len]
      have nextX_ne : ∀ i, i ≠ e0 → (((t'.setNext e0 0 (some elemIdx)).setPrev
          elemIdx (some e0)).setEnd 0 (some elemIdx)).nextAt i 0 =
          t2.nextAt i 0 := by
        intro i hi
        rw [nextAt_setEnd, nextAt_setPrev,
          nextAt_setNext_ne _ e0 0 (some elemIdx) i hi, hP.frame.next0]
      have nextX_e0 : (((t'.setNext e0 0 (some elemIdx)).setPrev elemIdx
          (some e0)).setEnd 0 (some elemIdx)).nextAt e0 0 = some elemIdx := by
        rw [nextAt_setEnd, nextAt_setPrev,
          nextAt_setNext_self t' e0 0 (some elemIdx) he0len' h25']
      have nextX_elem : (((t'.setNext e0 0 (some elemIdx)).setPrev elemIdx
          (some e0)).setEnd 0 (some elemIdx)).nextAt elemIdx 0 = none := by
        rw [nextX_ne elemIdx (fun hEq => he0ne hEq.symm)]
        exact hnextE 0
      have prevX_ne : ∀ i, i ≠ elemIdx → (((t'.setNext e0 0 (some elemIdx)).setPrev
          elemIdx (some e0)).setEnd 0 (some elemIdx)).prevAt i = t2.prevAt i := by
        intro i hi
        rw [prevAt_setEnd, prevAt_setPrev_ne _ elemIdx _ i hi, prevAt_setNext,
          hP.frame.prevs]
      have prevX_elem : (((t'.setNext e0 0 (some elemIdx)).setPrev elemIdx
          (some e0)).setEnd 0 (some elemIdx)).prevAt elemIdx = some e0 := by
        rw [prevAt_setEnd, prevAt_setPrev_self _ elemIdx (some e0)
          (by rw [nodes_length_setNext]; exact hel')]
      have startX : ∀ lvl, (((t'.setNext e0 0 (some elemIdx)).setPrev elemIdx
          (some e0)).setEnd 0 (some elemIdx)).startAt lvl = t'.startAt lvl := by
        intro lvl
        rw [startAt_setEnd, startAt_setPrev, startAt_setNext]
      have endX0 : (((t'.setNext e0 0 (some elemIdx)).setPrev elemIdx
          (some e0)).setEnd 0 (some elemIdx)).endAt 0 = some elemIdx := by
        exact endAt_setEnd_self _ 0 (some elemIdx)
          (by rw [endLevels_setPrev, endLevels_setNext, hP.lenE]; omega)
      have hnodup : (s0 :: rest).Nodup := keysAsc_nodup t2 _ hasc
      refine ⟨?_, ?_, ?_, ?_, ?_, ?_, ?_, ?_, ?_, ?_, ?_, ?_, ?_, ?_, ?_⟩
      · rw [startX 0, hs0', ← hs0]
        exact chainOK_snoc t2 _ elemIdx (s0 :: rest) (t2.startAt 0) e0 hchain
          hlast hnodup (fun i hi hie => nextX_ne i hie) nextX_e0 nextX_elem
      · exact prevOK_snoc t2 _ elemIdx (s0 :: rest) none e0 hprevs hlast
          (fun i hi => prevX_ne i ((hmem i).mp hi).2) prevX_elem
      · rw [endX0, List.getLast?_concat]
      · refine keysAsc_congr t2 _ (s0 :: rest ++ [elemIdx])
          (fun i => keyX i) ?_
        rw [keysAsc]
        rw [List.chain'_append]
        refine ⟨hasc, List.chain'_singleton _, ?_⟩
        intro a ha b hb
        rw [hlast, Option.mem_def] at ha
        injection ha with h2
        rw [List.head?_cons, Option.mem_def] at hb
        injection hb with h3
        subst h2
        subst h3
        rw [hkey]
        exact hBelow e0 he0len he0ne
      · intro i
        rw [lenX]
        constructor
        · intro hi
          rcases List.mem_append.mp hi with hi2 | hi2
          · exact ((hmem i).mp hi2).1
          · simp at hi2
            subst hi2
            exact hel
        · intro hi
          by_cases hie : i = elemIdx
          · subst hie
            exact List.mem_append.mpr (Or.inr (by simp))
          · exact List.mem_append.mpr (Or.inl ((hmem i).mpr ⟨hi, hie⟩))
      · rw [elementCount_setEnd, elementCount_setPrev, elementCount_setNext,
          hP.frame.count, hcount, lenX]
      · have hE' := edges_setPrev (t'.setNext e0 0 (some elemIdx)) elemIdx
          (some e0) (edges_setNext t' e0 0 (some elemIdx) hP.edges he0len'
            hP.lenN (by omega)
            (fun j' hj' => by
              cases hj'
              refine ⟨?_, hel'⟩
              rw [hP.frame.keys, hP.frame.keys, hkey]
              exact hBelow e0 he0len he0ne))
        intro i lvl j hi hn
        rw [nodes_setEnd] at hi
        rw [nextAt_setEnd] at hn
        have hres := hE' i lvl j hi hn
        constructor
        · simp only [keyAt_setEnd]
          exact hres.1
        · rw [nodes_setEnd]
          exact hres.2
      · intro lvl j hs
        rw [startX lvl] at hs
        rw [lenX, ← hP.frame.len]
        exact hP.startsV lvl j hs
      · intro lvl j hs
        by_cases h0 : lvl = 0
        · subst h0
          rw [endX0] at hs
          injection hs with h2
          rw [← h2, lenX]
          exact hel
        · rw [endAt_setEnd_ne _ 0 (some elemIdx) lvl (fun hEq => h0 hEq.symm),
            endAt_setPrev, endAt_setNext] at hs
          rw [lenX, ← hP.frame.len]
          exact hP.endsV lvl j hs
      · intro i j hi hj hij
        rw [keyX, keyX]
        rw [lenX] at hi hj
        exact hdistinct i j hi hj hij
      · rw [maxLevel_setEnd, maxLevel_setPrev, maxLevel_setNext, hP.frame.maxL]
        exact hmaxLe
      · rw [maxLevel_setEnd, maxLevel_setPrev, maxLevel_setNext, hP.frame.maxL]
        exact hmaxNN
      · rw [startLevels_setEnd, startLevels_setPrev, startLevels_setNext]
        exact hP.lenS
      · rw [endLevels_length_setEnd, endLevels_setPrev, endLevels_setNext]
        exact hP.lenE
      · intro m hm
        rw [nodes_setEnd] at hm
        exact lenN_setPrev _ elemIdx (some e0)
          (lenN_setNext t' e0 0 (some elemIdx) hP.lenN) m hm

theorem insert_normally_inv (t2 t3 : SkipList) (elemIdx c nn : Nat) (eKey : ℚ)
    (level : Nat) (L : List Nat) (s0 : Nat)
    (hlev : level ≤ 24) (hel : elemIdx < t2.nodes.length)
    (hkey : t2.keyAt elemIdx = eKey)
    (hs0 : t2.startAt 0 = some s0) (hs0k : t2.keyAt s0 < eKey)
    (hc : c < t2.nodes.length) (hcne : c ≠ elemIdx)
    (hnnlen : nn < t2.nodes.length) (hnne : nn ≠ elemIdx)
    (hcnext : t2.nextAt c 0 = some nn)
    (hck : t2.keyAt c < eKey) (hnk : eKey < t2.keyAt nn)
    (hsplice : SpliceOut t2 elemIdx c nn t3)
    (hchain : chainOK t2 (t2.startAt 0) L)
    (hprevs : prevOK t2 none L)
    (hend0 : t2.endAt 0 = L.getLast?)
    (hasc : keysAsc t2 L)
    (hmem : ∀ i, i ∈ L ↔ (i < t2.nodes.length ∧ i ≠ elemIdx))
    (hcount : t2.elementCount = t2.nodes.length)
    (hdistinct : ∀ i j, i < t2.nodes.length → j < t2.nodes.length → i ≠ j →
      t2.keyAt i ≠ t2.keyAt j)
    (hmaxLe : t2.maxLevel ≤ 24) (hmaxNN : 0 ≤ t2.maxLevel)
    (hstartsV : ∀ lvl j, t2.startAt lvl = some j → j < t2.nodes.length)
    (hendsV : ∀ lvl j, t2.endAt lvl = some j → j < t2.nodes.length)
    (hE2 : ∀ lvl j, t2.endAt lvl = some j → j ≠ elemIdx)
    (hlenS : t2.startLevels.length = 25) (hlenE : t2.endLevels.length = 25) :
    ∃ L', Inv (anchorLoop elemIdx eKey false false true (level + 1) t3) L' ∧
      (∀ i, i ∈ L' ↔ (i = elemIdx ∨ i ∈ L)) := by
  obtain ⟨hsp1, hsp2, hsp3, hsp4, hsp5, hsp6, hsp7, hsp8, hsp9, hsp10, hsp11,
    hsp12, hsp13, hsp14, hsp15⟩ := hsplice
  have hcL : c ∈ L := (hmem c).mpr ⟨hc, hcne⟩
  obtain ⟨P, S', hLeq, hsuffix⟩ := chainOK_decomp t2 L (t2.startAt 0) c hcL hchain
  obtain ⟨_, hsuffix2⟩ := hsuffix
  rw [hcnext] at hsuffix2
  rcases S' with _ | ⟨nn', S⟩
  · exact absurd hsuffix2 (by simp [chainOK])
  · obtain ⟨hnn'eq, _⟩ := hsuffix2
    injection hnn'eq with h2
    subst h2
    have hnd : L.Nodup := keysAsc_nodup t2 L hasc
    rw [hLeq] at hnd
    have hndR : (c :: nn :: S).Nodup := hnd.of_append_right
    have hdisj := List.disjoint_of_nodup_append hnd
    have hcnotin : c ∉ nn :: S := (List.nodup_cons.mp hndR).1
    have hnnnotin : nn ∉ S := (List.nodup_cons.mp (List.nodup_cons.mp hndR).2).1
    have hmemP : ∀ p ∈ P, p ∈ L := by
      intro p hp
      rw [hLeq]
      exact List.mem_append.mpr (Or.inl hp)
    have hmemR : ∀ x ∈ c :: nn :: S, x ∈ L := by
      intro x hx
      rw [hLeq]
      exact List.mem_append.mpr (Or.inr hx)
    have hcapnn : c ≠ nn := by
      intro hEq
      rw [hEq] at hck
      exact absurd (lt_trans hck hnk) (lt_irrefl _)
    -- the final chain
    have hchain3 : chainOK t3 (t2.startAt 0) (P ++ c :: elemIdx :: nn :: S) := by
      refine chainOK_splice t2 t3 elemIdx c nn S hsp3 hsp2 hsp1 ?_ P
        (t2.startAt 0) (by rw [← hLeq]; exact hchain) ?_
      · intro x hx
        refine ⟨?_, ((hmem x).mp (hmemR x (List.mem_cons_of_mem c hx))).2⟩
        intro hEq
        subst hEq
        exact hcnotin hx
      · intro p hp
        refine ⟨?_, ((hmem p).mp (hmemP p hp)).2⟩
        intro hEq
        rw [hEq] at hp
        exact hdisj hp (List.mem_cons_self c _)
    have hprevs3 : prevOK t3 none (P ++ c :: elemIdx :: nn :: S) := by
      refine prevOK_splice t2 t3 elemIdx c nn S hsp6 hsp4 hsp5
        ⟨hcapnn, hcne⟩ ?_ P none (by rw [← hLeq]; exact hprevs) ?_
      · intro x hx
        refine ⟨?_, ((hmem x).mp (hmemR x (List.mem_cons_of_mem c
          (List.mem_cons_of_mem nn hx)))).2⟩
        intro hEq
        subst hEq
        exact hnnnotin hx
      · intro p hp
        refine ⟨?_, ((hmem p).mp (hmemP p hp)).2⟩
        intro hEq
        rw [hEq] at hp
        exact hdisj hp (List.mem_cons_of_mem c (List.mem_cons_self nn _))
    have hasc3 : keysAsc t2 (P ++ c :: elemIdx :: nn :: S) := by
      have hsplit := (List.chain'_split).mp (by rw [← hLeq]; exact hasc)
      refine (List.chain'_split).mpr ⟨hsplit.1, ?_⟩
      have htail := (List.chain'_cons).mp hsplit.2
      refine (List.chain'_cons).mpr ⟨?_, (List.chain'_cons).mpr ⟨?_, htail.2⟩⟩
      · rw [hkey]
        exact hck
      · rw [hkey]
        exact hnk
    refine ⟨P ++ c :: elemIdx :: nn :: S, ?_, ?_⟩
    swap
    · intro i
      rw [hLeq]
      simp only [List.mem_append, List.mem_cons]
      tauto
    have hinit : PreAnchor t3 elemIdx eKey (level + 1) t3 := by
      refine PreAnchor_init t3 elemIdx eKey (level + 1) hsp12 ?_ ?_ ?_ ?_ hsp13
      · intro lvl j hs
        rw [startAt_congr_lists t2 t3 hsp7 lvl] at hs
        rw [hsp10]
        exact hstartsV lvl j hs
      · intro lvl j hs
        rw [endAt_congr_lists t2 t3 hsp8 lvl] at hs
        rw [hsp10]
        exact hendsV lvl j hs
      · rw [hsp7]
        exact hlenS
      · rw [hsp8]
        exact hlenE
    refine anchorLoop_run elemIdx eKey false false true (by decide)
      (fun n t' => match n with
        | 0 => Inv t' (P ++ c :: elemIdx :: nn :: S)
        | Nat.succ m => PreAnchor t3 elemIdx eKey (m + 1) t') 25 ?_ (level + 1)
      (by omega) t3 hinit
    intro n t' hn hP
    cases n with
    | succ m =>
      refine anchorStep_upper t3 elemIdx eKey false false true
        (Or.inr (Or.inr ⟨rfl, rfl, rfl⟩)) ?_ ?_ ?_
        (fun hcon => Bool.noConfusion hcon) (m + 1) (by omega) (by omega) t' hP
      · rw [hsp11]
        exact hkey
      · rw [hsp10]
        exact hel
      · intro lvl j hj
        rw [endAt_congr_lists t2 t3 hsp8 lvl] at hj
        exact hE2 lvl j hj
    | zero =>
      have hP : PreAnchor t3 elemIdx eKey 1 t' := hP
      have hs0' : t'.startAt 0 = some s0 := by
        rw [hP.frame.start0, startAt_congr_lists t2 t3 hsp7 0]
        exact hs0
      have hks0 : qLt eKey (t'.keyAt s0) = false := by
        rw [hP.frame.keys, hsp11]
        exact (qLt_eq_false_iff _ _).mpr (not_lt.mpr (le_of_lt hs0k))
      have hnxE : t'.nextAt elemIdx 0 = some nn := by
        rw [hP.frame.next0]
        exact hsp1
      have hstepEq : anchorStep elemIdx eKey false false true 0 t' = t' := by
        rw [anchorStep_eq]
        simp only [Bool.or_true, eq_self_iff_true, if_true,
          if_neg (show ¬ false = true by decide)]
        rw [anchorP1]
        simp only [hs0', hks0, if_bool_false, if_false]
        rw [if_neg (by rw [hnxE]; exact fun hcon => Option.noConfusion hcon)]
      show Inv (anchorStep elemIdx eKey false false true 0 t')
        (P ++ c :: elemIdx :: nn :: S)
      rw [hstepEq]
      have keyX : ∀ i, t'.keyAt i = t2.keyAt i := by
        intro i
        rw [hP.frame.keys, hsp11]
      have lenX : t'.nodes.length = t2.nodes.length := by
        rw [hP.frame.len, hsp10]
      refine ⟨?_, ?_, ?_, ?_, ?_, ?_, hP.edges, hP.startsV, hP.endsV, ?_, ?_,
        ?_, hP.lenS, hP.lenE, hP.lenN⟩
      · rw [hP.frame.start0, startAt_congr_lists t2 t3 hsp7 0]
        refine chainOK_congr t3 t' _ _ hchain3 ?_
        intro i _
        exact hP.frame.next0 i
      · refine prevOK_congr t3 t' _ _ hprevs3 ?_
        intro i _
        exact hP.frame.prevs i
      · rw [hP.frame.end0, endAt_congr_lists t2 t3 hsp8 0, hend0, hLeq]
        rw [List.getLast?_append_cons, List.getLast?_append_cons]
        rw [List.getLast?_cons_cons, List.getLast?_cons_cons,
          List.getLast?_cons_cons]
      · exact keysAsc_congr t2 t' _ keyX hasc3
      · intro i
        rw [lenX]
        constructor
        · intro hi
          rcases List.mem_append.mp hi with hi2 | hi2
          · exact ((hmem i).mp (hmemP i hi2)).1
          · rcases List.mem_cons.mp hi2 with rfl | hi3
            · exact hc
            · rcases List.mem_cons.mp hi3 with rfl | hi4
              · exact hel
              · exact ((hmem i).mp (hmemR i (List.mem_cons_of_mem c hi4))).1
        · intro hi
          by_cases hie : i = elemIdx
          · subst hie
            exact List.mem_append.mpr (Or.inr (List.mem_cons_of_mem c
              (List.mem_cons_self i _)))
          · have hiL : i ∈ L := (hmem i).mpr ⟨hi, hie⟩
            rw [hLeq] at hiL
            rcases List.mem_append.mp hiL with hi2 | hi2
            · exact List.mem_append.mpr (Or.inl hi2)
            · rcases List.mem_cons.mp hi2 with rfl | hi3
              · exact List.mem_append.mpr (Or.inr (List.mem_cons_self i _))
              · exact List.mem_append.mpr (Or.inr (List.mem_cons_of_mem c
                  (List.mem_cons_of_mem elemIdx hi3)))
      · rw [hP.frame.count, hsp9, hcount, lenX]
      · intro i j hi hj hij
        rw [keyX, keyX]
        rw [lenX] at hi hj
        exact hdistinct i j hi hj hij
      · rw [hP.frame.maxL, hsp14]
        exact hmaxLe
      · rw [hP.frame.maxL, hsp14]
        exact hmaxNN

theorem nextAt_oob (t : SkipList) (i lvl : Nat) (h : t.nodes.length ≤ i) :
    t.nextAt i lvl = none := by
  rw [SkipList.nextAt, SkipList.nget,
    List.getD_eq_getElem?_getD t.nodes i dummyNode, List.getElem?_eq_none h]
  exact getD_replicate MAX_LEVEL lvl none

theorem anchorP1_keyAt (elemIdx : Nat) (eKey : ℚ) (i : Nat) (t : SkipList)
    (j : Nat) : (anchorP1 elemIdx eKey i t).keyAt j = t.keyAt j := by
  simp only [anchorP1]
  repeat' split
  all_goals simp only [keyAt_setEnd, keyAt_setStart, keyAt_setNext, keyAt_setPrev]

theorem anchorP1_len (elemIdx : Nat) (eKey : ℚ) (i : Nat) (t : SkipList) :
    (anchorP1 elemIdx eKey i t).nodes.length = t.nodes.length := by
  simp only [anchorP1]
  repeat' split
  all_goals simp only [nodes_setEnd, nodes_setStart, nodes_length_setNext,
    nodes_length_setPrev]

theorem anchorP2_keyAt (elemIdx : Nat) (eKey : ℚ) (nf : Bool) (i : Nat)
    (t : SkipList) (j : Nat) :
    (anchorP2 elemIdx eKey nf i t).keyAt j = t.keyAt j := by
  simp only [anchorP2]
  repeat' split
  all_goals simp only [keyAt_setEnd, keyAt_setStart, keyAt_setNext, keyAt_setPrev]

theorem anchorP2_len (elemIdx : Nat) (eKey : ℚ) (nf : Bool) (i : Nat)
    (t : SkipList) :
    (anchorP2 elemIdx eKey nf i t).nodes.length = t.nodes.length := by
  simp only [anchorP2]
  repeat' split
  all_goals simp only [nodes_setEnd, nodes_setStart, nodes_length_setNext,
    nodes_length_setPrev]

theorem anchorStep_keyAt (elemIdx : Nat) (eKey : ℚ) (nf nl nm : Bool) (i : Nat)
    (t : SkipList) (j : Nat) :
    (anchorStep elemIdx eKey nf nl nm i t).keyAt j = t.keyAt j := by
  simp only [anchorStep_eq]
  by_cases h1 : (nf || nm) = true
  · rw [if_pos h1]
    by_cases h2 : nl = true
    · rw [if_pos h2, anchorP2_keyAt, anchorP1_keyAt]
    · rw [if_neg h2, anchorP1_keyAt]
  · rw [if_neg h1]
    by_cases h2 : nl = true
    · rw [if_pos h2, anchorP2_keyAt]
    · rw [if_neg h2]

theorem anchorStep_len (elemIdx : Nat) (eKey : ℚ) (nf nl nm : Bool) (i : Nat)
    (t : SkipList) :
    (anchorStep elemIdx eKey nf nl nm i t).nodes.length = t.nodes.length := by
  simp only [anchorStep_eq]
  by_cases h1 : (nf || nm) = true
  · rw [if_pos h1]
    by_cases h2 : nl = true
    · rw [if_pos h2, anchorP2_len, anchorP1_len]
    · rw [if_neg h2, anchorP1_len]
  · rw [if_neg h1]
    by_cases h2 : nl = true
    · rw [if_pos h2, anchorP2_len]
    · rw [if_neg h2]

theorem anchorLoop_keyAt (elemIdx : Nat) (eKey : ℚ) (nf nl nm : Bool)
    (hc : (nf || nm || nl) = true) :
    ∀ (n : Nat) (t : SkipList) (j : Nat),
      (anchorLoop elemIdx eKey nf nl nm n t).keyAt j = t.keyAt j := by
  intro n
  induction n with
  | zero => intro t j; rfl
  | succ n ihn =>
    intro t j
    rw [anchorLoop_succ_eq elemIdx eKey nf nl nm n t hc, ihn, anchorStep_keyAt]

theorem anchorLoop_len (elemIdx : Nat) (eKey : ℚ) (nf nl nm : Bool)
    (hc : (nf || nm || nl) = true) :
    ∀ (n : Nat) (t : SkipList),
      (anchorLoop elemIdx eKey nf nl nm n t).nodes.length = t.nodes.length := by
  intro n
  induction n with
  | zero => intro t; rfl
  | succ n ihn =>
    intro t
    rw [anchorLoop_succ_eq elemIdx eKey nf nl nm n t hc, ihn, anchorStep_len]

theorem findEntryIndexGo_le (t : SkipList) (key : ℚ) (level : Nat) :
    ∀ n, findEntryIndexGo t key level n ≤ n - 1 := by
  intro n
  induction n with
  | zero => exact Nat.le_refl 0
  | succ n ihn =>
    rw [findEntryIndexGo]
    split
    · omega
    · omega

theorem findEntryIndex_le (t : SkipList) (key : ℚ) (level : Nat)
    (h : t.maxLevel ≤ 24) : t.findEntryIndex key level ≤ 24 := by
  rw [SkipList.findEntryIndex]
  split
  · omega
  · have := findEntryIndexGo_le t key level (t.maxLevel.toNat + 1)
    omega

theorem keysAsc_head_last (t : SkipList) (L : List Nat) (s0 e0 : Nat)
    (hasc : keysAsc t L) (hhead : L.head? = some s0)
    (hlast : L.getLast? = some e0) : t.keyAt s0 ≤ t.keyAt e0 := by
  rcases L with _ | ⟨a, rest⟩
  · exact absurd hhead (by simp)
  · rw [List.head?_cons] at hhead
    injection hhead with h1
    rw [← h1]
    haveI : IsTrans Nat (fun i j => t.keyAt i < t.keyAt j) := ⟨fun x y z => lt_trans⟩
    have hp := (List.chain'_iff_pairwise).mp hasc
    have he0mem : e0 ∈ a :: rest := by
      have := List.getLast?_eq_getLast (a :: rest) (by simp)
      rw [this] at hlast
      injection hlast with h2
      rw [← h2]
      exact List.getLast_mem _
    rcases List.mem_cons.mp he0mem with hEq | hmem2
    · rw [hEq]
    · exact le_of_lt ((List.pairwise_cons.mp hp).1 e0 hmem2)

theorem elementCount_push (t : SkipList) (elem : Node) :
    (pushElem t elem).elementCount = t.elementCount + 1 := rfl

theorem maxLevel_push (t : SkipList) (elem : Node) :
    (pushElem t elem).maxLevel = t.maxLevel := rfl

theorem startLevels_push (t : SkipList) (elem : Node) :
    (pushElem t elem).startLevels = t.startLevels := rfl

theorem endLevels_push (t : SkipList) (elem : Node) :
    (pushElem t elem).endLevels = t.endLevels := rfl

theorem keysAsc_congr_mem (t t' : SkipList) (L : List Nat)
    (hk : ∀ i ∈ L, t'.keyAt i = t.keyAt i) (h : keysAsc t L) : keysAsc t' L := by
  haveI : IsTrans Nat (fun i j => t.keyAt i < t.keyAt j) := ⟨fun x y z => lt_trans⟩
  haveI : IsTrans Nat (fun i j => t'.keyAt i < t'.keyAt j) := ⟨fun x y z => lt_trans⟩
  have hp := (List.chain'_iff_pairwise).mp h
  refine (List.chain'_iff_pairwise).mpr ?_
  refine List.Pairwise.imp_of_mem ?_ hp
  intro a b ha hb hr
  rw [hk a ha, hk b hb]
  exact hr

theorem keysAsc_le_last (t : SkipList) :
    ∀ (L : List Nat) (e0 : Nat), keysAsc t L → L.getLast? = some e0 →
      ∀ j ∈ L, t.keyAt j ≤ t.keyAt e0 := by
  intro L
  induction L with
  | nil => intro e0 _ hlast; simp at hlast
  | cons a rest ihL =>
    intro e0 hasc hlast j hj
    cases rest with
    | nil =>
      simp at hlast
      subst hlast
      simp at hj
      subst hj
      exact le_refl _
    | cons b rest2 =>
      rw [List.getLast?_cons_cons] at hlast
      have htail := (List.chain'_cons.mp hasc).2
      rcases List.mem_cons.mp hj with rfl | hj2
      · have he0mem : e0 ∈ b :: rest2 := by
          have := List.getLast?_eq_getLast (b :: rest2) (by simp)
          rw [this] at hlast
          injection hlast with h2
          rw [← h2]
          exact List.getLast_mem _
        haveI : IsTrans Nat (fun i j => t.keyAt i < t.keyAt j) :=
          ⟨fun x y z => lt_trans⟩
        have hp := (List.chain'_iff_pairwise).mp hasc
        exact le_of_lt ((List.pairwise_cons.mp hp).1 e0 he0mem)
      · exact ihL e0 htail hlast j hj2

/-- The body of `Insert` after the level clamp. -/
def insertMain (t1 : SkipList) (e : ListElem) (level : Nat) : Res SkipList :=
  let elemIdx := t1.nodes.length
  let elem : Node :=
    { next := List.replicate MAX_LEVEL none, level := level,
      key := e.extractValue, value := e, prev := none }
  let t2 := pushElem t1 elem
  match t2.startAt 0 with
  | none => .ok (anchorLoop elemIdx e.extractValue true true false (level + 1) t2)
  | some s0 =>
    match t2.endAt 0 with
    | none => .nilDeref
    | some e0 =>
      let newFirst : Bool := qLt e.extractValue (t2.keyAt s0)
      let newLast : Bool := qLt (t2.keyAt e0) e.extractValue
      if !newFirst && !newLast then
        let index := t2.findEntryIndex e.extractValue level
        match insertWalkGo e.extractValue elemIdx level (bigFuel t2) index none t2 with
        | .ok t3 =>
          .ok (anchorLoop elemIdx e.extractValue false false true (level + 1) t3)
        | .nilDeref => .nilDeref
        | .outOfFuel => .outOfFuel
      else .ok (anchorLoop elemIdx e.extractValue newFirst newLast false (level + 1) t2)

theorem Insert_eq_main (t : SkipList) (e : ListElem) (genLevel : Nat) :
    t.Insert e genLevel =
      (if (genLevel : Int) > t.maxLevel + 1 then
        insertMain { t with maxLevel := t.maxLevel + 1 } e (t.maxLevel + 1).toNat
      else insertMain t e genLevel) := by
  by_cases hcl : (genLevel : Int) > t.maxLevel + 1
  · rw [if_pos hcl]
    rw [SkipList.Insert, insertMain]
    rw [if_pos hcl]
    rfl
  · rw [if_neg hcl]
    rw [SkipList.Insert, insertMain]
    rw [if_neg hcl]
    rfl

theorem insertMain_inv (t1 : SkipList) (L : List Nat) (e : ListElem) (level : Nat)
    (hchain : chainOK t1 (t1.startAt 0) L)
    (hprevs : prevOK t1 none L)
    (hend0 : t1.endAt 0 = L.getLast?)
    (hasc : keysAsc t1 L)
    (hmem : ∀ i, i ∈ L ↔ i < t1.nodes.length)
    (hcount : t1.elementCount = t1.nodes.length)
    (hedges : ∀ i lvl j, i < t1.nodes.length → t1.nextAt i lvl = some j →
      t1.keyAt i < t1.keyAt j ∧ j < t1.nodes.length)
    (hstartsV : ∀ lvl j, t1.startAt lvl = some j → j < t1.nodes.length)
    (hendsV : ∀ lvl j, t1.endAt lvl = some j → j < t1.nodes.length)
    (hdistinct : ∀ i j, i < t1.nodes.length → j < t1.nodes.length → i ≠ j →
      t1.keyAt i ≠ t1.keyAt j)
    (hmaxLe : t1.maxLevel ≤ 24) (hmaxNN : 0 ≤ t1.maxLevel)
    (hlenS : t1.startLevels.length = 25) (hlenE : t1.endLevels.length = 25)
    (hlenN : ∀ m ∈ t1.nodes, m.next.length = 25)
    (hfresh : ∀ i, i < t1.nodes.length → t1.keyAt i ≠ e.extractValue)
    (hlev : level ≤ 24) :
    ∃ t' L', insertMain t1 e level = .ok t' ∧ Inv t' L' ∧
      t'.nodes.length = t1.nodes.length + 1 ∧
      (∀ i, i ≠ t1.nodes.length → t'.keyAt i = t1.keyAt i) ∧
      t'.keyAt t1.nodes.length = e.extractValue := by
  simp only [insertMain]
  set elem : Node := { next := List.replicate MAX_LEVEL none, level := level, key := e.extractValue, value := e, prev := none } with helemDef
  set t2 : SkipList := pushElem t1 elem with ht2Def
  have hlen2 : t2.nodes.length = t1.nodes.length + 1 := by
    rw [ht2Def, nodes_length_push]
  have hel2 : t1.nodes.length < t2.nodes.length := by omega
  have hkey2 : t2.keyAt t1.nodes.length = e.extractValue := by
    rw [ht2Def, keyAt_push_self]
  have hkeyne2 : ∀ i, i ≠ t1.nodes.length → t2.keyAt i = t1.keyAt i := by
    intro i hi
    rw [ht2Def, keyAt_push_ne t1 elem i hi]
  have hnext2 : ∀ lvl, t2.nextAt t1.nodes.length lvl = none := by
    intro lvl
    rw [ht2Def, nextAt_push_self]
    exact getD_replicate MAX_LEVEL lvl none
  have hnextne2 : ∀ i, i ≠ t1.nodes.length → ∀ lvl,
      t2.nextAt i lvl = t1.nextAt i lvl := by
    intro i hi lvl
    rw [ht2Def, nextAt_push_ne t1 elem i hi]
  have hprevE2 : t2.prevAt t1.nodes.length = none := by
    rw [ht2Def, prevAt_push_self]
  have hprevne2 : ∀ i, i ≠ t1.nodes.length → t2.prevAt i = t1.prevAt i := by
    intro i hi
    rw [ht2Def, prevAt_push_ne t1 elem i hi]
  have hstart2 : ∀ lvl, t2.startAt lvl = t1.startAt lvl := by
    intro lvl
    rw [ht2Def, startAt_push]
  have hend2 : ∀ lvl, t2.endAt lvl = t1.endAt lvl := by
    intro lvl
    rw [ht2Def, endAt_push]
  have hcount2 : t2.elementCount = t2.nodes.length := by
    rw [ht2Def, elementCount_push, nodes_length_push]
    omega
  have hmaxLe2 : t2.maxLevel ≤ 24 := by rw [ht2Def, maxLevel_push]; exact hmaxLe
  have hmaxNN2 : 0 ≤ t2.maxLevel := by rw [ht2Def, maxLevel_push]; exact hmaxNN
  have hlenS2 : t2.startLevels.length = 25 := by
    rw [ht2Def, startLevels_push]; exact hlenS
  have hlenE2 : t2.endLevels.length = 25 := by
    rw [ht2Def, endLevels_push]; exact hlenE
  have hnodes2 : t2.nodes = t1.nodes ++ [elem] := by rw [ht2Def]; rfl
  have hlenN2 : ∀ m ∈ t2.nodes, m.next.length = 25 := by
    intro m hm
    rw [hnodes2] at hm
    rcases List.mem_append.mp hm with hm1 | hm1
    · exact hlenN m hm1
    · rw [List.mem_singleton] at hm1
      subst hm1
      rw [helemDef]
      exact List.length_replicate MAX_LEVEL none
  have hchain2 : chainOK t2 (t2.startAt 0) L := by
    rw [hstart2]
    refine chainOK_congr t1 t2 L _ hchain ?_
    intro i hi
    exact hnextne2 i (by have := (hmem i).mp hi; omega) 0
  have hprevs2 : prevOK t2 none L := by
    refine prevOK_congr t1 t2 L _ hprevs ?_
    intro i hi
    exact hprevne2 i (by have := (hmem i).mp hi; omega)
  have hend02 : t2.endAt 0 = L.getLast? := by rw [hend2]; exact hend0
  have hasc2 : keysAsc t2 L := by
    refine keysAsc_congr_mem t1 t2 L ?_ hasc
    intro i hi
    exact hkeyne2 i (by have := (hmem i).mp hi; omega)
  have hmem2 : ∀ i, i ∈ L ↔ (i < t2.nodes.length ∧ i ≠ t1.nodes.length) := by
    intro i
    rw [hmem i, hlen2]
    constructor
    · intro h
      exact ⟨by omega, by omega⟩
    · intro h
      omega
  have hdistinct2 : ∀ i j, i < t2.nodes.length → j < t2.nodes.length → i ≠ j →
      t2.keyAt i ≠ t2.keyAt j := by
    intro i j hi hj hij
    rw [hlen2] at hi hj
    by_cases hie : i = t1.nodes.length
    · subst hie
      rw [hkey2, hkeyne2 j (by omega)]
      exact fun hEq => hfresh j (by omega) hEq.symm
    · by_cases hje : j = t1.nodes.length
      · subst hje
        rw [hkey2, hkeyne2 i (by omega)]
        exact hfresh i (by omega)
      · rw [hkeyne2 i hie, hkeyne2 j hje]
        exact hdistinct i j (by omega) (by omega) hij
  have hedges2 : ∀ i lvl j, i < t2.nodes.length → t2.nextAt i lvl = some j →
      t2.keyAt i < t2.keyAt j ∧ j < t2.nodes.length := by
    intro i lvl j hi hn
    by_cases hie : i = t1.nodes.length
    · subst hie
      rw [hnext2 lvl] at hn
      exact absurd hn (by simp)
    · rw [hnextne2 i hie lvl] at hn
      have hi1 : i < t1.nodes.length := by rw [hlen2] at hi; omega
      have hres := hedges i lvl j hi1 hn
      refine ⟨?_, by rw [hlen2]; omega⟩
      rw [hkeyne2 i hie, hkeyne2 j (by omega)]
      exact hres.1
  have hstartsV2 : ∀ lvl j, t2.startAt lvl = some j → j < t2.nodes.length := by
    intro lvl j hs
    rw [hstart2] at hs
    have := hstartsV lvl j hs
    omega
  have hendsV2 : ∀ lvl j, t2.endAt lvl = some j → j < t2.nodes.length := by
    intro lvl j hs
    rw [hend2] at hs
    have := hendsV lvl j hs
    omega
  have hE2ne : ∀ lvl j, t2.endAt lvl = some j → j ≠ t1.nodes.length := by
    intro lvl j hs
    rw [hend2] at hs
    have := hendsV lvl j hs
    omega
  have hnoE2 : ∀ i lvl, t2.nextAt i lvl ≠ some t1.nodes.length := by
    intro i lvl
    by_cases hie : i = t1.nodes.length
    · subst hie
      rw [hnext2]
      simp
    · rcases Nat.lt_or_ge i t2.nodes.length with hlt | hge
      · rw [hnextne2 i hie lvl]
        intro hcon
        have hi1 : i < t1.nodes.length := by rw [hlen2] at hlt; omega
        have := (hedges i lvl _ hi1 hcon).2
        omega
      · rw [nextAt_oob t2 i lvl hge]
        simp
  cases hS0 : t2.startAt 0 with
  | none =>
    have hLnil : L = [] := by
      cases L with
      | nil => rfl
      | cons a r =>
        obtain ⟨ha, _⟩ := hchain2
        rw [hS0] at ha
        exact absurd ha (by simp)
    have hlen0 : t1.nodes.length = 0 := by
      by_contra hne
      have h0 : (0 : Nat) < t1.nodes.length := by omega
      have := (hmem 0).mpr h0
      rw [hLnil] at this
      simp at this
    have hSall : ∀ lvl, t2.startAt lvl = none := by
      intro lvl
      cases h : t2.startAt lvl with
      | none => rfl
      | some j =>
        rw [hstart2] at h
        have := hstartsV lvl j h
        omega
    have hEall : ∀ lvl, t2.endAt lvl = none := by
      intro lvl
      cases h : t2.endAt lvl with
      | none => rfl
      | some j =>
        rw [hend2] at h
        have := hendsV lvl j h
        omega
    refine ⟨anchorLoop t1.nodes.length e.extractValue true true false (level + 1)
      t2, [t1.nodes.length], rfl, ?_, ?_, ?_, ?_⟩
    · exact insert_empty_inv t2 t1.nodes.length e.extractValue level hlev hlen0
        (by omega) hkey2 hSall hEall hnext2 hprevE2 (by rw [hcount2]; omega)
        hmaxLe2 hmaxNN2 hlenS2 hlenE2 hlenN2
    · rw [anchorLoop_len _ _ _ _ _ (by decide), hlen2]
    · intro i hi
      rw [anchorLoop_keyAt _ _ _ _ _ (by decide), hkeyne2 i hi]
    · rw [anchorLoop_keyAt _ _ _ _ _ (by decide), hkey2]
  | some s0 =>
    rcases L with _ | ⟨a, tl⟩
    · rw [hS0] at hchain2
      exact absurd hchain2 (by simp [chainOK])
    · have hheads : t2.startAt 0 = some a := hchain2.1
      rw [hS0] at hheads
      injection hheads with haeq
      subst haeq
      cases hE0 : t2.endAt 0 with
      | none =>
        have hg := List.getLast?_eq_getLast (s0 :: tl) (by simp)
        rw [hend02, hg] at hE0
        exact Option.noConfusion hE0
      | some e0 =>
        have hlast : (s0 :: tl).getLast? = some e0 := by
          rw [← hend02]
          exact hE0
        have he0mem : e0 ∈ s0 :: tl := by
          have hg := List.getLast?_eq_getLast (s0 :: tl) (by simp)
          have hl2 := hlast
          rw [hg] at hl2
          injection hl2 with h2
          rw [← h2]
          exact List.getLast_mem _
        have he0lt : e0 < t1.nodes.length := (hmem e0).mp he0mem
        have he0ne : e0 ≠ t1.nodes.length := by omega
        have hs0mem : s0 ∈ s0 :: tl := List.mem_cons_self s0 tl
        have hs0lt : s0 < t1.nodes.length := (hmem s0).mp hs0mem
        have hs0ne : s0 ≠ t1.nodes.length := by omega
        by_cases hNF : e.extractValue < t2.keyAt s0
        · have hnfT : qLt e.extractValue (t2.keyAt s0) = true :=
            (qLt_iff _ _).mpr hNF
          have hsle : t2.keyAt s0 ≤ t2.keyAt e0 :=
            keysAsc_head_last t2 (s0 :: tl) s0 e0 hasc2 (by rw [List.head?_cons])
              hlast
          have hnlF : qLt (t2.keyAt e0) e.extractValue = false :=
            (qLt_eq_false_iff _ _).mpr
              (not_lt.mpr (le_of_lt (lt_of_lt_of_le hNF hsle)))
          refine ⟨anchorLoop t1.nodes.length e.extractValue true false false
            (level + 1) t2, t1.nodes.length :: (s0 :: tl), ?_, ?_, ?_, ?_, ?_⟩
          · simp only [hnfT, hnlF, Bool.not_true, Bool.not_false, Bool.false_and,
              if_bool_false, if_false, if_true]
          · exact insert_newFirst_inv t2 t1.nodes.length e.extractValue level
              (s0 :: tl) s0 hlev hel2 hkey2 hS0 hNF hchain2 hprevs2 hend02 hasc2
              hmem2 hprevE2 hcount2 hdistinct2 hmaxLe2 hmaxNN2 hedges2 hstartsV2
              hendsV2 hE2ne hlenS2 hlenE2 hlenN2
          · rw [anchorLoop_len _ _ _ _ _ (by decide), hlen2]
          · intro i hi
            rw [anchorLoop_keyAt _ _ _ _ _ (by decide), hkeyne2 i hi]
          · rw [anchorLoop_keyAt _ _ _ _ _ (by decide), hkey2]
        · by_cases hNL : t2.keyAt e0 < e.extractValue
          · have hnfF : qLt e.extractValue (t2.keyAt s0) = false :=
              (qLt_eq_false_iff _ _).mpr hNF
            have hnlT : qLt (t2.keyAt e0) e.extractValue = true :=
              (qLt_iff _ _).mpr hNL
            have hBelow2 : ∀ j, j < t2.nodes.length → j ≠ t1.nodes.length →
                t2.keyAt j < e.extractValue := by
              intro j hj hjne
              have hj1 : j < t1.nodes.length := by rw [hlen2] at hj; omega
              have hjmem : j ∈ s0 :: tl := (hmem j).mpr hj1
              have := keysAsc_le_last t2 (s0 :: tl) e0 hasc2 hlast j hjmem
              exact lt_of_le_of_lt this hNL
            refine ⟨anchorLoop t1.nodes.length e.extractValue false true false
              (level + 1) t2, (s0 :: tl) ++ [t1.nodes.length], ?_, ?_, ?_, ?_, ?_⟩
            · simp only [hnfF, hnlT, Bool.not_true, Bool.not_false,
                Bool.and_false, Bool.true_and, if_bool_false, if_false, if_true]
            · exact insert_newLast_inv t2 t1.nodes.length e.extractValue level
                (s0 :: tl) e0 hlev hel2 hkey2 hE0 hBelow2 hchain2 hprevs2 hend02
                hasc2 hmem2 hnext2 hcount2 hdistinct2 hmaxLe2 hmaxNN2 hedges2
                hstartsV2 hendsV2 hE2ne hlenS2 hlenE2 hlenN2
            · rw [anchorLoop_len _ _ _ _ _ (by decide), hlen2]
            · intro i hi
              rw [anchorLoop_keyAt _ _ _ _ _ (by decide), hkeyne2 i hi]
            · rw [anchorLoop_keyAt _ _ _ _ _ (by decide), hkey2]
          · have hnfF : qLt e.extractValue (t2.keyAt s0) = false :=
              (qLt_eq_false_iff _ _).mpr hNF
            have hnlF2 : qLt (t2.keyAt e0) e.extractValue = false :=
              (qLt_eq_false_iff _ _).mpr hNL
            have hs0k : t2.keyAt s0 < e.extractValue := by
              have hle := not_lt.mp hNF
              have hne : t2.keyAt s0 ≠ e.extractValue := by
                rw [hkeyne2 s0 hs0ne]
                exact hfresh s0 hs0lt
              exact lt_of_le_of_ne hle hne
            have he0k : e.extractValue < t2.keyAt e0 := by
              have hle := not_lt.mp hNL
              have hne : t2.keyAt e0 ≠ e.extractValue := by
                rw [hkeyne2 e0 he0ne]
                exact hfresh e0 he0lt
              exact lt_of_le_of_ne hle (Ne.symm hne)
            have hWH : WalkHyp t2 (s0 :: tl) t1.nodes.length e.extractValue :=
              { chain := hchain2
                end0 := hend02
                mem := hmem2
                elemLt := hel2
                elemKey := hkey2
                edges := hedges2
                startsV := fun lvl j hs => ⟨hstartsV2 lvl j hs, by
                  rw [hstart2] at hs
                  have := hstartsV lvl j hs
                  omega⟩
                distinct := hdistinct2
                lenS := hlenS2
                lenN := hlenN2
                low := ⟨s0, hS0, hs0k⟩
                high := ⟨e0, hE0, he0k⟩ }
            have hidx : t2.findEntryIndex e.extractValue level ≤ 24 :=
              findEntryIndex_le t2 _ level hmaxLe2
            have habove : aboveCnt t2 none = t2.nodes.length + 1 := rfl
            have hfuel : t2.findEntryIndex e.extractValue level + 1 +
                26 * aboveCnt t2 none ≤ bigFuel t2 := by
              rw [habove, bigFuel]
              omega
            obtain ⟨c, nn, t3, hwalkEq, hpost⟩ := insertWalkGo_spec
              e.extractValue t1.nodes.length level (s0 :: tl) (bigFuel t2)
              (t2.findEntryIndex e.extractValue level) none t2 hWH hidx
              (fun i lvl _ => hnoE2 i lvl) (Or.inl rfl) hfuel
            obtain ⟨hc', hcne', hnn', hnne', hcnext', hck', hnk', hsplice'⟩ :=
              hpost
            have hspliceCopy := hsplice'
            obtain ⟨-, -, -, -, -, -, -, -, -, hlen3, hkeys3, -, -, -, -⟩ :=
              hspliceCopy
            obtain ⟨L', hInvF, hmemF⟩ := insert_normally_inv t2 t3
              t1.nodes.length c nn e.extractValue level (s0 :: tl) s0 hlev hel2
              hkey2 hS0 hs0k hc' hcne' hnn' hnne' hcnext' hck' hnk' hsplice'
              hchain2 hprevs2 hend02 hasc2 hmem2 hcount2 hdistinct2 hmaxLe2
              hmaxNN2 hstartsV2 hendsV2 hE2ne hlenS2 hlenE2
            refine ⟨anchorLoop t1.nodes.length e.extractValue false false true
              (level + 1) t3, L', ?_, hInvF, ?_, ?_, ?_⟩
            · simp only [hnfF, hnlF2, Bool.not_false, Bool.true_and,
                Bool.and_self, if_bool_true, if_true]
              rw [hwalkEq]
            · rw [anchorLoop_len _ _ _ _ _ (by decide), hlen3, hlen2]
            · intro i hi
              rw [anchorLoop_keyAt _ _ _ _ _ (by decide), hkeys3, hkeyne2 i hi]
            · rw [anchorLoop_keyAt _ _ _ _ _ (by decide), hkeys3, hkey2]

theorem Insert_step (t : SkipList) (L : List Nat) (e : ListElem) (genLevel : Nat)
    (hInv : Inv t L)
    (hfresh : ∀ i, i < t.nodes.length → t.keyAt i ≠ e.extractValue)
    (hgen : genLevel ≤ 24) :
    ∃ t' L', t.Insert e genLevel = .ok t' ∧ Inv t' L' ∧
      t'.nodes.length = t.nodes.length + 1 ∧
      (∀ i, i ≠ t.nodes.length → t'.keyAt i = t.keyAt i) ∧
      t'.keyAt t.nodes.length = e.extractValue := by
  rw [Insert_eq_main]
  by_cases hcl : (genLevel : Int) > t.maxLevel + 1
  · rw [if_pos hcl]
    have hNN := hInv.maxNN
    refine insertMain_inv { t with maxLevel := t.maxLevel + 1 } L e
      (t.maxLevel + 1).toNat
      (chainOK_congr t _ L _ hInv.chain (fun i _ => rfl))
      (prevOK_congr t _ L _ hInv.prevs (fun i _ => rfl))
      hInv.end0
      (keysAsc_congr t _ L (fun i => rfl) hInv.asc)
      hInv.mem hInv.count hInv.edges hInv.startsV hInv.endsV hInv.distinct
      ?_ ?_ hInv.lenS hInv.lenE hInv.lenN hfresh ?_
    · show t.maxLevel + 1 ≤ 24
      omega
    · show (0 : Int) ≤ t.maxLevel + 1
      omega
    · omega
  · rw [if_neg hcl]
    exact insertMain_inv t L e genLevel hInv.chain hInv.prevs hInv.end0 hInv.asc
      hInv.mem hInv.count hInv.edges hInv.startsV hInv.endsV hInv.distinct
      hInv.maxLe hInv.maxNN hInv.lenS hInv.lenE hInv.lenN hfresh hgen

theorem Inv_init (eps : ℚ) : Inv (NewSeedEps eps) [] := by
  refine ⟨rfl, trivial, rfl, List.chain'_nil, ?_, rfl, ?_, ?_, ?_, ?_, ?_, ?_,
    ?_, ?_, ?_⟩
  · intro i
    simp [NewSeedEps]
  · intro i lvl j hi _
    simp [NewSeedEps] at hi
  · intro lvl j hs
    rw [show (NewSeedEps eps).startAt lvl = none from getD_replicate _ _ _] at hs
    exact Option.noConfusion hs
  · intro lvl j hs
    rw [show (NewSeedEps eps).endAt lvl = none from getD_replicate _ _ _] at hs
    exact Option.noConfusion hs
  · intro i j hi _ _
    simp [NewSeedEps] at hi
  · show (0 : Int) ≤ 24
    decide
  · show (0 : Int) ≤ 0
    decide
  · exact List.length_replicate MAX_LEVEL none
  · exact List.length_replicate MAX_LEVEL none
  · intro m hm
    simp [NewSeedEps] at hm

/-- Does the operation insert? -/
def isIns : Op → Bool
  | .ins _ _ _ => true
  | .del _ => false

/-- The key of an operation. -/
def opKey : Op → ℚ
  | .ins k _ _ => k
  | .del k => k

/-- The drawn level of an insert operation. -/
def opLvl : Op → Nat
  | .ins _ _ lvl => lvl
  | .del _ => 0

theorem runOpsFrom_inserts (ops : List Op) :
    ∀ (t : SkipList) (L : List Nat), Inv t L →
      (∀ op ∈ ops, isIns op = true) →
      (∀ op ∈ ops, opLvl op ≤ 24) →
      (ops.map opKey).Nodup →
      (∀ op ∈ ops, ∀ i, i < t.nodes.length → t.keyAt i ≠ opKey op) →
      ∃ t' L', runOpsFrom t ops = .ok t' ∧ Inv t' L' := by
  induction ops with
  | nil =>
    intro t L hInv _ _ _ _
    exact ⟨t, L, rfl, hInv⟩
  | cons op rest ih =>
    intro t L hInv hIns hLvl hNodup hfresh
    cases op with
    | del k =>
      have := hIns _ (List.mem_cons_self _ _)
      exact absurd this (by simp [isIns])
    | ins k tag lvl =>
      have hlvl : lvl ≤ 24 := hLvl _ (List.mem_cons_self _ _)
      have hfr : ∀ i, i < t.nodes.length →
          t.keyAt i ≠ (⟨k, tag⟩ : ListElem).extractValue := by
        intro i hi
        exact hfresh _ (List.mem_cons_self _ _) i hi
      obtain ⟨t', L', hok, hInv', hlen', hkeys', hkeyself'⟩ :=
        Insert_step t L ⟨k, tag⟩ lvl hInv hfr hlvl
      have hndtail : (rest.map opKey).Nodup := by
        rw [List.map_cons] at hNodup
        exact (List.nodup_cons.mp hNodup).2
      have hknotin : k ∉ rest.map opKey := by
        rw [List.map_cons] at hNodup
        exact (List.nodup_cons.mp hNodup).1
      have hfresh' : ∀ op ∈ rest, ∀ i, i < t'.nodes.length →
          t'.keyAt i ≠ opKey op := by
        intro op hop i hi
        rw [hlen'] at hi
        by_cases hie : i = t.nodes.length
        · subst hie
          rw [hkeyself']
          intro hEq
          have : k ∈ rest.map opKey := by
            have hmm := List.mem_map_of_mem opKey hop
            rw [← hEq] at hmm
            exact hmm
          exact hknotin this
        · rw [hkeys' i hie]
          exact hfresh op (List.mem_cons_of_mem _ hop) i (by omega)
      obtain ⟨t'', L'', hok2, hInv''⟩ := ih t' L' hInv'
        (fun op hop => hIns op (List.mem_cons_of_mem _ hop))
        (fun op hop => hLvl op (List.mem_cons_of_mem _ hop))
        hndtail hfresh'
      refine ⟨t'', L'', ?_, hInv''⟩
      show runOpsFrom t (Op.ins k tag lvl :: rest) = .ok t''
      simp only [runOpsFrom]
      rw [hok]
      exact hok2

end C5Anchor

section ClaimC5

/-- C5 (amended): after every sequence of `Insert` operations with
pairwise-distinct keys on a fresh empty list, following `next[0]` from
`startLevels[0]` visits every live node exactly once in strictly ascending key
order, the backward `prev` links mirror the forward chain, the walk ends at
`endLevels[0]`, and the `Next`/`Prev` wrap makes the level-0 chain circular
(`Next` of the last node is the first node and `Prev` of the first node is the
last node). -/
theorem insert_distinct_keys_sorted_chain (ops : List Op)
    (hIns : ∀ op ∈ ops, isIns op = true)
    (hLvl : ∀ op ∈ ops, opLvl op ≤ 24)
    (hNodup : (ops.map opKey).Nodup) :
    ∃ t L, runOps ops = .ok t ∧
      chainOK t (t.startAt 0) L ∧ prevOK t none L ∧
      t.endAt 0 = L.getLast? ∧ keysAsc t L ∧
      (∀ i, i ∈ L ↔ i < t.nodes.length) ∧
      t.elementCount = t.nodes.length ∧
      (∀ f l, L.head? = some f → L.getLast? = some l →
        t.Next l = some f ∧ t.Prev f = some l) := by
  obtain ⟨t', L', hok, hInv⟩ := runOpsFrom_inserts ops (NewSeedEps EPS) []
    (Inv_init EPS) hIns hLvl hNodup
    (by
      intro op _ i hi
      simp [NewSeedEps] at hi)
  refine ⟨t', L', hok, hInv.chain, hInv.prevs, hInv.end0, hInv.asc, hInv.mem,
    hInv.count, ?_⟩
  intro f l hf hl
  cases L' with
  | nil => exact absurd hf (by simp)
  | cons f0 restL =>
    rw [List.head?_cons] at hf
    injection hf with hfe
    subst hfe
    constructor
    · have hlnone : t'.nextAt l 0 = none :=
        chainOK_last_none t' (f0 :: restL) _ l hInv.chain hl
      rw [SkipList.Next, hlnone]
      exact hInv.chain.1
    · have hpf : t'.prevAt f0 = none := hInv.prevs.1
      rw [SkipList.Prev, hpf]
      rw [hInv.end0]
      exact hl

theorem insert_distinct_keys_sorted_chain_witness :
    (∀ op ∈ ([Op.ins 10 0 1, Op.ins 5 0 0, Op.ins 20 0 2] : List Op),
      isIns op = true) ∧
    (∀ op ∈ ([Op.ins 10 0 1, Op.ins 5 0 0, Op.ins 20 0 2] : List Op),
      opLvl op ≤ 24) ∧
    (([Op.ins 10 0 1, Op.ins 5 0 0, Op.ins 20 0 2] : List Op).map opKey).Nodup ∧
    (∃ t L, runOps [Op.ins 10 0 1, Op.ins 5 0 0, Op.ins 20 0 2] = .ok t ∧
      chainOK t (t.startAt 0) L ∧ prevOK t none L ∧
      t.endAt 0 = L.getLast? ∧ keysAsc t L ∧
      (∀ i, i ∈ L ↔ i < t.nodes.length) ∧
      t.elementCount = t.nodes.length ∧
      (∀ f l, L.head? = some f → L.getLast? = some l →
        t.Next l = some f ∧ t.Prev f = some l)) :=
  ⟨by decide, by decide, by decide,
    insert_distinct_keys_sorted_chain [Op.ins 10 0 1, Op.ins 5 0 0, Op.ins 20 0 2]
      (by decide) (by decide) (by decide)⟩

end ClaimC5

section ClaimC8

/-- C8: on every list satisfying the structural invariants, traversal round
trips: for every live node `n` there is a node `p` with `Prev n = p` and
`Next p = n`, and a node `m` with `Next n = m` and `Prev m = n`; when the list
holds exactly one node `n`, `Next n = n` and `Prev n = n`.  Neither operation
fails: both always return a node. -/
theorem next_prev_roundtrip (t : SkipList) (L : List Nat) (hwf : Wf t L)
    (n : Nat) (hn : liveAt L n) :
    (∃ p, t.Prev n = some p ∧ t.Next p = some n) ∧
    (∃ m, t.Next n = some m ∧ t.Prev m = some n) ∧
    (L = [n] → t.Next n = some n ∧ t.Prev n = some n) := by
  obtain ⟨k, hk, rfl⟩ := List.mem_iff_getElem.mp hn
  have hlen0 : 0 < L.length := lt_of_le_of_lt (Nat.zero_le k) hk
  have hne : L ≠ [] := List.length_pos.mp hlen0
  have hadj := List.chain'_iff_get.mp hwf.links
  simp only [List.get_eq_getElem] at hadj
  have hhead : L.head? = some L[0] := by
    cases L with
    | nil => simp at hlen0
    | cons a l => rfl
  have hlast : L.getLast? = some L[L.length - 1] := by
    rw [List.getLast?_eq_getLast_of_ne_nil hne, List.getLast_eq_getElem]
  have hlastNone : t.nextAt L[L.length - 1] 0 = none := hwf.lastNone _ hlast
  have hheadNone : t.prevAt L[0] = none := hwf.headNone _ hhead
  have hNext_mid : ∀ i, (h : i + 1 < L.length) → t.Next L[i] = some L[i + 1] := by
    intro i h
    have h1 := (hadj i (by omega)).1
    simp only [SkipList.Next, h1]
  have hNext_last : t.Next L[L.length - 1] = some L[0] := by
    simp only [SkipList.Next, hlastNone, hwf.start0, hhead]
  have hPrev_mid : ∀ i, (h : i + 1 < L.length) → t.Prev L[i + 1] = some L[i] := by
    intro i h
    have h2 := (hadj i (by omega)).2
    simp only [SkipList.Prev, h2]
  have hPrev_head : t.Prev L[0] = some L[L.length - 1] := by
    simp only [SkipList.Prev, hheadNone, hwf.end0, hlast]
  have hstep : ∀ i j, (hij : i + 1 = j) → (hj : j < L.length) →
      t.Prev L[j] = some L[i] ∧ t.Next L[i] = some L[j] := by
    intro i j hij hj
    subst hij
    exact ⟨hPrev_mid i hj, hNext_mid i hj⟩
  refine ⟨?_, ?_, ?_⟩
  · by_cases hk0 : k = 0
    · subst hk0
      exact ⟨L[L.length - 1], hPrev_head, hNext_last⟩
    · obtain ⟨h2, h3⟩ := hstep (k - 1) k (by omega) hk
      exact ⟨L[k - 1], h2, h3⟩
  · by_cases hk1 : k + 1 < L.length
    · obtain ⟨h2, h3⟩ := hstep k (k + 1) rfl hk1
      exact ⟨L[k + 1], h3, h2⟩
    · have hkl : k = L.length - 1 := by omega
      subst hkl
      exact ⟨L[0], hNext_last, hPrev_head⟩
  · intro heq
    have h1 : L.getLast? = some L[k] := by simpa using congrArg List.getLast? heq
    have h2 : L.head? = some L[k] := by simpa using congrArg List.head? heq
    have hnxt := hwf.lastNone _ h1
    have hprv := hwf.headNone _ h2
    constructor
    · simp only [SkipList.Next, hnxt, hwf.start0, h2]
    · simp only [SkipList.Prev, hprv, hwf.end0, h1]

/-- Witness for the round-trip theorem on a concrete two-node list with keys
10 and 20 (nodes 0 and 1), at the live node 0. -/
theorem next_prev_roundtrip_witness :
    (∃ p, twoState.Prev 0 = some p ∧ twoState.Next p = some 0) ∧
    (∃ m, twoState.Next 0 = some m ∧ twoState.Prev m = some 0) ∧
    ([0, 1] = [0] → twoState.Next 0 = some 0 ∧ twoState.Prev 0 = some 0) :=
  next_prev_roundtrip twoState [0, 1]
    ⟨by decide, by decide,
     by rw [List.chain'_cons]; exact ⟨⟨by decide, by decide⟩, List.chain'_singleton _⟩,
     by intro i hi; simp at hi; subst hi; decide,
     by intro i hi; simp at hi; subst hi; decide,
     by rw [List.chain'_cons]; exact ⟨by decide, List.chain'_singleton _⟩⟩
    0 (by simp [liveAt])

end ClaimC8

end Skiplist
